import Mathlib

/-!
Verification development for the task auto-assignment system (src/app.py).

The core scheduling pipeline of `app.py` — `generate_time_slots`,
`calculate_skill_match`, the recursive `topological_sort` inside
`assign_tasks`, and the day/slot/worker greedy assignment loop of
`assign_tasks` itself, together with the Production Order form handling —
is shallowly embedded below.

Modelling conventions:
* Python floats (scores, progress percentages, aggressiveness
  coefficients) are modelled as exact rationals `ℚ`; IEEE rounding is not
  modelled.
* The two randomization points of the algorithm (the day-1 draw of
  aggressive workers, and each worker's aggressiveness coefficient) are
  explicit parameters of the run context `Ctx`, matching the spec's
  requirement that the scheduler be a pure function of (inputs, seed).
* A pandas-NaN `Requirements` cell is modelled as the empty list `[]`;
  a non-empty cell is the comma-split, stripped list of result-id tokens.
* Time slots are addressed by their index into the `generate_time_slots`
  list; the slot strings are pairwise distinct, so string keying in the
  Python dict is equivalent to index keying.
* Task instances are addressed by their index into the `all_tasks` list;
  Python object identity of the task dicts corresponds to list indices.
* Uncaught Python exceptions (`KeyError` when a requirement references an
  unknown result id while building the dependency graph, `StopIteration`
  in `topological_sort`, `ZeroDivisionError` for an empty roster) are
  modelled by `Option`/`none` results.
* The dead write-only fields of `worker_stats` that influence neither the
  schedule nor any claim (`task_history`, `completed_products`,
  `total_tasks_completed`, `skill_utilization`, `time_spent_on_product`,
  `current_task`) are omitted; the behaviour-relevant fields
  (`current_product`, `progression_score`, `aggressiveness`) are kept.
* To reason about the schedule grid and the assignment history, the state
  additionally records `writes` (the list of (day, worker, slot) grid
  cells written, in order) and `log` (one entry per task assignment).
  These are pure instrumentation: they are append-only and are never read
  by the step functions.
-/

namespace TaskAssign

/- Batteries marks the `Rat` arithmetic operations `@[irreducible]`,
which prevents concrete runs of the embedded scheduler from being
evaluated by `decide`/`rfl`; restore their reducibility for this file. -/
attribute [local semireducible] Rat.add Rat.mul Rat.inv Rat.sub Rat.ofScientific

/-- One row of the product catalog (`products.csv`). -/
structure TaskDef where
  product : String
  task_name : String
  result : String
  requirements : List String
  duration : Nat
  bending : Nat
  gluing : Nat
  assembling : Nat
  edge_scrap : Nat
  open_paper : Nat
  quality_control : Nat
deriving DecidableEq

/-- One row of the worker roster (`workers.csv`). -/
structure Worker where
  name : String
  bending : ℚ
  gluing : ℚ
  assembling : ℚ
  edge_scrap : ℚ
  open_paper : ℚ
  quality_control : ℚ
  fav1 : String
  fav2 : String
  fav3 : String
deriving DecidableEq

/-- One element of `all_tasks` built at the start of `assign_tasks`
(lines 132-157 of app.py). -/
structure TaskInstance where
  product : String
  task_name : String
  task_id : String
  requirements : List String
  duration : Nat
  bending : Nat
  gluing : Nat
  assembling : Nat
  edge_scrap : Nat
  open_paper : Nat
  quality_control : Nat
  assigned : Bool
  in_progress : Bool
  completed : Bool
  day_assigned : Option Nat
  slot_assigned : Option Nat
  progress_percentage : ℚ
  workers_involved : List String
deriving DecidableEq

/-- The record stored in a schedule grid cell (lines 371-375). -/
structure Cell where
  product : String
  task : String
  task_id : String
deriving DecidableEq

/-- An entry of `task_progress` (lines 163-169).  `required_for` collects
the `task_id` of every task instance that lists this result id among its
requirements (line 177); the three Boolean flags are written by the
scheduler but never read. -/
structure DepInfo where
  required_for : List String
  any_progress : Bool
  started : Bool
  min_progress_met : Bool
deriving DecidableEq

/-- The behaviour-relevant part of a `worker_stats` entry
(lines 118-130). -/
structure WStat where
  current_product : Option String
  progression_score : Nat
  aggressiveness : ℚ
deriving DecidableEq

/-- Instrumentation: one record per executed task assignment
(the `if best_task:` block, lines 350-438). -/
structure LogEntry where
  day : Nat
  slot : Nat
  taskIdx : Nat
  worker : String
  committed : Nat
deriving DecidableEq

/-- The inputs of one scheduling run: catalog, roster, requested
quantities, and the two externalized random draws. -/
structure Ctx where
  catalog : List TaskDef
  roster : List Worker
  quantities : List (String × Nat)
  aggrOf : String → ℚ
  day1Aggressive : List String

/-- `generate_time_slots` zero-pads the hour; helper for the hour text. -/
def two_digit (h : Nat) : String :=
  if h < 10 then "0" ++ toString h else toString h

/-- `generate_time_slots` (lines 81-87): two half-hour slots per hour. -/
def generate_time_slots (start_hour end_hour : Nat) : List String :=
  ((List.range' start_hour (end_hour - start_hour)).map
    (fun h => [two_digit h ++ ":00", two_digit h ++ ":30"])).flatten

/-- Number of slots per day; `assign_tasks` fixes hours 8..16 (line 100). -/
def slotsCount : Nat := (generate_time_slots 8 16).length

/-- Python's `int(...)` truncation, for the non-negative rationals the
scheduler applies it to (it agrees with the floor there).  Defined by
natural division so that it evaluates inside the kernel; it is proved
equal to `Nat.floor` on non-negative arguments below. -/
def pyInt (q : ℚ) : Nat := q.num.toNat / q.den

/-- `np.ceil` followed by `int(...)`, for non-negative rationals; agrees
with `Nat.ceil` there (proved below). -/
def pyCeil (q : ℚ) : Nat := (q.num.toNat + q.den - 1) / q.den

/-- The six skill-relevance weights of a task. -/
structure SkillAttrs where
  bending : Nat
  gluing : Nat
  assembling : Nat
  edge_scrap : Nat
  open_paper : Nat
  quality_control : Nat
deriving DecidableEq

/-- The (worker skill, task weight) pairs in the fixed skill order of
`calculate_skill_match` (line 69). -/
def skillPairs (w : Worker) (a : SkillAttrs) : List (ℚ × Nat) :=
  [(w.bending, a.bending), (w.gluing, a.gluing), (w.assembling, a.assembling),
   (w.edge_scrap, a.edge_scrap), (w.open_paper, a.open_paper),
   (w.quality_control, a.quality_control)]

/-- `calculate_skill_match` (lines 65-79): weighted average of the
worker's skills over the task's relevant (nonzero-weight) dimensions,
0 when no dimension is relevant. -/
def calculate_skill_match (w : Worker) (a : SkillAttrs) : ℚ :=
  let acc := (skillPairs w a).foldl
    (fun acc p =>
      if 0 < p.2 then
        (acc.1 + p.1 * ((p.2 : ℚ) / 100), acc.2 + (p.2 : ℚ) / 100)
      else acc)
    ((0 : ℚ), (0 : ℚ))
  if acc.2 = 0 then 0 else acc.1 / acc.2

/-- The skill weights of a task instance. -/
def TaskInstance.attrs (t : TaskInstance) : SkillAttrs :=
  ⟨t.bending, t.gluing, t.assembling, t.edge_scrap, t.open_paper, t.quality_control⟩

/-- `mkInstance` initializes one `all_tasks` entry (lines 138-157). -/
def mkInstance (r : TaskDef) : TaskInstance :=
  { product := r.product, task_name := r.task_name, task_id := r.result,
    requirements := r.requirements, duration := r.duration,
    bending := r.bending, gluing := r.gluing, assembling := r.assembling,
    edge_scrap := r.edge_scrap, open_paper := r.open_paper,
    quality_control := r.quality_control,
    assigned := false, in_progress := false, completed := false,
    day_assigned := none, slot_assigned := none,
    progress_percentage := 0, workers_involved := [] }

/-- `all_tasks` (lines 132-157): for each requested product, each of its
catalog rows is repeated `quantity` times. -/
def buildAllTasks (catalog : List TaskDef) (quantities : List (String × Nat)) :
    List TaskInstance :=
  (quantities.map (fun pq =>
    ((catalog.filter (fun r => r.product == pq.1)).map
      (fun r => List.replicate pq.2 (mkInstance r))).flatten)).flatten

/-- The keys of `task_groups` in insertion (first-appearance) order
(lines 159-162). -/
def groupKeys (tasks : List TaskInstance) : List String :=
  tasks.foldl (fun acc t => if t.task_name ∈ acc then acc else acc ++ [t.task_name]) []

/-- Overwrite-or-append update of the `task_progress` association list. -/
def setAssocDep (m : List (String × DepInfo)) (k : String) (v : DepInfo) :
    List (String × DepInfo) :=
  if m.any (fun p => p.1 == k) then
    m.map (fun p => if p.1 == k then (k, v) else p)
  else m ++ [(k, v)]

/-- Initialization of `task_progress` (lines 163-169): one fresh entry per
result id (re-initialized on repeated ids, which is idempotent here). -/
def depBase (tasks : List TaskInstance) : List (String × DepInfo) :=
  tasks.foldl (fun m t => setAssocDep m t.task_id ⟨[], false, false, false⟩) []

/-- `task_progress[req]['required_for'].append(task_id)` (line 177);
`none` models the `KeyError` raised when `req` is not a known result id. -/
def pushRequiredFor (m : List (String × DepInfo)) (req dependent : String) :
    Option (List (String × DepInfo)) :=
  if m.any (fun p => p.1 == req) then
    some (m.map (fun p =>
      if p.1 == req then (p.1, { p.2 with required_for := p.2.required_for ++ [dependent] })
      else p))
  else none

/-- The dependency-graph build (lines 171-182, `task_progress` half). -/
def buildDepMap (tasks : List TaskInstance) : Option (List (String × DepInfo)) :=
  tasks.foldlM
    (fun m t => t.requirements.foldlM (fun m2 r => pushRequiredFor m2 r t.task_id) m)
    (depBase tasks)

/-- `requirement_mappings[req].append(task_id)` with create-on-miss
(lines 179-182). -/
def pushReqMapping (m : List (String × List String)) (req dependent : String) :
    List (String × List String) :=
  if m.any (fun p => p.1 == req) then
    m.map (fun p => if p.1 == req then (p.1, p.2 ++ [dependent]) else p)
  else m ++ [(req, [dependent])]

/-- The dependency-graph build (lines 171-182, `requirement_mappings`
half). -/
def buildReqMap (tasks : List TaskInstance) : List (String × List String) :=
  tasks.foldl
    (fun m t => t.requirements.foldl (fun m2 r => pushReqMapping m2 r t.task_id) m)
    []

/-- The task name producing a given result id:
`next(t['task_name'] for t in all_tasks if t['task_id'] == req)`
(line 199); `none` models the `StopIteration`. -/
def producerName (tasks : List TaskInstance) (r : String) : Option String :=
  (tasks.find? (fun t => t.task_id == r)).map (·.task_name)

mutual

/-- The recursive `topological_sort` (lines 188-202), on the state
(visited, processing_order).  The Python recursion always terminates
because a name is marked visited before recursing; the `fuel` argument
realizes this in Lean — it decreases on every call (keeping the
recursion structural) and every use supplies enough fuel for the bounded
recursion depth, so the `fuel = 0` branch is never reached. -/
def topoVisit (tasks : List TaskInstance) : Nat → String →
    List String × List String → Option (List String × List String)
  | 0, _, _ => none
  | Nat.succ f, name, st =>
    if name ∈ st.1 then some st
    else
      match tasks.find? (fun t => t.task_name == name) with
      | none => none
      | some t =>
        match topoReqs tasks f t.requirements (name :: st.1, st.2) with
        | none => none
        | some st2 => some (st2.1, st2.2 ++ [name])

/-- The `for req in sample_task['requirements'].split(',')` loop of
`topological_sort` (lines 195-200). -/
def topoReqs (tasks : List TaskInstance) : Nat → List String →
    List String × List String → Option (List String × List String)
  | 0, _, _ => none
  | Nat.succ _, [], st => some st
  | Nat.succ f, r :: rs, st =>
    match producerName tasks r with
    | none => none
    | some pn =>
      match topoVisit tasks f pn st with
      | none => none
      | some st2 => topoReqs tasks f rs st2

end

/-- The longest requirements list of any task; used to bound the
recursion depth of `topological_sort`. -/
def maxReqLen (tasks : List TaskInstance) : Nat :=
  tasks.foldl (fun acc t => max acc t.requirements.length) 0

/-- Fuel that always suffices for `topoVisit` (proved below where
needed): visiting a name with `u` group keys still unvisited consumes at
most `(u + 1) * (maxReqLen + 2)` fuel. -/
def topoFuel (tasks : List TaskInstance) : Nat :=
  (tasks.length + 1) * (maxReqLen tasks + 2)

/-- `processing_order` (lines 184-206): depth-first over all group keys. -/
def processingOrder (tasks : List TaskInstance) : Option (List String) :=
  ((groupKeys tasks).foldlM
    (fun st name => topoVisit tasks (topoFuel tasks) name st)
    ([], [])).map (·.2)

/-- The schedule grid: day → worker name → slot index → cell. -/
def Grid : Type := Nat → String → Nat → Option Cell

/-- The mutable state of one `assign_tasks` run. -/
structure SchedState where
  tasks : List TaskInstance
  grid : Grid
  pool : List Nat
  partials : List String
  completeds : List String
  taskProgress : List (String × DepInfo)
  reqMappings : List (String × List String)
  stats : List (String × WStat)
  aggressive : List String
  writes : List (Nat × String × Nat)
  log : List LogEntry

/-- Set-like insertion for the `partial_completions` /
`completed_task_ids` Python sets. -/
def insertStr (l : List String) (s : String) : List String :=
  if s ∈ l then l else s :: l

/-- Write one grid cell. -/
def setCell (g : Grid) (d : Nat) (w : String) (s : Nat) (c : Cell) : Grid :=
  fun d' w' s' => if d' = d ∧ w' = w ∧ s' = s then some c else g d' w' s'

/-- The cell-filling loop (lines 368-375): fill `n` consecutive slots
from `start`, guarded by the end of the day. -/
def fillCells (g : Grid) (d : Nat) (w : String) (numSlots start : Nat) (c : Cell) :
    Nat → Grid
  | 0 => g
  | Nat.succ n =>
    let g' := fillCells g d w numSlots start c n
    if start + n < numSlots then setCell g' d w (start + n) c else g'

/-- The (day, worker, slot) keys written by one cell-filling loop. -/
def writesFor (d : Nat) (w : String) (numSlots start n : Nat) :
    List (Nat × String × Nat) :=
  (List.range n).filterMap
    (fun j => if start + j < numSlots then some (d, w, start + j) else none)

/-- Lookup of a worker's running stats; all roster workers are present. -/
def getStat (st : SchedState) (w : String) : WStat :=
  ((st.stats.lookup w).getD ⟨none, 0, 0⟩)

/-- Update of one worker's running stats. -/
def setStat (stats : List (String × WStat)) (w : String) (f : WStat → WStat) :
    List (String × WStat) :=
  stats.map (fun p => if p.1 == w then (p.1, f p.2) else p)

/-- Update of one `task_progress` entry. -/
def setDep (m : List (String × DepInfo)) (k : String) (f : DepInfo → DepInfo) :
    List (String × DepInfo) :=
  m.map (fun p => if p.1 == k then (p.1, f p.2) else p)

/-- The per-worker eligibility test of the scan loop (lines 282-306):
aggressive workers need ANY requirement started or completed, regular
workers need ALL requirements completed; no-requirement tasks pass. -/
def admissible (isAggr : Bool) (partials completeds : List String)
    (t : TaskInstance) : Bool :=
  match t.requirements with
  | [] => true
  | reqs =>
    if isAggr then reqs.any (fun r => partials.contains r || completeds.contains r)
    else reqs.all (fun r => completeds.contains r)

/-- The score of one candidate task for one worker (lines 308-343). -/
def taskScore (st : SchedState) (wd : Worker) (wname : String) (isAggr : Bool)
    (t : TaskInstance) : ℚ :=
  let skill_score := calculate_skill_match wd t.attrs
  let continuity_score : ℚ :=
    if (getStat st wname).current_product = some t.product then 0.1 else 0
  let product_pref : ℚ :=
    if t.product = wd.fav1 then 0.05
    else if t.product = wd.fav2 then 0.03
    else if t.product = wd.fav3 then 0.02
    else 0
  let progression_bonus : ℚ :=
    if isAggr then
      match st.taskProgress.lookup t.task_id with
      | some info =>
        if 0 < info.required_for.length then
          0.25 * (getStat st wname).aggressiveness * (info.required_for.length : ℚ)
        else 0
      | none => 0
    else 0
  skill_score * 0.6 + continuity_score + product_pref + progression_bonus

/-- The best-task scan over a copy of the pool (lines 275-347): strict
improvement only, so the first-encountered candidate wins ties. -/
def scanPool (st : SchedState) (wd : Worker) (wname : String) (isAggr : Bool) :
    Option Nat :=
  (st.pool.foldl
    (fun (acc : ℚ × Option Nat) i =>
      match st.tasks[i]? with
      | none => acc
      | some t =>
        if admissible isAggr st.partials st.completeds t then
          let sc := taskScore st wd wname isAggr t
          if acc.1 < sc then (sc, some i) else acc
        else acc)
    ((-1 : ℚ), none)).2

/-- The update of the selected task record inside the assignment block
(lines 377-405): add the progress contribution, record the worker, set
assigned/completed or in_progress, and overwrite the day/slot fields. -/
def updatedTask (t : TaskInstance) (wname : String) (day slotIdx : Nat) (pct : ℚ) :
    TaskInstance :=
  let t1 := { t with progress_percentage := t.progress_percentage + pct,
                     workers_involved := t.workers_involved ++ [wname] }
  let t2 :=
    if decide ((100 : ℚ) ≤ t1.progress_percentage) then
      { t1 with assigned := true, completed := true }
    else { t1 with in_progress := true }
  { t2 with day_assigned := some day, slot_assigned := some slotIdx }

/-- The assignment block (lines 350-438) for the selected task index. -/
def applyAssign (day slotIdx : Nat) (st : SchedState) (wname : String)
    (isAggr : Bool) (bi : Nat) : SchedState :=
  match st.tasks[bi]? with
  | none => st
  | some t =>
    let remaining := slotsCount - slotIdx
    let origDur := t.duration
    let dur : Nat :=
      if isAggr then
        let completion_target := (getStat st wname).aggressiveness * 0.4
        max 1 (min (pyInt ((origDur : ℚ) * completion_target)) remaining)
      else min origDur remaining
    let cell : Cell := ⟨t.product, t.task_name, t.task_id⟩
    let pct : ℚ := ((dur : ℚ) / (origDur : ℚ)) * 100
    let stats1 :=
      if 20 ≤ pct ∧ (st.reqMappings.lookup t.task_id).isSome then
        if isAggr then
          setStat st.stats wname (fun s =>
            { s with progression_score :=
                s.progression_score + ((st.reqMappings.lookup t.task_id).getD []).length })
        else st.stats
      else st.stats
    let completedNow : Bool := decide ((100 : ℚ) ≤ t.progress_percentage + pct)
    { st with
      tasks := st.tasks.set bi (updatedTask t wname day slotIdx pct),
      grid := fillCells st.grid day wname slotsCount slotIdx cell dur,
      pool := if completedNow then st.pool.erase bi else st.pool,
      partials := insertStr st.partials t.task_id,
      completeds := if completedNow then insertStr st.completeds t.task_id
                    else st.completeds,
      taskProgress := setDep st.taskProgress t.task_id
        (fun d0 => { d0 with any_progress := true, started := true }),
      stats := setStat stats1 wname (fun s => { s with current_product := some t.product }),
      writes := st.writes ++ writesFor day wname slotsCount slotIdx dur,
      log := st.log ++ [⟨day, slotIdx, bi, wname, dur⟩] }

/-- The per-worker step inside a slot (lines 268-438): look up the
worker's row, scan the pool and, if a best task exists, assign it. -/
def workerStep (ctx : Ctx) (day slotIdx : Nat) (st : SchedState) (wname : String) :
    SchedState :=
  match ctx.roster.find? (fun w => w.name == wname) with
  | none => st
  | some wd =>
    let isAggr := st.aggressive.contains wname
    match scanPool st wd wname isAggr with
    | none => st
    | some bi => applyAssign day slotIdx st wname isAggr bi

/-- The end-of-slot pool refresh (lines 440-460): admit every unassigned
task, not already in the pool, with no requirements or with a started or
completed requirement. -/
def refreshPool (st : SchedState) : SchedState :=
  let newPool := (List.range st.tasks.length).foldl
    (fun pl i =>
      match st.tasks[i]? with
      | none => pl
      | some t =>
        if t.assigned || pl.contains i then pl
        else
          let can_add :=
            match t.requirements with
            | [] => true
            | reqs => reqs.any (fun r => st.partials.contains r || st.completeds.contains r)
          if can_add then pl ++ [i] else pl)
    st.pool
  { st with pool := newPool }

/-- One time slot (lines 256-460): free workers, aggressive first (a
stable partition, as Python's stable sort on the Boolean key), each
taking a worker step; then the pool refresh.  An empty free-worker list
or an empty pool skips the whole slot body, refresh included
(the `continue` at line 261). -/
def processSlot (ctx : Ctx) (day slotIdx : Nat) (st : SchedState) : SchedState :=
  let avail := (ctx.roster.map (·.name)).filter
    (fun w => (st.grid day w slotIdx).isNone)
  if avail.isEmpty || st.pool.isEmpty then st
  else
    let sorted := avail.filter (fun w => st.aggressive.contains w) ++
                  avail.filter (fun w => !(st.aggressive.contains w))
    refreshPool (sorted.foldl (fun s w => workerStep ctx day slotIdx s w) st)

/-- Stable-descending insertion used to rank workers by progression
score; ties keep the earlier (roster-order) worker, matching Python's
stable `sort(..., reverse=True)` (lines 223-224). -/
def insertDesc (x : String × Nat) : List (String × Nat) → List (String × Nat)
  | [] => [x]
  | y :: ys => if y.2 < x.2 then x :: y :: ys else y :: insertDesc x ys

/-- Stable descending sort by progression score. -/
def sortDesc (l : List (String × Nat)) : List (String × Nat) :=
  l.foldl (fun acc x => insertDesc x acc) []

/-- The day ≥ 2 re-selection of aggressive workers (lines 221-225):
top `max 1 ⌊0.3·n⌋` of the roster by progression score. -/
def topWorkers (ctx : Ctx) (st : SchedState) : List String :=
  let ranked := sortDesc (st.stats.map (fun p => (p.1, p.2.progression_score)))
  (ranked.take (max 1 (pyInt ((ctx.roster.length : ℚ) * 0.3)))).map (·.1)

/-- The start-of-day pool build (lines 229-253): first the unassigned
no-requirement tasks in processing order, then every other unassigned
task with a started or completed requirement. -/
def buildInitialPool (procOrder : List String) (st : SchedState) : List Nat :=
  let p1 := (procOrder.map (fun name =>
    (List.range st.tasks.length).filter
      (fun i =>
        match st.tasks[i]? with
        | some t => t.task_name == name && !t.assigned && t.requirements.isEmpty
        | none => false))).flatten
  (List.range st.tasks.length).foldl
    (fun pl i =>
      match st.tasks[i]? with
      | none => pl
      | some t =>
        if t.assigned || pl.contains i then pl
        else
          if !t.requirements.isEmpty &&
             t.requirements.any (fun r => st.partials.contains r || st.completeds.contains r)
          then pl ++ [i] else pl)
    p1

/-- The start-of-day step (lines 212-253): re-select the aggressive set
(day 1 uses the externalized random draw) and rebuild the pool. -/
def dayStartStep (ctx : Ctx) (procOrder : List String) (day : Nat) (st : SchedState) :
    SchedState :=
  let aggr := if day = 1 then ctx.day1Aggressive else topWorkers ctx st
  let st1 := { st with aggressive := aggr }
  { st1 with pool := buildInitialPool procOrder st1 }

/-- One phase of the run: a day start or one time slot. -/
inductive Phase where
  | dayInit (day : Nat)
  | slotStep (day slot : Nat)
deriving DecidableEq

/-- Dispatch one phase. -/
def stepF (ctx : Ctx) (procOrder : List String) (st : SchedState) (p : Phase) :
    SchedState :=
  match p with
  | Phase.dayInit d => dayStartStep ctx procOrder d st
  | Phase.slotStep d t => processSlot ctx d t st

/-- `total_tasks` (lines 103-105). -/
def totalTasksCount (ctx : Ctx) : Nat :=
  ctx.quantities.foldl
    (fun acc pq => acc + (ctx.catalog.filter (fun r => r.product == pq.1)).length * pq.2)
    0

/-- `estimated_days` (line 106): the 80%-utilization ceiling, minimum 1. -/
def estimatedDays (ctx : Ctx) : Nat :=
  max 1 (pyCeil ((totalTasksCount ctx : ℚ) /
    ((ctx.roster.length : ℚ) * (slotsCount : ℚ) * 0.8)))

/-- The full phase list of a run: for each day 1..estimated_days, a day
start followed by the day's slots in order. -/
def fullAgenda (ctx : Ctx) : List Phase :=
  ((List.range' 1 (estimatedDays ctx)).map
    (fun d => Phase.dayInit d :: (List.range slotsCount).map (Phase.slotStep d))).flatten

/-- The initial run state (lines 109-130 and 159-182). -/
def initState (ctx : Ctx) (allTasks : List TaskInstance)
    (dm : List (String × DepInfo)) (rm : List (String × List String)) : SchedState :=
  { tasks := allTasks,
    grid := fun _ _ _ => none,
    pool := [],
    partials := [],
    completeds := [],
    taskProgress := dm,
    reqMappings := rm,
    stats := ctx.roster.map (fun w => (w.name, ⟨none, 0, ctx.aggrOf w.name⟩)),
    aggressive := [],
    writes := [],
    log := [] }

/-- Run `assign_tasks` up to an arbitrary prefix of the phase list.
`none` models the uncaught exceptions: empty roster (ZeroDivisionError
at line 106), unknown requirement id (KeyError at line 177), missing
producer in `topological_sort` (StopIteration at line 199). -/
def runPrefix (ctx : Ctx) (l : List Phase) : Option SchedState :=
  if ctx.roster.isEmpty then none
  else
    let allTasks := buildAllTasks ctx.catalog ctx.quantities
    match buildDepMap allTasks with
    | none => none
    | some dm =>
      match processingOrder allTasks with
      | none => none
      | some ord =>
        some (l.foldl (stepF ctx ord) (initState ctx allTasks dm (buildReqMap allTasks)))

/-- The complete `assign_tasks` run (lines 97-483, scheduling part). -/
def assignTasksRun (ctx : Ctx) : Option SchedState :=
  runPrefix ctx (fullAgenda ctx)

/-- The Production Order form handling (lines 642-690): quantities at 0
are dropped (line 654), then the two empty-input guards fire before
`assign_tasks` is invoked (lines 667-674). -/
def handleOrder (rawQuantities : List (String × Nat)) (selectedWorkers : List String)
    (workersAll : List Worker) (catalog : List TaskDef)
    (aggrOf : String → ℚ) (day1 : List String) : Except String SchedState :=
  let product_quantities := rawQuantities.filter (fun pq => 0 < pq.2)
  if product_quantities.isEmpty then
    Except.error "Please select at least one product with a quantity greater than 0."
  else if selectedWorkers.isEmpty then
    Except.error "Please select at least one available worker."
  else
    let available := workersAll.filter (fun w => selectedWorkers.contains w.name)
    match assignTasksRun ⟨catalog, available, product_quantities, aggrOf, day1⟩ with
    | none => Except.error "assign_tasks raised an uncaught exception"
    | some st => Except.ok st

/-! ### Basic facts about the helpers -/

/-- `pyInt` agrees with the floor on non-negative rationals. -/
theorem pyInt_eq_floor (q : ℚ) (h : 0 ≤ q) : pyInt q = Nat.floor q := by
  have hnum : q.num = (q.num.toNat : ℤ) := (Int.toNat_of_nonneg (Rat.num_nonneg.2 h)).symm
  rw [← Int.floor_toNat, Rat.floor_def]
  conv_rhs => rw [hnum]
  rfl

/-- There are sixteen half-hour slots between 08:00 and 16:00. -/
theorem slotsCount_eq : slotsCount = 16 := by decide

/-! ### C8: empty-input rejection -/

/-- The order handler fails with an error message and never builds a
schedule state. -/
def RejectsOrder (rawQuantities : List (String × Nat)) (selectedWorkers : List String)
    (workersAll : List Worker) (catalog : List TaskDef)
    (aggrOf : String → ℚ) (day1 : List String) : Prop :=
  ∃ msg, handleOrder rawQuantities selectedWorkers workersAll catalog aggrOf day1 =
    Except.error msg

/-- C8. A production request whose requested quantities are all zero,
or whose selected-worker list is empty, is rejected by the Production
Order form handling before `assign_tasks` runs, so no schedule state (in
particular no grid) is produced. -/
theorem empty_input_rejected (rawQuantities : List (String × Nat))
    (selectedWorkers : List String) (workersAll : List Worker) (catalog : List TaskDef)
    (aggrOf : String → ℚ) (day1 : List String)
    (h : (∀ pq ∈ rawQuantities, pq.2 = 0) ∨ selectedWorkers = []) :
    RejectsOrder rawQuantities selectedWorkers workersAll catalog aggrOf day1 := by
  unfold RejectsOrder handleOrder
  rcases h with h | h
  · have hfil : rawQuantities.filter (fun pq => 0 < pq.2) = [] := by
      rw [List.filter_eq_nil_iff]
      intro pq hpq
      simp [h pq hpq]
    rw [hfil]
    exact ⟨_, rfl⟩
  · subst h
    by_cases hq : (rawQuantities.filter (fun pq => 0 < pq.2)).isEmpty
    · simp [hq]
    · simp [hq]

/-- Witness for C8 at a concrete rejected request. -/
theorem empty_input_rejected_witness :
    ((∀ pq ∈ [("BoxA", 0)], pq.2 = 0) ∨ ([] : List String) = []) ∧
    RejectsOrder [("BoxA", 0)] [] [] [] (fun _ => 0) [] :=
  ⟨Or.inl (by decide),
   empty_input_rejected [("BoxA", 0)] [] [] [] (fun _ => 0) [] (Or.inl (by decide))⟩

/-! ### Admissibility (C6, pointwise part) -/

/-- A task with no requirements passes the scan's eligibility test for
every worker. -/
theorem admissible_of_no_reqs (b : Bool) (pa co : List String) (t : TaskInstance)
    (h : t.requirements = []) : admissible b pa co t = true := by
  unfold admissible
  rw [h]

/-- Aggressive eligibility: some requirement is in the started or the
completed set. -/
theorem admissible_aggressive (pa co : List String) (t : TaskInstance)
    (h : t.requirements ≠ []) :
    (admissible true pa co t = true ↔ ∃ r ∈ t.requirements, r ∈ pa ∨ r ∈ co) := by
  unfold admissible
  cases hr : t.requirements with
  | nil => exact absurd hr h
  | cons a l =>
    rw [← hr]
    simp [List.any_eq_true]

/-- Regular eligibility: every requirement is in the completed set. -/
theorem admissible_regular (pa co : List String) (t : TaskInstance)
    (h : t.requirements ≠ []) :
    (admissible false pa co t = true ↔ ∀ r ∈ t.requirements, r ∈ co) := by
  unfold admissible
  cases hr : t.requirements with
  | nil => exact absurd hr h
  | cons a l =>
    rw [← hr]
    simp [List.all_eq_true]

/-! ### Scoring and selection (C5) -/

/-- The scoring formula as the specification words it: 0.6 × skill match,
plus 0.10 for product continuity, plus 0.05/0.03/0.02 for a first/second/
third favorite product, plus — only for an aggressive worker on a task
whose result has at least one dependent — 0.25 × aggressiveness × number
of dependent task instances. -/
def specScore (wd : Worker) (currentProduct : Option String) (aggr : ℚ)
    (isAggr : Bool) (dependents : Nat) (t : TaskInstance) : ℚ :=
  0.6 * calculate_skill_match wd t.attrs
  + (if currentProduct = some t.product then 0.1 else 0)
  + (if t.product = wd.fav1 then 0.05
     else if t.product = wd.fav2 then 0.03
     else if t.product = wd.fav3 then 0.02
     else 0)
  + (if isAggr = true ∧ 0 < dependents then 0.25 * aggr * (dependents : ℚ) else 0)

/-- The number of task instances recorded as depending on a result id. -/
def dependentsOf (st : SchedState) (id : String) : Nat :=
  ((st.taskProgress.lookup id).getD ⟨[], false, false, false⟩).required_for.length

/-- The code's score equals the specification's formula. -/
theorem taskScore_eq_specScore (st : SchedState) (wd : Worker) (wname : String)
    (isAggr : Bool) (t : TaskInstance) :
    taskScore st wd wname isAggr t =
      specScore wd (getStat st wname).current_product (getStat st wname).aggressiveness
        isAggr (dependentsOf st t.task_id) t := by
  unfold taskScore specScore dependentsOf
  cases hl : st.taskProgress.lookup t.task_id with
  | none =>
    simp only [hl, Option.getD_none]
    cases isAggr <;> simp <;> ring
  | some info =>
    simp only [hl, Option.getD_some]
    cases isAggr
    · simp; ring
    · by_cases h0 : 0 < info.required_for.length <;> simp [h0] <;> ring

/-- The admissibility-filtered score of a pool index, `none` when the
index is invalid or the task fails the worker's eligibility test. -/
def candScore (st : SchedState) (wd : Worker) (wname : String) (isAggr : Bool)
    (i : Nat) : Option ℚ :=
  match st.tasks[i]? with
  | none => none
  | some t =>
    if admissible isAggr st.partials st.completeds t then
      some (taskScore st wd wname isAggr t)
    else none

/-- The best-candidate fold, abstracted over the score function. -/
def bestFold (f : Nat → Option ℚ) (l : List Nat) (acc : ℚ × Option Nat) :
    ℚ × Option Nat :=
  l.foldl
    (fun acc i =>
      match f i with
      | none => acc
      | some sc => if acc.1 < sc then (sc, some i) else acc)
    acc

/-- `scanPool` is the best-candidate fold over `candScore`. -/
theorem scanPool_eq_bestFold (st : SchedState) (wd : Worker) (wname : String)
    (isAggr : Bool) :
    scanPool st wd wname isAggr =
      (bestFold (candScore st wd wname isAggr) st.pool ((-1 : ℚ), none)).2 := by
  unfold scanPool bestFold candScore
  congr 2
  funext acc i
  cases st.tasks[i]? with
  | none => rfl
  | some t =>
    by_cases h : admissible isAggr st.partials st.completeds t
    · simp [h]
    · simp [h]

/-- Structure of the best-candidate fold: either nothing beat the seed,
or the result is the first index attaining the running maximum — every
earlier candidate scores strictly below it, every later candidate at
most it. -/
theorem bestFold_spec (f : Nat → Option ℚ) :
    ∀ (l : List Nat) (b : ℚ) (o : Option Nat),
      (bestFold f l (b, o) = (b, o) ∧ ∀ j ∈ l, ∀ s, f j = some s → s ≤ b) ∨
      (∃ i l₁ l₂ sc, l = l₁ ++ i :: l₂ ∧ f i = some sc ∧
        bestFold f l (b, o) = (sc, some i) ∧ b < sc ∧
        (∀ j ∈ l₁, ∀ s, f j = some s → s < sc) ∧
        (∀ j ∈ l₂, ∀ s, f j = some s → s ≤ sc)) := by
  intro l
  induction l with
  | nil => intro b o; exact Or.inl ⟨rfl, by simp⟩
  | cons j l' ih =>
    intro b o
    cases hj : f j with
    | none =>
      rcases ih b o with ⟨heq, hub⟩ | ⟨i, l₁, l₂, sc, hdec, hfi, heq, hlt, hearlier, hlater⟩
      · refine Or.inl ⟨?_, ?_⟩
        · simpa [bestFold, hj] using heq
        · intro k hk s hs
          rcases List.mem_cons.1 hk with rfl | hk
          · simp [hj] at hs
          · exact hub k hk s hs
      · refine Or.inr ⟨i, j :: l₁, l₂, sc, by rw [hdec]; rfl, hfi, ?_, hlt, ?_, hlater⟩
        · simpa [bestFold, hj] using heq
        · intro k hk s hs
          rcases List.mem_cons.1 hk with rfl | hk
          · simp [hj] at hs
          · exact hearlier k hk s hs
    | some s =>
      by_cases hbs : b < s
      · have hstep : bestFold f (j :: l') (b, o) = bestFold f l' (s, some j) := by
          simp [bestFold, hj, hbs]
        rcases ih s (some j) with ⟨heq, hub⟩ | ⟨i, l₁, l₂, sc, hdec, hfi, heq, hlt, hearlier, hlater⟩
        · exact Or.inr ⟨j, [], l', s, rfl, hj, by rw [hstep]; exact heq, hbs, by simp, hub⟩
        · refine Or.inr ⟨i, j :: l₁, l₂, sc, by rw [hdec]; rfl, hfi,
            by rw [hstep]; exact heq, lt_trans hbs hlt, ?_, hlater⟩
          intro k hk u hu
          rcases List.mem_cons.1 hk with rfl | hk
          · rw [hj] at hu
            injection hu with hu
            rw [← hu]
            exact hlt
          · exact hearlier k hk u hu
      · have hstep : bestFold f (j :: l') (b, o) = bestFold f l' (b, o) := by
          simp [bestFold, hj, hbs]
        rcases ih b o with ⟨heq, hub⟩ | ⟨i, l₁, l₂, sc, hdec, hfi, heq, hlt, hearlier, hlater⟩
        · refine Or.inl ⟨by rw [hstep]; exact heq, ?_⟩
          intro k hk u hu
          rcases List.mem_cons.1 hk with rfl | hk
          · rw [hj] at hu
            injection hu with hu
            rw [← hu]
            exact le_of_not_lt hbs
          · exact hub k hk u hu
        · refine Or.inr ⟨i, j :: l₁, l₂, sc, by rw [hdec]; rfl, hfi,
            by rw [hstep]; exact heq, hlt, ?_, hlater⟩
          intro k hk u hu
          rcases List.mem_cons.1 hk with rfl | hk
          · rw [hj] at hu
            injection hu with hu
            rw [← hu]
            exact lt_of_le_of_lt (le_of_not_lt hbs) hlt
          · exact hearlier k hk u hu

/-- All six skill scores of a worker are non-negative. -/
def SkillsNonneg (wd : Worker) : Prop :=
  0 ≤ wd.bending ∧ 0 ≤ wd.gluing ∧ 0 ≤ wd.assembling ∧
  0 ≤ wd.edge_scrap ∧ 0 ≤ wd.open_paper ∧ 0 ≤ wd.quality_control

/-- The skill match of a worker with non-negative skills is
non-negative. -/
theorem calculate_skill_match_nonneg (wd : Worker) (a : SkillAttrs)
    (h : SkillsNonneg wd) : 0 ≤ calculate_skill_match wd a := by
  unfold calculate_skill_match
  have key : ∀ (ps : List (ℚ × Nat)) (acc : ℚ × ℚ), 0 ≤ acc.1 → 0 ≤ acc.2 →
      (∀ p ∈ ps, 0 ≤ p.1) →
      0 ≤ (ps.foldl (fun acc p =>
        if 0 < p.2 then (acc.1 + p.1 * ((p.2 : ℚ) / 100), acc.2 + (p.2 : ℚ) / 100)
        else acc) acc).1 ∧
      0 ≤ (ps.foldl (fun acc p =>
        if 0 < p.2 then (acc.1 + p.1 * ((p.2 : ℚ) / 100), acc.2 + (p.2 : ℚ) / 100)
        else acc) acc).2 := by
    intro ps
    induction ps with
    | nil => intro acc h1 h2 _; exact ⟨h1, h2⟩
    | cons p ps ih =>
      intro acc h1 h2 hp
      have hp0 : 0 ≤ p.1 := hp p (List.mem_cons_self p ps)
      have hw : (0 : ℚ) ≤ (p.2 : ℚ) / 100 := by positivity
      by_cases hz : 0 < p.2
      · simp only [List.foldl_cons, hz, if_pos]
        exact ih _ (by positivity) (by positivity)
          (fun q hq => hp q (List.mem_cons_of_mem p hq))
      · simp only [List.foldl_cons, hz, if_neg, not_false_iff]
        exact ih _ h1 h2 (fun q hq => hp q (List.mem_cons_of_mem p hq))
  obtain ⟨hk1, hk2⟩ := key (skillPairs wd a) (0, 0) le_rfl le_rfl
    (by
      obtain ⟨h1, h2, h3, h4, h5, h6⟩ := h
      intro p hp
      simp only [skillPairs, List.mem_cons, List.mem_singleton] at hp
      rcases hp with rfl | rfl | rfl | rfl | rfl | rfl | h0
      · exact h1
      · exact h2
      · exact h3
      · exact h4
      · exact h5
      · exact h6
      · cases h0)
  dsimp only
  split
  · exact le_rfl
  · exact div_nonneg hk1 hk2

/-- A score computed for a worker with non-negative skills and
non-negative aggressiveness is non-negative. -/
theorem taskScore_nonneg (st : SchedState) (wd : Worker) (wname : String)
    (isAggr : Bool) (t : TaskInstance) (hw : SkillsNonneg wd)
    (ha : 0 ≤ (getStat st wname).aggressiveness) :
    0 ≤ taskScore st wd wname isAggr t := by
  unfold taskScore
  have hsm := calculate_skill_match_nonneg wd t.attrs hw
  have c1 : (0 : ℚ) ≤ (if (getStat st wname).current_product = some t.product
      then (0.1 : ℚ) else 0) := by positivity
  have c2 : (0 : ℚ) ≤ (if t.product = wd.fav1 then (0.05 : ℚ)
      else if t.product = wd.fav2 then 0.03
      else if t.product = wd.fav3 then 0.02 else 0) := by positivity
  have c3 : (0 : ℚ) ≤ (if isAggr = true then
      match st.taskProgress.lookup t.task_id with
      | some info =>
        if 0 < info.required_for.length then
          0.25 * (getStat st wname).aggressiveness * (info.required_for.length : ℚ)
        else 0
      | none => 0
      else 0) := by
    cases isAggr
    · simp
    · simp only [if_pos]
      cases st.taskProgress.lookup t.task_id with
      | none => simp
      | some info =>
        by_cases h0 : 0 < info.required_for.length
        · simp only [h0, if_pos]
          positivity
        · simp [h0]

  have : (0 : ℚ) ≤ calculate_skill_match wd t.attrs * 0.6 := by positivity
  linarith

/-- The full C5 bundle for one worker and one scan: the score formula,
maximality with first-on-tie selection, and guaranteed selection when an
admissible candidate with non-negative score exists. -/
def ScoreSelection (st : SchedState) (wd : Worker) (wname : String)
    (isAggr : Bool) : Prop :=
  (∀ t : TaskInstance,
    taskScore st wd wname isAggr t =
      specScore wd (getStat st wname).current_product
        (getStat st wname).aggressiveness isAggr (dependentsOf st t.task_id) t) ∧
  (∀ i, scanPool st wd wname isAggr = some i →
    ∃ t l₁ l₂, st.pool = l₁ ++ i :: l₂ ∧ st.tasks[i]? = some t ∧
      admissible isAggr st.partials st.completeds t = true ∧
      (∀ j ∈ l₁, ∀ u, candScore st wd wname isAggr j = some u →
        u < taskScore st wd wname isAggr t) ∧
      (∀ j ∈ st.pool, ∀ u, candScore st wd wname isAggr j = some u →
        u ≤ taskScore st wd wname isAggr t)) ∧
  ((∃ j ∈ st.pool, ∃ u, candScore st wd wname isAggr j = some u ∧ 0 ≤ u) →
    ∃ i, scanPool st wd wname isAggr = some i) ∧
  (SkillsNonneg wd → 0 ≤ (getStat st wname).aggressiveness →
    ∀ t : TaskInstance, 0 ≤ taskScore st wd wname isAggr t)

/-- C5. For every admissible candidate the computed score is exactly
0.6 × skill match + continuity bonus + preference bonus + progression
bonus (the latter only for aggressive workers on tasks with dependents);
the scan selects an admissible candidate of maximum score, and on ties
the first-encountered candidate in left-to-right pool order wins; when
some admissible candidate scores at least 0 (always, for valid inputs) a
candidate is selected. -/
theorem score_and_selection (st : SchedState) (wd : Worker) (wname : String)
    (isAggr : Bool) : ScoreSelection st wd wname isAggr := by
  refine ⟨fun t => taskScore_eq_specScore st wd wname isAggr t, ?_, ?_, ?_⟩
  · intro i hi
    rcases bestFold_spec (candScore st wd wname isAggr) st.pool (-1) none with
      ⟨heq, _⟩ | ⟨i', l₁, l₂, sc, hdec, hfi, heq, _, hearlier, hlater⟩
    · rw [scanPool_eq_bestFold, heq] at hi
      cases hi
    · rw [scanPool_eq_bestFold, heq] at hi
      injection hi with hi
      rw [← hi]
      have hfi' := hfi
      unfold candScore at hfi'
      cases ht : st.tasks[i']? with
      | none => rw [ht] at hfi'; cases hfi'
      | some t =>
        rw [ht] at hfi'
        have hfi2 : (if admissible isAggr st.partials st.completeds t = true then
            some (taskScore st wd wname isAggr t) else none) = some sc := hfi'
        by_cases hadm : admissible isAggr st.partials st.completeds t
        · rw [if_pos hadm] at hfi2
          injection hfi2 with hsc
          refine ⟨t, l₁, l₂, hdec, rfl, hadm, ?_, ?_⟩
          · intro j hj u hu
            rw [hsc]
            exact hearlier j hj u hu
          · intro j hj u hu
            rw [hsc]
            rw [hdec] at hj
            rcases List.mem_append.1 hj with hj | hj
            · exact le_of_lt (hearlier j hj u hu)
            · rcases List.mem_cons.1 hj with rfl | hj
              · rw [hfi] at hu
                injection hu with hu
                exact le_of_eq hu.symm
              · exact hlater j hj u hu
        · rw [if_neg hadm] at hfi2
          cases hfi2
  · rintro ⟨j, hj, u, hu, hu0⟩
    rcases bestFold_spec (candScore st wd wname isAggr) st.pool (-1) none with
      ⟨_, hub⟩ | ⟨i', l₁, l₂, sc, _, _, heq, _, _, _⟩
    · have := hub j hj u hu
      linarith
    · exact ⟨i', by rw [scanPool_eq_bestFold, heq]⟩
  · intro hw ha t
    exact taskScore_nonneg st wd wname isAggr t hw ha

/-! ### The cell-filling loop -/

/-- Cells outside the written block are untouched. -/
theorem fillCells_outside (g : Grid) (d : Nat) (w : String) (numSlots start : Nat)
    (c : Cell) : ∀ (n : Nat) (d' : Nat) (w' : String) (s' : Nat),
    ¬(d' = d ∧ w' = w ∧ start ≤ s' ∧ s' < start + n) →
    fillCells g d w numSlots start c n d' w' s' = g d' w' s' := by
  intro n
  induction n with
  | zero => intro d' w' s' _; rfl
  | succ n ih =>
    intro d' w' s' hout
    have hout' : ¬(d' = d ∧ w' = w ∧ start ≤ s' ∧ s' < start + n) := by
      rintro ⟨h1, h2, h3, h4⟩
      exact hout ⟨h1, h2, h3, by omega⟩
    have hstep : fillCells g d w numSlots start c (n + 1) =
        (if start + n < numSlots then
          setCell (fillCells g d w numSlots start c n) d w (start + n) c
        else fillCells g d w numSlots start c n) := rfl
    rw [hstep]
    by_cases hlt : start + n < numSlots
    · rw [if_pos hlt]
      unfold setCell
      rw [if_neg, ih d' w' s' hout']
      rintro ⟨h1, h2, h3⟩
      exact hout ⟨h1, h2, by omega, by omega⟩
    · rw [if_neg hlt]
      exact ih d' w' s' hout'

/-- Cells inside the written block hold the written record. -/
theorem fillCells_inside (g : Grid) (d : Nat) (w : String) (numSlots start : Nat)
    (c : Cell) : ∀ (n s' : Nat), start ≤ s' → s' < start + n → s' < numSlots →
    fillCells g d w numSlots start c n d w s' = some c := by
  intro n
  induction n with
  | zero => intro s' h1 h2 _; omega
  | succ n ih =>
    intro s' h1 h2 h3
    have hstep : fillCells g d w numSlots start c (n + 1) =
        (if start + n < numSlots then
          setCell (fillCells g d w numSlots start c n) d w (start + n) c
        else fillCells g d w numSlots start c n) := rfl
    rw [hstep]
    by_cases hs : s' = start + n
    · have hlt : start + n < numSlots := by omega
      rw [if_pos hlt]
      unfold setCell
      rw [if_pos ⟨rfl, rfl, hs⟩]
    · have hs2 : s' < start + n := by omega
      by_cases hlt : start + n < numSlots
      · rw [if_pos hlt]
        unfold setCell
        rw [if_neg, ih s' h1 hs2 h3]
        rintro ⟨-, -, h⟩
        exact hs h
      · rw [if_neg hlt]
        exact ih s' h1 hs2 h3

/-- The write list of a block that fits inside the day. -/
theorem writesFor_eq_map (d : Nat) (w : String) (numSlots start : Nat) :
    ∀ n, start + n ≤ numSlots →
    writesFor d w numSlots start n = (List.range n).map (fun j => (d, w, start + j)) := by
  intro n
  induction n with
  | zero => intro _; rfl
  | succ n ih =>
    intro h
    unfold writesFor
    rw [List.range_succ, List.filterMap_append, List.map_append]
    unfold writesFor at ih
    rw [ih (by omega)]
    congr 1
    simp only [List.filterMap_cons, List.filterMap_nil]
    rw [if_pos (by omega)]
    rfl

/-- Membership in the write list of a block. -/
theorem mem_writesFor (d : Nat) (w : String) (numSlots start n : Nat)
    (x : Nat × String × Nat) :
    x ∈ writesFor d w numSlots start n ↔
      ∃ j, j < n ∧ start + j < numSlots ∧ x = (d, w, start + j) := by
  unfold writesFor
  rw [List.mem_filterMap]
  constructor
  · rintro ⟨j, hj, hx⟩
    rw [List.mem_range] at hj
    by_cases h : start + j < numSlots
    · rw [if_pos h] at hx
      injection hx with hx
      exact ⟨j, hj, h, hx.symm⟩
    · rw [if_neg h] at hx
      cases hx
  · rintro ⟨j, hj, h, rfl⟩
    exact ⟨j, List.mem_range.2 hj, by rw [if_pos h]⟩

/-! ### C7: slot allocation and progress increment -/

/-- Field equations for the task-record update. -/
theorem updatedTask_progress (t : TaskInstance) (w : String) (d s : Nat) (pct : ℚ) :
    (updatedTask t w d s pct).progress_percentage = t.progress_percentage + pct := by
  unfold updatedTask
  dsimp only
  split <;> rfl

theorem updatedTask_workers (t : TaskInstance) (w : String) (d s : Nat) (pct : ℚ) :
    (updatedTask t w d s pct).workers_involved = t.workers_involved ++ [w] := by
  unfold updatedTask
  dsimp only
  split <;> rfl

theorem updatedTask_duration (t : TaskInstance) (w : String) (d s : Nat) (pct : ℚ) :
    (updatedTask t w d s pct).duration = t.duration := by
  unfold updatedTask
  dsimp only
  split <;> rfl

/-- Updating a valid index makes the new record readable there. -/
theorem getElem?_set_of_get (l : List TaskInstance) (i : Nat) (a t : TaskInstance)
    (h : l[i]? = some t) : (l.set i a)[i]? = some a := by
  rw [List.getElem?_set_self', h]
  rfl

/-- The committed slot count as the specification words it:
`max(1, min(⌊duration × aggressiveness × 0.4⌋, T − s))` for an
aggressive worker, `min(duration, T − s)` for a regular one. -/
def committedSpec (a : ℚ) (isAggr : Bool) (dur T s : Nat) : Nat :=
  if isAggr then max 1 (min (Nat.floor ((dur : ℚ) * a * 0.4)) (T - s))
  else min dur (T - s)

/-- The conclusion bundle of C7 for one worker step that assigns task
`bi` (with record `t`): exactly `committedSpec` cells are allocated,
they are consecutive from the current slot, and the task's progress
percentage grows by exactly `(committed / duration) × 100`. -/
def AllocationConcl (ctx : Ctx) (day slotIdx : Nat) (st : SchedState)
    (wname : String) (bi : Nat) (t : TaskInstance) : Prop :=
  let isAggr := st.aggressive.contains wname
  let k := committedSpec (getStat st wname).aggressiveness isAggr t.duration
    slotsCount slotIdx
  let st2 := workerStep ctx day slotIdx st wname
  st2.log = st.log ++ [⟨day, slotIdx, bi, wname, k⟩] ∧
  (∃ t2, st2.tasks[bi]? = some t2 ∧
    t2.progress_percentage =
      t.progress_percentage + ((k : ℚ) / (t.duration : ℚ)) * 100 ∧
    t2.workers_involved = t.workers_involved ++ [wname]) ∧
  st2.writes = st.writes ++ (List.range k).map (fun j => (day, wname, slotIdx + j)) ∧
  (∀ j, j < k → st2.grid day wname (slotIdx + j) =
    some ⟨t.product, t.task_name, t.task_id⟩)

/-- C7. Whenever a worker is assigned a task of nominal duration `d`
starting at slot `s` of a day with `slotsCount` slots, an aggressive
worker is allocated exactly `max(1, min(⌊d·a·0.4⌋, T−s))` consecutive
cells from `s`, a regular worker exactly `min(d, T−s)`, and the task's
progress percentage increases by exactly `(allocated / d) × 100`. -/
theorem allocation_committed (ctx : Ctx) (day slotIdx : Nat) (st : SchedState)
    (wname : String) (wd : Worker) (bi : Nat) (t : TaskInstance)
    (hfind : ctx.roster.find? (fun w => w.name == wname) = some wd)
    (hscan : scanPool st wd wname (st.aggressive.contains wname) = some bi)
    (ht : st.tasks[bi]? = some t)
    (hdur : 1 ≤ t.duration)
    (hslot : slotIdx < slotsCount)
    (ha : 0 ≤ (getStat st wname).aggressiveness) :
    AllocationConcl ctx day slotIdx st wname bi t := by
  unfold AllocationConcl
  have hbi : bi < st.tasks.length := by
    by_contra hcon
    rw [List.getElem?_eq_none (by omega)] at ht
    cases ht
  -- the committed count computed by the code equals the specified one
  have hfloor : pyInt ((t.duration : ℚ) * ((getStat st wname).aggressiveness * 0.4)) =
      Nat.floor ((t.duration : ℚ) * (getStat st wname).aggressiveness * 0.4) := by
    rw [pyInt_eq_floor _ (by positivity), mul_assoc]
  have hkdef : (if st.aggressive.contains wname then
      max 1 (min (pyInt ((t.duration : ℚ) *
        ((getStat st wname).aggressiveness * 0.4))) (slotsCount - slotIdx))
      else min t.duration (slotsCount - slotIdx)) =
      committedSpec (getStat st wname).aggressiveness (st.aggressive.contains wname)
        t.duration slotsCount slotIdx := by
    unfold committedSpec
    rw [hfloor]
  have hkle : committedSpec (getStat st wname).aggressiveness
      (st.aggressive.contains wname) t.duration slotsCount slotIdx ≤
      slotsCount - slotIdx := by
    unfold committedSpec
    split <;> omega
  set k := committedSpec (getStat st wname).aggressiveness
    (st.aggressive.contains wname) t.duration slotsCount slotIdx with hk
  have hfits : slotIdx + k ≤ slotsCount := by omega
  have hws : workerStep ctx day slotIdx st wname =
      applyAssign day slotIdx st wname (st.aggressive.contains wname) bi := by
    unfold workerStep
    rw [hfind]
    dsimp only
    rw [hscan]
  rw [hws]
  unfold applyAssign
  rw [ht]
  dsimp only
  simp only [hkdef]
  refine ⟨by trivial, ?_, ?_, ?_⟩
  · exact ⟨_, getElem?_set_of_get st.tasks bi _ t ht,
      updatedTask_progress t wname day slotIdx _, updatedTask_workers t wname day slotIdx _⟩
  · rw [writesFor_eq_map day wname slotsCount slotIdx k hfits]
  · intro j hj
    exact fillCells_inside st.grid day wname slotsCount slotIdx _ k (slotIdx + j)
      (by omega) (by omega) (by omega)

/-! ### Structural facts about `topological_sort` (no preconditions) -/

/-- Well-formedness of a (visited, order) state of the traversal. -/
def GoodTopoSt (st : List String × List String) : Prop :=
  st.1.Nodup ∧ st.2.Nodup ∧ (∀ n ∈ st.2, n ∈ st.1)

/-- Whatever the catalog looks like, a successful traversal keeps the
visited set and the order duplicate-free, appends only names that were
unvisited on entry, and only grows the visited set. -/
theorem topoPair_good (tasks : List TaskInstance) : ∀ fuel : Nat,
    (∀ name st st', topoVisit tasks fuel name st = some st' → GoodTopoSt st →
      GoodTopoSt st' ∧ (∀ n ∈ st.1, n ∈ st'.1) ∧
      ∃ dl, st'.2 = st.2 ++ dl ∧ ∀ n ∈ dl, n ∉ st.1) ∧
    (∀ reqs st st', topoReqs tasks fuel reqs st = some st' → GoodTopoSt st →
      GoodTopoSt st' ∧ (∀ n ∈ st.1, n ∈ st'.1) ∧
      ∃ dl, st'.2 = st.2 ++ dl ∧ ∀ n ∈ dl, n ∉ st.1) := by
  intro fuel
  induction fuel with
  | zero =>
    constructor
    · intro name st st' h
      cases h
    · intro reqs st st' h
      cases h
  | succ f ih =>
    obtain ⟨ihV, ihR⟩ := ih
    constructor
    · intro name st st' h hg
      rw [topoVisit] at h
      by_cases hv : name ∈ st.1
      · rw [if_pos hv] at h
        injection h with h
        subst h
        exact ⟨hg, fun n hn => hn, [], by simp, by simp⟩
      · rw [if_neg hv] at h
        cases hf : tasks.find? (fun t => t.task_name == name) with
        | none => rw [hf] at h; cases h
        | some t =>
          rw [hf] at h
          replace h : (match topoReqs tasks f t.requirements (name :: st.1, st.2) with
            | none => none
            | some st2 => some (st2.1, st2.2 ++ [name])) = some st' := h
          cases hr : topoReqs tasks f t.requirements (name :: st.1, st.2) with
          | none => rw [hr] at h; cases h
          | some st2 =>
            rw [hr] at h
            injection h with h
            subst h
            have hg1 : GoodTopoSt (name :: st.1, st.2) := by
              refine ⟨List.nodup_cons.2 ⟨hv, hg.1⟩, hg.2.1, ?_⟩
              intro n hn
              exact List.mem_cons_of_mem name (hg.2.2 n hn)
            obtain ⟨hg2, hsub2, dl2, hdl2, hdl2n⟩ := ihR t.requirements _ st2 hr hg1
            have hnamev : name ∈ st2.1 := hsub2 name (List.mem_cons_self name st.1)
            have hnameno : name ∉ st2.2 := by
              rw [hdl2]
              intro hmem
              rcases List.mem_append.1 hmem with hmem | hmem
              · exact hv (hg.2.2 name hmem)
              · exact hdl2n name hmem (List.mem_cons_self name st.1)
            refine ⟨⟨hg2.1, ?_, ?_⟩, ?_, dl2 ++ [name], by rw [hdl2, List.append_assoc], ?_⟩
            · simp only
              rw [List.nodup_append]
              exact ⟨hg2.2.1, List.nodup_singleton name,
                fun n hn hn2 => by
                  rw [List.mem_singleton] at hn2
                  subst hn2
                  exact hnameno hn⟩
            · intro n hn
              simp only at hn
              rcases List.mem_append.1 hn with hn | hn
              · exact hg2.2.2 n hn
              · rw [List.mem_singleton] at hn
                subst hn
                exact hnamev
            · intro n hn
              exact hsub2 n (List.mem_cons_of_mem name hn)
            · intro n hn
              rcases List.mem_append.1 hn with hn | hn
              · intro hn2
                exact hdl2n n hn (List.mem_cons_of_mem name hn2)
              · rw [List.mem_singleton] at hn
                subst hn
                exact hv
    · intro reqs st st' h hg
      cases reqs with
      | nil =>
        rw [topoReqs] at h
        injection h with h
        subst h
        exact ⟨hg, fun n hn => hn, [], by simp, by simp⟩
      | cons r rs =>
        rw [topoReqs] at h
        cases hp : producerName tasks r with
        | none => rw [hp] at h; cases h
        | some pn =>
          rw [hp] at h
          replace h : (match topoVisit tasks f pn st with
            | none => none
            | some st2 => topoReqs tasks f rs st2) = some st' := h
          cases hv : topoVisit tasks f pn st with
          | none => rw [hv] at h; cases h
          | some st2 =>
            rw [hv] at h
            obtain ⟨hg2, hsub2, dl2, hdl2, hdl2n⟩ := ihV pn st st2 hv hg
            obtain ⟨hg3, hsub3, dl3, hdl3, hdl3n⟩ := ihR rs st2 st' h hg2
            refine ⟨hg3, fun n hn => hsub3 n (hsub2 n hn),
              dl2 ++ dl3, by rw [hdl3, hdl2, List.append_assoc], ?_⟩
            intro n hn
            rcases List.mem_append.1 hn with hn | hn
            · exact hdl2n n hn
            · intro hn2
              exact hdl3n n hn (hsub2 n hn2)

/-- The processing order contains no duplicate task name. -/
theorem processingOrder_nodup (tasks : List TaskInstance) (ord : List String)
    (h : processingOrder tasks = some ord) : ord.Nodup := by
  unfold processingOrder at h
  have key : ∀ (names : List String) (st : List String × List String),
      GoodTopoSt st →
      ∀ st', names.foldlM (fun st name => topoVisit tasks (topoFuel tasks) name st) st =
        some st' → GoodTopoSt st' := by
    intro names
    induction names with
    | nil =>
      intro st hg st' h'
      rw [List.foldlM_nil] at h'
      injection h' with h'
      subst h'
      exact hg
    | cons name rest ih =>
      intro st hg st' h'
      rw [List.foldlM_cons] at h'
      cases hv : topoVisit tasks (topoFuel tasks) name st with
      | none => rw [hv] at h'; cases h'
      | some st1 =>
        rw [hv] at h'
        exact ih st1 ((topoPair_good tasks (topoFuel tasks)).1 name st st1 hv hg).1 st' h'
  cases hfold : (groupKeys tasks).foldlM
      (fun st name => topoVisit tasks (topoFuel tasks) name st) ([], []) with
  | none => rw [hfold] at h; cases h
  | some stf =>
    rw [hfold] at h
    injection h with h
    subst h
    exact (key (groupKeys tasks) ([], []) ⟨List.nodup_nil, List.nodup_nil, by simp⟩
      stf hfold).2.1

/-! ### The task-state invariant -/

theorem updatedTask_task_id (t : TaskInstance) (w : String) (d s : Nat) (pct : ℚ) :
    (updatedTask t w d s pct).task_id = t.task_id := by
  unfold updatedTask
  dsimp only
  split <;> rfl

theorem updatedTask_day_slot (t : TaskInstance) (w : String) (d s : Nat) (pct : ℚ) :
    (updatedTask t w d s pct).day_assigned = some d ∧
    (updatedTask t w d s pct).slot_assigned = some s := by
  unfold updatedTask
  exact ⟨rfl, rfl⟩

theorem updatedTask_completed (t : TaskInstance) (w : String) (d s : Nat) (pct : ℚ)
    (h : t.completed = false) :
    (updatedTask t w d s pct).completed =
      decide ((100 : ℚ) ≤ t.progress_percentage + pct) := by
  unfold updatedTask
  dsimp only
  split
  · rename_i hd
    rw [hd]
  · rename_i hd
    simp only [Bool.not_eq_true] at hd
    rw [h, hd]

theorem updatedTask_assigned (t : TaskInstance) (w : String) (d s : Nat) (pct : ℚ)
    (h : t.assigned = false) :
    (updatedTask t w d s pct).assigned =
      decide ((100 : ℚ) ≤ t.progress_percentage + pct) := by
  unfold updatedTask
  dsimp only
  split
  · rename_i hd
    rw [hd]
  · rename_i hd
    simp only [Bool.not_eq_true] at hd
    rw [h, hd]

theorem updatedTask_completed_mono (t : TaskInstance) (w : String) (d s : Nat)
    (pct : ℚ) (h : t.completed = true) :
    (updatedTask t w d s pct).completed = true := by
  unfold updatedTask
  dsimp only
  split
  · rfl
  · exact h

theorem updatedTask_in_progress_mono (t : TaskInstance) (w : String) (d s : Nat)
    (pct : ℚ) (h : t.in_progress = true) :
    (updatedTask t w d s pct).in_progress = true := by
  unfold updatedTask
  dsimp only
  split
  · exact h
  · rfl

/-- Every instance created at run start comes from a catalog row via
`mkInstance`. -/
theorem mem_buildAllTasks (catalog : List TaskDef) (quantities : List (String × Nat))
    (t : TaskInstance) (h : t ∈ buildAllTasks catalog quantities) :
    ∃ r ∈ catalog, t = mkInstance r := by
  unfold buildAllTasks at h
  rw [List.mem_flatten] at h
  obtain ⟨l1, hl1, hmem1⟩ := h
  rw [List.mem_map] at hl1
  obtain ⟨pq, _, rfl⟩ := hl1
  rw [List.mem_flatten] at hmem1
  obtain ⟨l2, hl2, hmem2⟩ := hmem1
  rw [List.mem_map] at hl2
  obtain ⟨r, hr, rfl⟩ := hl2
  rw [List.eq_of_mem_replicate hmem2]
  exact ⟨r, (List.mem_filter.1 hr).1, rfl⟩

/-- `List.contains` agrees with membership (lawful `BEq`). -/
theorem contains_iff_mem {α : Type} [BEq α] [LawfulBEq α] (l : List α) (a : α) :
    l.contains a = true ↔ a ∈ l := by
  simp

/-- The six state invariants on tasks and the pool maintained by every
step of the scheduler. -/
structure TasksInv (st : SchedState) : Prop where
  poolLt : ∀ i ∈ st.pool, i < st.tasks.length
  poolUn : ∀ i ∈ st.pool, ∀ t, st.tasks[i]? = some t → t.assigned = false
  poolNd : st.pool.Nodup
  flagSync : ∀ (i : Nat) (t : TaskInstance), st.tasks[i]? = some t →
    t.assigned = t.completed
  complIff : ∀ (i : Nat) (t : TaskInstance), st.tasks[i]? = some t →
    (t.completed = true ↔ 100 ≤ t.progress_percentage)
  prNonneg : ∀ (i : Nat) (t : TaskInstance), st.tasks[i]? = some t →
    0 ≤ t.progress_percentage

/-- Guarded-append folds preserve duplicate-freeness and any per-element
property established at append time. -/
theorem foldl_guarded_append (P : Nat → Prop) (step : List Nat → Nat → List Nat)
    (hstep : ∀ pl i, step pl i = pl ∨ (i ∉ pl ∧ P i ∧ step pl i = pl ++ [i])) :
    ∀ (l : List Nat) (pl : List Nat), pl.Nodup → (∀ j ∈ pl, P j) →
      (l.foldl step pl).Nodup ∧ ∀ j ∈ l.foldl step pl, P j := by
  intro l
  induction l with
  | nil => intro pl h1 h2; exact ⟨h1, h2⟩
  | cons i l' ih =>
    intro pl h1 h2
    rw [List.foldl_cons]
    rcases hstep pl i with heq | ⟨hni, hPi, heq⟩
    · rw [heq]
      exact ih pl h1 h2
    · rw [heq]
      refine ih (pl ++ [i]) ?_ ?_
      · rw [List.nodup_append]
        exact ⟨h1, List.nodup_singleton i,
          fun a ha ha2 => by
            rw [List.mem_singleton] at ha2
            subst ha2
            exact hni ha⟩
      · intro j hj
        rcases List.mem_append.1 hj with hj | hj
        · exact h2 j hj
        · rw [List.mem_singleton] at hj
          subst hj
          exact hPi

/-- The property each admitted pool index satisfies. -/
def GoodIdx (tasks : List TaskInstance) (i : Nat) : Prop :=
  i < tasks.length ∧ ∀ t, tasks[i]? = some t → t.assigned = false

/-- The end-of-slot refresh preserves the task-state invariant. -/
theorem refreshPool_inv (st : SchedState) (h : TasksInv st) :
    TasksInv (refreshPool st) := by
  have hfold := foldl_guarded_append (GoodIdx st.tasks)
    (fun pl i =>
      match st.tasks[i]? with
      | none => pl
      | some t =>
        if t.assigned || pl.contains i then pl
        else
          let can_add :=
            match t.requirements with
            | [] => true
            | reqs => reqs.any (fun r => st.partials.contains r || st.completeds.contains r)
          if can_add then pl ++ [i] else pl)
    (by
      intro pl i
      dsimp only
      cases ht : st.tasks[i]? with
      | none =>
        exact Or.inl rfl
      | some t =>
        dsimp only
        by_cases hg : (t.assigned || pl.contains i) = true
        · left
          rw [if_pos hg]
        · by_cases hca : (match t.requirements with
            | [] => true
            | reqs => reqs.any (fun r =>
                st.partials.contains r || st.completeds.contains r)) = true
          · right
            refine ⟨?_, ⟨(List.getElem?_eq_some.1 ht).1, ?_⟩, ?_⟩
            · intro hmem
              rw [Bool.or_eq_true, not_or] at hg
              exact hg.2 ((contains_iff_mem pl i).2 hmem)
            · intro t' ht'
              rw [ht'] at ht
              injection ht with ht
              subst ht
              rw [Bool.or_eq_true, not_or] at hg
              simpa using hg.1
            · rw [if_neg hg, if_pos hca]
          · left
            rw [if_neg hg, if_neg hca])
    (List.range st.tasks.length) st.pool h.poolNd
    (fun j hj => ⟨h.poolLt j hj, h.poolUn j hj⟩)
  refine ⟨fun i hi => (hfold.2 i hi).1, fun i hi => (hfold.2 i hi).2, hfold.1,
    h.flagSync, h.complIff, h.prNonneg⟩

/-- The start-of-day pool is duplicate-free and contains only valid,
unassigned indices, provided the processing order has no duplicate
names. -/
theorem buildInitialPool_inv (ord : List String) (st : SchedState)
    (hord : ord.Nodup) :
    (buildInitialPool ord st).Nodup ∧
    ∀ i ∈ buildInitialPool ord st, GoodIdx st.tasks i := by
  unfold buildInitialPool
  have hp1 : ∀ names : List String, names.Nodup →
      ((names.map (fun name =>
        (List.range st.tasks.length).filter
          (fun i =>
            match st.tasks[i]? with
            | some t => t.task_name == name && !t.assigned && t.requirements.isEmpty
            | none => false))).flatten).Nodup ∧
      ∀ i ∈ (names.map (fun name =>
        (List.range st.tasks.length).filter
          (fun i =>
            match st.tasks[i]? with
            | some t => t.task_name == name && !t.assigned && t.requirements.isEmpty
            | none => false))).flatten, GoodIdx st.tasks i := by
    intro names
    induction names with
    | nil => intro _; exact ⟨List.nodup_nil, by simp⟩
    | cons name rest ih =>
      intro hnd
      rw [List.nodup_cons] at hnd
      obtain ⟨hrest, hgrest⟩ := ih hnd.2
      rw [List.map_cons, List.flatten_cons]
      have hmem_local : ∀ (nm : String) (i : Nat),
          i ∈ (List.range st.tasks.length).filter
            (fun i =>
              match st.tasks[i]? with
              | some t => t.task_name == nm && !t.assigned && t.requirements.isEmpty
              | none => false) →
          ∃ t, st.tasks[i]? = some t ∧ t.task_name = nm ∧ t.assigned = false := by
        intro nm i hi
        obtain ⟨hr, hc⟩ := List.mem_filter.1 hi
        cases ht : st.tasks[i]? with
        | none => rw [ht] at hc; cases hc
        | some t =>
          rw [ht] at hc
          replace hc : (t.task_name == nm && !t.assigned && t.requirements.isEmpty) = true := hc
          rw [Bool.and_assoc, Bool.and_eq_true, Bool.and_eq_true] at hc
          exact ⟨t, rfl, by simpa using hc.1, by simpa using hc.2.1⟩
      constructor
      · rw [List.nodup_append]
        refine ⟨(List.nodup_range _).filter _, hrest, ?_⟩
        intro i hi hi2
        obtain ⟨t, ht, htn, _⟩ := hmem_local name i hi
        rw [List.mem_flatten] at hi2
        obtain ⟨l2, hl2, hmem2⟩ := hi2
        rw [List.mem_map] at hl2
        obtain ⟨nm2, hnm2, rfl⟩ := hl2
        obtain ⟨t2, ht2, htn2, _⟩ := hmem_local nm2 i hmem2
        rw [ht] at ht2
        injection ht2 with ht2
        subst ht2
        rw [htn] at htn2
        subst htn2
        exact hnd.1 hnm2
      · intro i hi
        rcases List.mem_append.1 hi with hi | hi
        · obtain ⟨t, ht, _, hta⟩ := hmem_local name i hi
          exact ⟨(List.getElem?_eq_some.1 ht).1, fun t' ht' => by
            rw [ht'] at ht
            injection ht with ht
            subst ht
            exact hta⟩
        · exact hgrest i hi
  obtain ⟨hndp1, hgp1⟩ := hp1 ord hord
  exact foldl_guarded_append (GoodIdx st.tasks) _
    (by
      intro pl i
      cases ht : st.tasks[i]? with
      | none => exact Or.inl rfl
      | some t =>
        dsimp only
        by_cases hg : (t.assigned || pl.contains i) = true
        · left
          rw [if_pos hg]
        · by_cases hca : (!t.requirements.isEmpty &&
              t.requirements.any (fun r =>
                st.partials.contains r || st.completeds.contains r)) = true
          · right
            refine ⟨?_, ⟨(List.getElem?_eq_some.1 ht).1, ?_⟩, ?_⟩
            · intro hmem
              rw [Bool.or_eq_true, not_or] at hg
              exact hg.2 ((contains_iff_mem pl i).2 hmem)
            · intro t' ht'
              rw [ht'] at ht
              injection ht with ht
              subst ht
              rw [Bool.or_eq_true, not_or] at hg
              simpa using hg.1
            · rw [if_neg hg, if_pos hca]
          · left
            rw [if_neg hg, if_neg hca])
    (List.range st.tasks.length) _ hndp1 hgp1

/-- The start-of-day step preserves the task-state invariant. -/
theorem dayStartStep_inv (ctx : Ctx) (ord : List String) (day : Nat)
    (st : SchedState) (hord : ord.Nodup) (h : TasksInv st) :
    TasksInv (dayStartStep ctx ord day st) := by
  unfold dayStartStep
  obtain ⟨hnd, hgood⟩ := buildInitialPool_inv ord { st with aggressive :=
    (if day = 1 then ctx.day1Aggressive else topWorkers ctx st) } hord
  exact ⟨fun i hi => (hgood i hi).1, fun i hi => (hgood i hi).2, hnd,
    h.flagSync, h.complIff, h.prNonneg⟩

/-- A selected task index comes from the pool, is valid and passed the
worker's eligibility test. -/
theorem scanPool_some_mem (st : SchedState) (wd : Worker) (wname : String)
    (isAggr : Bool) (bi : Nat) (h : scanPool st wd wname isAggr = some bi) :
    bi ∈ st.pool ∧ ∃ t, st.tasks[bi]? = some t ∧
      admissible isAggr st.partials st.completeds t = true := by
  rw [scanPool_eq_bestFold] at h
  rcases bestFold_spec (candScore st wd wname isAggr) st.pool (-1) none with
    ⟨heq, _⟩ | ⟨i', l₁, l₂, sc, hdec, hfi, heq, _, _, _⟩
  · rw [heq] at h
    cases h
  · rw [heq] at h
    injection h with h
    subst h
    refine ⟨by rw [hdec]; exact List.mem_append_right l₁ (List.mem_cons_self _ _), ?_⟩
    unfold candScore at hfi
    cases ht : st.tasks[i']? with
    | none => rw [ht] at hfi; cases hfi
    | some t =>
      rw [ht] at hfi
      replace hfi : (if admissible isAggr st.partials st.completeds t = true then
          some (taskScore st wd wname isAggr t) else none) = some sc := hfi
      by_cases hadm : admissible isAggr st.partials st.completeds t
      · exact ⟨t, rfl, hadm⟩
      · rw [if_neg hadm] at hfi
        cases hfi

/-- The assignment block preserves the task-state invariant. -/
theorem applyAssign_inv (day slotIdx : Nat) (st : SchedState) (wname : String)
    (isAggr : Bool) (bi : Nat) (h : TasksInv st) (hbi : bi ∈ st.pool) :
    TasksInv (applyAssign day slotIdx st wname isAggr bi) := by
  unfold applyAssign
  cases ht : st.tasks[bi]? with
  | none => exact h
  | some t =>
    dsimp only
    have hA : t.assigned = false := h.poolUn bi hbi t ht
    have hC : t.completed = false := by
      rw [h.flagSync bi t ht] at hA
      exact hA
    have hP : ¬ (100 : ℚ) ≤ t.progress_percentage := by
      intro hcon
      rw [(h.complIff bi t ht).2 hcon] at hC
      cases hC
    have hN := h.prNonneg bi t ht
    set dur : Nat := (if isAggr = true then
        max 1 (min (pyInt ((t.duration : ℚ) * ((getStat st wname).aggressiveness * 0.4)))
          (slotsCount - slotIdx))
      else min t.duration (slotsCount - slotIdx)) with hdur
    set pct : ℚ := ((dur : ℚ) / (t.duration : ℚ)) * 100 with hpct
    have hpct0 : 0 ≤ pct := by
      rw [hpct]
      positivity
    have hlen : (st.tasks.set bi (updatedTask t wname day slotIdx pct)).length =
        st.tasks.length := List.length_set st.tasks bi _
    have hother : ∀ i : Nat, i ≠ bi →
        (st.tasks.set bi (updatedTask t wname day slotIdx pct))[i]? = st.tasks[i]? :=
      fun i hi => List.getElem?_set_ne (fun hcon => hi hcon.symm)
    have hself : (st.tasks.set bi (updatedTask t wname day slotIdx pct))[bi]? =
        some (updatedTask t wname day slotIdx pct) :=
      getElem?_set_of_get st.tasks bi _ t ht
    refine ⟨?_, ?_, ?_, ?_, ?_, ?_⟩
    · intro i hi
      rw [hlen]
      split at hi
      · exact h.poolLt i (List.mem_of_mem_erase hi)
      · exact h.poolLt i hi
    · intro i hi t' ht'
      split at hi
      · rename_i hcn
        obtain ⟨hine, hmem⟩ := (List.Nodup.mem_erase_iff h.poolNd).1 hi
        rw [hother i hine] at ht'
        exact h.poolUn i hmem t' ht'
      · rename_i hcn
        rw [Bool.not_eq_true, decide_eq_false_iff_not] at hcn
        by_cases hie : i = bi
        · subst hie
          rw [hself] at ht'
          injection ht' with ht'
          subst ht'
          rw [updatedTask_assigned t wname day slotIdx pct hA]
          rw [decide_eq_false_iff_not]
          exact hcn
        · rw [hother i hie] at ht'
          exact h.poolUn i hi t' ht'
    · split
      · exact List.Nodup.erase bi h.poolNd
      · exact h.poolNd
    · intro i t' ht'
      by_cases hie : i = bi
      · subst hie
        rw [hself] at ht'
        injection ht' with ht'
        subst ht'
        rw [updatedTask_assigned t wname day slotIdx pct hA,
          updatedTask_completed t wname day slotIdx pct hC]
      · rw [hother i hie] at ht'
        exact h.flagSync i t' ht'
    · intro i t' ht'
      by_cases hie : i = bi
      · subst hie
        rw [hself] at ht'
        injection ht' with ht'
        subst ht'
        rw [updatedTask_completed t wname day slotIdx pct hC,
          updatedTask_progress t wname day slotIdx pct]
        exact decide_eq_true_iff
      · rw [hother i hie] at ht'
        exact h.complIff i t' ht'
    · intro i t' ht'
      by_cases hie : i = bi
      · subst hie
        rw [hself] at ht'
        injection ht' with ht'
        subst ht'
        rw [updatedTask_progress t wname day slotIdx pct]
        positivity
      · rw [hother i hie] at ht'
        exact h.prNonneg i t' ht'

/-- A worker step preserves the task-state invariant. -/
theorem workerStep_inv (ctx : Ctx) (day slotIdx : Nat) (st : SchedState)
    (wname : String) (h : TasksInv st) :
    TasksInv (workerStep ctx day slotIdx st wname) := by
  unfold workerStep
  cases ctx.roster.find? (fun w => w.name == wname) with
  | none => exact h
  | some wd =>
    dsimp only
    cases hscan : scanPool st wd wname (st.aggressive.contains wname) with
    | none => exact h
    | some bi =>
      exact applyAssign_inv day slotIdx st wname (st.aggressive.contains wname) bi h
        (scanPool_some_mem st wd wname (st.aggressive.contains wname) bi hscan).1

/-- A whole slot preserves the task-state invariant. -/
theorem processSlot_inv (ctx : Ctx) (day slotIdx : Nat) (st : SchedState)
    (h : TasksInv st) : TasksInv (processSlot ctx day slotIdx st) := by
  unfold processSlot
  dsimp only
  split
  · exact h
  · apply refreshPool_inv
    have : ∀ (names : List String) (st0 : SchedState), TasksInv st0 →
        TasksInv (names.foldl (fun s w => workerStep ctx day slotIdx s w) st0) := by
      intro names
      induction names with
      | nil => intro st0 h0; exact h0
      | cons w rest ih =>
        intro st0 h0
        rw [List.foldl_cons]
        exact ih _ (workerStep_inv ctx day slotIdx st0 w h0)
    exact this _ st h

/-- Every phase preserves the task-state invariant (the processing order
coming from the resolver has no duplicates). -/
theorem stepF_inv (ctx : Ctx) (ord : List String) (st : SchedState) (p : Phase)
    (hord : ord.Nodup) (h : TasksInv st) : TasksInv (stepF ctx ord st p) := by
  cases p with
  | dayInit d => exact dayStartStep_inv ctx ord d st hord h
  | slotStep d s => exact processSlot_inv ctx d s st h

/-- The initial state satisfies the task-state invariant. -/
theorem initState_inv (ctx : Ctx) (dm : List (String × DepInfo))
    (rm : List (String × List String)) :
    TasksInv (initState ctx (buildAllTasks ctx.catalog ctx.quantities) dm rm) := by
  refine ⟨by simp [initState], by simp [initState], by simp [initState], ?_, ?_, ?_⟩
  all_goals
    intro i t ht
    have htm : t ∈ buildAllTasks ctx.catalog ctx.quantities := List.getElem?_mem ht
    obtain ⟨r, _, rfl⟩ := mem_buildAllTasks ctx.catalog ctx.quantities t htm
  · rfl
  · unfold mkInstance
    dsimp only
    constructor
    · intro hcon
      cases hcon
    · intro hcon
      norm_num at hcon
  · unfold mkInstance
    dsimp only
    norm_num

/-- Any state reached by a successful partial run satisfies the
task-state invariant. -/
theorem runPrefix_inv (ctx : Ctx) (l : List Phase) (st : SchedState)
    (h : runPrefix ctx l = some st) : TasksInv st := by
  unfold runPrefix at h
  by_cases hr : ctx.roster.isEmpty
  · rw [if_pos hr] at h
    cases h
  · rw [if_neg hr] at h
    dsimp only at h
    cases hdm : buildDepMap (buildAllTasks ctx.catalog ctx.quantities) with
    | none => rw [hdm] at h; cases h
    | some dm =>
      rw [hdm] at h
      cases hord : processingOrder (buildAllTasks ctx.catalog ctx.quantities) with
      | none => rw [hord] at h; cases h
      | some ord =>
        rw [hord] at h
        injection h with h
        subst h
        have hnd := processingOrder_nodup _ ord hord
        have : ∀ (ph : List Phase) (st0 : SchedState), TasksInv st0 →
            TasksInv (ph.foldl (stepF ctx ord) st0) := by
          intro ph
          induction ph with
          | nil => intro st0 h0; exact h0
          | cons p rest ih =>
            intro st0 h0
            rw [List.foldl_cons]
            exact ih _ (stepF_inv ctx ord st0 p hnd h0)
        exact this l _ (initState_inv ctx dm (buildReqMap (buildAllTasks ctx.catalog ctx.quantities)))

/-! ### Monotonic evolution of task records (C1) -/

/-- The life-cycle position of a task instance:
0 = not started, 1 = in progress, 2 = completed. -/
def taskPhase (t : TaskInstance) : Nat :=
  if t.completed then 2 else if t.in_progress then 1 else 0

/-- Progress never decreases and the life-cycle phase never moves
backwards between two states. -/
def TasksMono (st st' : SchedState) : Prop :=
  st'.tasks.length = st.tasks.length ∧
  ∀ (i : Nat) (t t' : TaskInstance), st.tasks[i]? = some t → st'.tasks[i]? = some t' →
    t.progress_percentage ≤ t'.progress_percentage ∧ taskPhase t ≤ taskPhase t'

theorem tasksMono_refl (st : SchedState) : TasksMono st st := by
  refine ⟨rfl, ?_⟩
  intro i t t' h h'
  rw [h] at h'
  injection h' with h'
  subst h'
  exact ⟨le_rfl, le_rfl⟩

theorem tasksMono_of_tasks_eq (st st' : SchedState) (h : st'.tasks = st.tasks) :
    TasksMono st st' := by
  refine ⟨by rw [h], ?_⟩
  intro i t t' h1 h2
  rw [h, h1] at h2
  injection h2 with h2
  subst h2
  exact ⟨le_rfl, le_rfl⟩

theorem tasksMono_trans (s1 s2 s3 : SchedState) (h12 : TasksMono s1 s2)
    (h23 : TasksMono s2 s3) : TasksMono s1 s3 := by
  refine ⟨h23.1.trans h12.1, ?_⟩
  intro i t t' h1 h3
  have e1 := h12.1
  have hlt : i < s1.tasks.length := (List.getElem?_eq_some.1 h1).1
  have hlt2 : i < s2.tasks.length := by omega
  cases h2 : s2.tasks[i]? with
  | none =>
    rw [List.getElem?_eq_none_iff] at h2
    omega
  | some tm =>
    obtain ⟨ha, hb⟩ := h12.2 i t tm h1 h2
    obtain ⟨hc, hd⟩ := h23.2 i tm t' h2 h3
    exact ⟨ha.trans hc, hb.trans hd⟩

theorem taskPhase_le_updatedTask (t : TaskInstance) (w : String) (d s : Nat)
    (pct : ℚ) : taskPhase t ≤ taskPhase (updatedTask t w d s pct) := by
  unfold updatedTask
  dsimp only
  split
  all_goals cases hc : t.completed <;> cases hp : t.in_progress <;>
    simp [taskPhase, hc, hp]

theorem applyAssign_mono (day slotIdx : Nat) (st : SchedState) (wname : String)
    (isAggr : Bool) (bi : Nat) :
    TasksMono st (applyAssign day slotIdx st wname isAggr bi) := by
  unfold applyAssign
  cases ht : st.tasks[bi]? with
  | none => exact tasksMono_refl st
  | some t =>
    dsimp only
    set dur : Nat := (if isAggr = true then
        max 1 (min (pyInt ((t.duration : ℚ) * ((getStat st wname).aggressiveness * 0.4)))
          (slotsCount - slotIdx))
      else min t.duration (slotsCount - slotIdx)) with hdur
    set pct : ℚ := ((dur : ℚ) / (t.duration : ℚ)) * 100 with hpct
    have hpct0 : 0 ≤ pct := by
      rw [hpct]
      positivity
    refine ⟨List.length_set st.tasks bi _, ?_⟩
    intro i t1 t2 h1 h2
    by_cases hie : i = bi
    · subst hie
      rw [getElem?_set_of_get st.tasks i _ t ht] at h2
      rw [ht] at h1
      injection h1 with h1
      injection h2 with h2
      subst h1
      subst h2
      rw [updatedTask_progress]
      exact ⟨by linarith, taskPhase_le_updatedTask _ wname day slotIdx pct⟩
    · rw [List.getElem?_set_ne (fun hcon => hie hcon.symm), h1] at h2
      injection h2 with h2
      subst h2
      exact ⟨le_rfl, le_rfl⟩

theorem workerStep_mono (ctx : Ctx) (day slotIdx : Nat) (st : SchedState)
    (wname : String) : TasksMono st (workerStep ctx day slotIdx st wname) := by
  unfold workerStep
  cases ctx.roster.find? (fun w => w.name == wname) with
  | none => exact tasksMono_refl st
  | some wd =>
    dsimp only
    cases scanPool st wd wname (st.aggressive.contains wname) with
    | none => exact tasksMono_refl st
    | some bi => exact applyAssign_mono day slotIdx st wname _ bi

theorem foldl_worker_mono (ctx : Ctx) (day slotIdx : Nat) :
    ∀ (names : List String) (st : SchedState),
      TasksMono st (names.foldl (fun s w => workerStep ctx day slotIdx s w) st) := by
  intro names
  induction names with
  | nil => intro st; exact tasksMono_refl st
  | cons w rest ih =>
    intro st
    rw [List.foldl_cons]
    exact tasksMono_trans st _ _ (workerStep_mono ctx day slotIdx st w) (ih _)

theorem stepF_mono (ctx : Ctx) (ord : List String) (st : SchedState) (p : Phase) :
    TasksMono st (stepF ctx ord st p) := by
  cases p with
  | dayInit d => exact tasksMono_of_tasks_eq st _ rfl
  | slotStep d s =>
    show TasksMono st (processSlot ctx d s st)
    unfold processSlot
    dsimp only
    split
    · exact tasksMono_refl st
    · exact tasksMono_trans st _ _ (foldl_worker_mono ctx d s _ st)
        (tasksMono_of_tasks_eq _ _ rfl)

theorem foldl_stepF_mono (ctx : Ctx) (ord : List String) :
    ∀ (l : List Phase) (st : SchedState),
      TasksMono st (l.foldl (stepF ctx ord) st) := by
  intro l
  induction l with
  | nil => intro st; exact tasksMono_refl st
  | cons p rest ih =>
    intro st
    rw [List.foldl_cons]
    exact tasksMono_trans st _ _ (stepF_mono ctx ord st p) (ih _)

/-- Composing a successful partial run with more phases. -/
theorem runPrefix_append (ctx : Ctx) (l₁ l₂ : List Phase) (st₁ : SchedState)
    (h : runPrefix ctx l₁ = some st₁) :
    ∃ ord, processingOrder (buildAllTasks ctx.catalog ctx.quantities) = some ord ∧
      runPrefix ctx (l₁ ++ l₂) = some (l₂.foldl (stepF ctx ord) st₁) := by
  unfold runPrefix at h ⊢
  by_cases hr : ctx.roster.isEmpty
  · rw [if_pos hr] at h
    cases h
  · rw [if_neg hr] at h ⊢
    dsimp only at h ⊢
    cases hdm : buildDepMap (buildAllTasks ctx.catalog ctx.quantities) with
    | none => rw [hdm] at h; cases h
    | some dm =>
      rw [hdm] at h
      dsimp only at h ⊢
      cases hord : processingOrder (buildAllTasks ctx.catalog ctx.quantities) with
      | none =>
        rw [hord] at h
        cases h
      | some ord =>
        rw [hord] at h
        dsimp only at h ⊢
        injection h with h
        refine ⟨ord, rfl, ?_⟩
        rw [List.foldl_append, h]

/-- A run with no phases executed yields the initial state. -/
theorem runPrefix_nil_elim (ctx : Ctx) (st : SchedState)
    (h : runPrefix ctx [] = some st) :
    ∃ dm, st = initState ctx (buildAllTasks ctx.catalog ctx.quantities) dm
      (buildReqMap (buildAllTasks ctx.catalog ctx.quantities)) := by
  unfold runPrefix at h
  by_cases hr : ctx.roster.isEmpty
  · rw [if_pos hr] at h
    cases h
  · rw [if_neg hr] at h
    dsimp only at h
    cases hdm : buildDepMap (buildAllTasks ctx.catalog ctx.quantities) with
    | none => rw [hdm] at h; cases h
    | some dm =>
      rw [hdm] at h
      dsimp only at h
      cases hord : processingOrder (buildAllTasks ctx.catalog ctx.quantities) with
      | none => rw [hord] at h; cases h
      | some ord =>
        rw [hord] at h
        injection h with h
        exact ⟨dm, h.symm⟩

/-- The C1 bundle: progress starts at zero with all flags clear, is
non-decreasing over the run together with the life-cycle phase
(not started → in progress → completed, each transition at most once and
never backwards), stays non-negative, and the completed flag holds
exactly when accumulated progress reaches 100. -/
def ProgressInvariants (ctx : Ctx) : Prop :=
  (∀ st, runPrefix ctx [] = some st → ∀ t ∈ st.tasks,
    t.progress_percentage = 0 ∧ t.in_progress = false ∧ t.completed = false ∧
    t.assigned = false) ∧
  (∀ (l₁ l₂ : List Phase) (st₁ st₂ : SchedState),
    runPrefix ctx l₁ = some st₁ → runPrefix ctx (l₁ ++ l₂) = some st₂ →
    ∀ (i : Nat) (t₁ t₂ : TaskInstance),
      st₁.tasks[i]? = some t₁ → st₂.tasks[i]? = some t₂ →
      t₁.progress_percentage ≤ t₂.progress_percentage ∧ taskPhase t₁ ≤ taskPhase t₂) ∧
  (∀ (l : List Phase) (st : SchedState), runPrefix ctx l = some st →
    ∀ t ∈ st.tasks,
      0 ≤ t.progress_percentage ∧ (t.completed = true ↔ 100 ≤ t.progress_percentage))

/-- C1 (amended): for every run: progress starts at 0 and is
monotonically non-decreasing; the state machine not-started →
in-progress → completed only ever moves forward; completed holds iff
progress ≥ 100; progress stays non-negative (it can exceed 100 when
several workers contribute to one instance — see the counterexample). -/
theorem progress_invariants (ctx : Ctx) : ProgressInvariants ctx := by
  refine ⟨?_, ?_, ?_⟩
  · intro st h t htm
    obtain ⟨dm, rfl⟩ := runPrefix_nil_elim ctx st h
    obtain ⟨r, _, rfl⟩ := mem_buildAllTasks ctx.catalog ctx.quantities t htm
    exact ⟨rfl, rfl, rfl, rfl⟩
  · intro l₁ l₂ st₁ st₂ h1 h2 i t₁ t₂ ht1 ht2
    obtain ⟨ord, _, happ⟩ := runPrefix_append ctx l₁ l₂ st₁ h1
    rw [happ] at h2
    injection h2 with h2
    subst h2
    exact (foldl_stepF_mono ctx ord l₂ st₁).2 i t₁ t₂ ht1 ht2
  · intro l st h t htm
    have hinv := runPrefix_inv ctx l st h
    obtain ⟨i, hi⟩ := List.mem_iff_getElem?.1 htm
    exact ⟨hinv.prNonneg i t hi, hinv.complIff i t hi⟩

/-! ### Grid write-once machinery (C2, C10) -/

/-- Beyond the current slot `tt`, the filled cells of a row have no left
edge: a filled cell at `s+1` implies a filled cell at `s`. -/
def LeftFilled (g : Grid) (d : Nat) (w : String) (tt : Nat) : Prop :=
  ∀ s, tt ≤ s → g d w (s + 1) ≠ none → g d w s ≠ none

/-- The write-trace invariant: the trace has no duplicate and records
exactly the non-empty cells. -/
def WritesInv (st : SchedState) : Prop :=
  st.writes.Nodup ∧ ∀ d w s, ((d, w, s) ∈ st.writes ↔ st.grid d w s ≠ none)

/-- Non-empty cells are never changed between the two states. -/
def GridMono (st st' : SchedState) : Prop :=
  ∀ d w s, st.grid d w s ≠ none → st'.grid d w s = st.grid d w s

theorem gridMono_refl (st : SchedState) : GridMono st st := fun _ _ _ _ => rfl

theorem gridMono_trans (s1 s2 s3 : SchedState) (h12 : GridMono s1 s2)
    (h23 : GridMono s2 s3) : GridMono s1 s3 := by
  intro d w s h
  rw [h23 d w s (by rw [h12 d w s h]; exact h), h12 d w s h]

theorem gridMono_of_grid_eq (s1 s2 : SchedState) (h : s2.grid = s1.grid) :
    GridMono s1 s2 := fun d w s _ => by rw [h]

/-- A row that is free at `tt` and has no left edge beyond `tt` is free
everywhere from `tt` on. -/
theorem leftFilled_forward (g : Grid) (d : Nat) (w : String) (tt : Nat)
    (hL : LeftFilled g d w tt) (h0 : g d w tt = none) :
    ∀ s, tt ≤ s → g d w s = none := by
  have key : ∀ j, g d w (tt + j) = none := by
    intro j
    induction j with
    | zero => exact h0
    | succ n ih =>
      by_contra hcon
      have := hL (tt + n) (by omega) (by rw [show tt + n + 1 = tt + (n + 1) by omega]; exact hcon)
      exact this ih
  intro s hs
  have : s = tt + (s - tt) := by omega
  rw [this]
  exact key (s - tt)

/-- An all-empty row has no left edge anywhere. -/
theorem leftFilled_of_none (g : Grid) (d : Nat) (w : String) (tt : Nat)
    (h : ∀ s, g d w s = none) : LeftFilled g d w tt := by
  intro s _ hcon
  exact absurd (h (s + 1)) hcon

theorem leftFilled_succ (g : Grid) (d : Nat) (w : String) (tt : Nat)
    (h : LeftFilled g d w tt) : LeftFilled g d w (tt + 1) :=
  fun s hs => h s (by omega)

/-- Cells at or past the end of the day are never written. -/
theorem fillCells_big (g : Grid) (d : Nat) (w : String) (numSlots start : Nat)
    (c : Cell) : ∀ (n : Nat) (d' : Nat) (w' : String) (s' : Nat), numSlots ≤ s' →
    fillCells g d w numSlots start c n d' w' s' = g d' w' s' := by
  intro n
  induction n with
  | zero => intro d' w' s' _; rfl
  | succ n ih =>
    intro d' w' s' hs
    have hstep : fillCells g d w numSlots start c (n + 1) =
        (if start + n < numSlots then
          setCell (fillCells g d w numSlots start c n) d w (start + n) c
        else fillCells g d w numSlots start c n) := rfl
    rw [hstep]
    by_cases hlt : start + n < numSlots
    · rw [if_pos hlt]
      unfold setCell
      rw [if_neg, ih d' w' s' hs]
      rintro ⟨-, -, h⟩
      omega
    · rw [if_neg hlt]
      exact ih d' w' s' hs

/-- The write list of one block has no duplicates. -/
theorem writesFor_nodup (d : Nat) (w : String) (numSlots start : Nat) :
    ∀ n, (writesFor d w numSlots start n).Nodup := by
  intro n
  induction n with
  | zero => exact List.nodup_nil
  | succ n ih =>
    unfold writesFor at ih ⊢
    rw [List.range_succ, List.filterMap_append]
    rw [List.nodup_append]
    refine ⟨ih, ?_, ?_⟩
    · simp only [List.filterMap_cons, List.filterMap_nil]
      split <;> simp
    · intro x hx hx2
      rw [← writesFor] at hx
      rw [mem_writesFor] at hx
      obtain ⟨j, hj, _, rfl⟩ := hx
      obtain ⟨a, ha, hfa⟩ := List.mem_filterMap.1 hx2
      rw [List.mem_singleton] at ha
      subst ha
      by_cases hlt : start + a < numSlots
      · rw [if_pos hlt] at hfa
        injection hfa with h1
        injection h1 with h2 h3
        injection h3 with h4 h5
        omega
      · rw [if_neg hlt] at hfa
        cases hfa

/-- The committed duration never exceeds what is left of the day. -/
theorem dur_le_remaining (isAggr : Bool) (x dur0 tt : Nat) (htt : tt < slotsCount) :
    (if isAggr = true then max 1 (min x (slotsCount - tt))
     else min dur0 (slotsCount - tt)) ≤ slotsCount - tt := by
  split <;> omega

/-- One worker step: writes only to this worker's row of this day, from
the current slot on; preserves the trace invariant and the left-filled
property; never changes a non-empty cell. -/
theorem workerStep_grid (ctx : Ctx) (d tt : Nat) (st : SchedState) (w : String)
    (htt : tt < slotsCount) (hW : WritesInv st)
    (hL : ∀ w', LeftFilled st.grid d w' tt)
    (hfree : st.grid d w tt = none) :
    WritesInv (workerStep ctx d tt st w) ∧
    GridMono st (workerStep ctx d tt st w) ∧
    (∀ w', LeftFilled (workerStep ctx d tt st w).grid d w' tt) ∧
    (∀ d' w' s, d' ≠ d → (workerStep ctx d tt st w).grid d' w' s = st.grid d' w' s) ∧
    (∀ w' s, w' ≠ w → (workerStep ctx d tt st w).grid d w' s = st.grid d w' s) := by
  unfold workerStep
  cases ctx.roster.find? (fun x => x.name == w) with
  | none => exact ⟨hW, gridMono_refl st, hL, fun _ _ _ _ => rfl, fun _ _ _ => rfl⟩
  | some wd =>
    dsimp only
    cases scanPool st wd w (st.aggressive.contains w) with
    | none => exact ⟨hW, gridMono_refl st, hL, fun _ _ _ _ => rfl, fun _ _ _ => rfl⟩
    | some bi =>
      dsimp only
      unfold applyAssign
      cases ht : st.tasks[bi]? with
      | none => exact ⟨hW, gridMono_refl st, hL, fun _ _ _ _ => rfl, fun _ _ _ => rfl⟩
      | some t =>
        dsimp only
        set dur : Nat := (if st.aggressive.contains w = true then
            max 1 (min (pyInt ((t.duration : ℚ) * ((getStat st w).aggressiveness * 0.4)))
              (slotsCount - tt))
          else min t.duration (slotsCount - tt)) with hdur
        have hdle : dur ≤ slotsCount - tt := by
          rw [hdur]
          exact dur_le_remaining _ _ _ tt htt
        have hrow : ∀ s, tt ≤ s → st.grid d w s = none :=
          leftFilled_forward st.grid d w tt (hL w) hfree
        set c : Cell := (⟨t.product, t.task_name, t.task_id⟩ : Cell) with hc
        set g' : Grid := fillCells st.grid d w slotsCount tt c dur with hg
        have hin : ∀ s, tt ≤ s → s < tt + dur → g' d w s = some c := by
          intro s h1 h2
          rw [hg]
          exact fillCells_inside st.grid d w slotsCount tt c dur s h1 h2 (by omega)
        have hout : ∀ d' w' s, ¬(d' = d ∧ w' = w ∧ tt ≤ s ∧ s < tt + dur) →
            g' d' w' s = st.grid d' w' s := by
          intro d' w' s h
          rw [hg]
          exact fillCells_outside st.grid d w slotsCount tt c dur d' w' s h
        have hmono : ∀ d' w' s, st.grid d' w' s ≠ none → g' d' w' s = st.grid d' w' s := by
          intro d' w' s hne
          apply hout
          rintro ⟨rfl, rfl, h1, h2⟩
          exact hne (hrow s h1)
        refine ⟨⟨?_, ?_⟩, ?_, ?_, ?_, ?_⟩
        · show (st.writes ++ writesFor d w slotsCount tt dur).Nodup
          rw [List.nodup_append]
          refine ⟨hW.1, writesFor_nodup d w slotsCount tt dur, ?_⟩
          intro x hx hx2
          rw [mem_writesFor] at hx2
          obtain ⟨j, hj, hjs, rfl⟩ := hx2
          have := (hW.2 d w (tt + j)).1 hx
          exact this (hrow (tt + j) (by omega))
        · show ∀ d' w' s, ((d', w', s) ∈ st.writes ++ writesFor d w slotsCount tt dur ↔
            g' d' w' s ≠ none)
          intro d' w' s
          constructor
          · intro hmem
            rcases List.mem_append.1 hmem with hmem | hmem
            · have hne := (hW.2 d' w' s).1 hmem
              rw [hmono d' w' s hne]
              exact hne
            · rw [mem_writesFor] at hmem
              obtain ⟨j, hj, hjs, heq⟩ := hmem
              injection heq with h1 heq
              injection heq with h2 h3
              subst h1; subst h2; subst h3
              rw [hin (tt + j) (by omega) (by omega)]
              exact Option.some_ne_none c
          · intro hne
            by_cases hbox : d' = d ∧ w' = w ∧ tt ≤ s ∧ s < tt + dur
            · obtain ⟨rfl, rfl, h1, h2⟩ := hbox
              apply List.mem_append_right
              rw [mem_writesFor]
              exact ⟨s - tt, by omega, by omega, by
                have : tt + (s - tt) = s := by omega
                rw [this]⟩
            · rw [hout d' w' s hbox] at hne
              exact List.mem_append_left _ ((hW.2 d' w' s).2 hne)
        · show ∀ d' w' s, st.grid d' w' s ≠ none → g' d' w' s = st.grid d' w' s
          exact hmono
        · show ∀ w', LeftFilled g' d w' tt
          intro w'
          by_cases hww : w' = w
          · subst hww
            intro s hs hne
            by_cases hsb : s + 1 < tt + dur ∧ tt ≤ s + 1
            · by_cases hse : tt ≤ s
              · exact fun hcon =>
                  (Option.some_ne_none c) (by rw [← hin s hse (by omega)]; exact hcon)
              · omega
            · have hnb : ¬(d = d ∧ w' = w' ∧ tt ≤ s + 1 ∧ s + 1 < tt + dur) := by
                rintro ⟨-, -, h1, h2⟩
                exact hsb ⟨h2, h1⟩
              rw [hout d w' (s + 1) hnb] at hne
              have hsne := hL w' s hs hne
              rw [hmono d w' s hsne]
              exact hsne
          · intro s hs hne
            rw [hout d w' (s + 1) (by rintro ⟨-, h, -⟩; exact hww h)] at hne
            rw [hout d w' s (by rintro ⟨-, h, -⟩; exact hww h)]
            exact hL w' s hs hne
        · show ∀ d' w' s, d' ≠ d → g' d' w' s = st.grid d' w' s
          intro d' w' s hd
          exact hout d' w' s (by rintro ⟨h, -⟩; exact hd h)
        · show ∀ w' s, w' ≠ w → g' d w' s = st.grid d w' s
          intro w' s hw
          exact hout d w' s (by rintro ⟨-, h, -⟩; exact hw h)

/-- Folding worker steps over a duplicate-free list of workers whose rows
are free at the current slot preserves the trace invariant and the
left-filled property, never changes a non-empty cell, and leaves the
other days untouched. -/
theorem foldl_workerStep_grid (ctx : Ctx) (d tt : Nat) (htt : tt < slotsCount) :
    ∀ (ws : List String) (st : SchedState), ws.Nodup → WritesInv st →
    (∀ w', LeftFilled st.grid d w' tt) →
    (∀ w ∈ ws, st.grid d w tt = none) →
    WritesInv (ws.foldl (fun s w => workerStep ctx d tt s w) st) ∧
    GridMono st (ws.foldl (fun s w => workerStep ctx d tt s w) st) ∧
    (∀ w', LeftFilled (ws.foldl (fun s w => workerStep ctx d tt s w) st).grid d w' tt) ∧
    (∀ d' w' s, d' ≠ d →
      (ws.foldl (fun s w => workerStep ctx d tt s w) st).grid d' w' s = st.grid d' w' s) := by
  intro ws
  induction ws with
  | nil =>
    intro st _ hW hL _
    exact ⟨hW, gridMono_refl st, hL, fun _ _ _ _ => rfl⟩
  | cons w ws ih =>
    intro st hnd hW hL hfree
    obtain ⟨hW1, hM1, hL1, hFd1, hFw1⟩ :=
      workerStep_grid ctx d tt st w htt hW hL (hfree w (List.mem_cons_self w ws))
    have hnd' := List.nodup_cons.1 hnd
    have hfree' : ∀ w2 ∈ ws, (workerStep ctx d tt st w).grid d w2 tt = none := by
      intro w2 hw2
      rw [hFw1 w2 tt (fun he => hnd'.1 (he ▸ hw2))]
      exact hfree w2 (List.mem_cons_of_mem w hw2)
    have h2 := ih (workerStep ctx d tt st w) hnd'.2 hW1 hL1 hfree'
    rw [List.foldl_cons]
    exact ⟨h2.1, gridMono_trans _ _ _ hM1 h2.2.1, h2.2.2.1,
      fun d' w' s hd => by rw [h2.2.2.2 d' w' s hd, hFd1 d' w' s hd]⟩

/-- Splitting a duplicate-free list by a Boolean key keeps it
duplicate-free. -/
theorem filter_partition_nodup (l : List String) (p : String → Bool) (h : l.Nodup) :
    (l.filter p ++ l.filter (fun w => !(p w))).Nodup := by
  rw [List.nodup_append]
  refine ⟨h.filter p, h.filter _, ?_⟩
  intro x hx hx2
  have h1 := (List.mem_filter.1 hx).2
  have h2 := (List.mem_filter.1 hx2).2
  rw [h1] at h2
  cases h2

/-- One time slot preserves the trace invariant, never changes a
non-empty cell, leaves no left edge at the next slot, and leaves the
other days untouched. -/
theorem processSlot_grid (ctx : Ctx) (d tt : Nat) (st : SchedState)
    (htt : tt < slotsCount) (hnd : (ctx.roster.map (fun w => w.name)).Nodup)
    (hW : WritesInv st) (hL : ∀ w', LeftFilled st.grid d w' tt) :
    WritesInv (processSlot ctx d tt st) ∧
    GridMono st (processSlot ctx d tt st) ∧
    (∀ w', LeftFilled (processSlot ctx d tt st).grid d w' tt) ∧
    (∀ d' w' s, d' ≠ d → (processSlot ctx d tt st).grid d' w' s = st.grid d' w' s) := by
  unfold processSlot
  dsimp only
  split
  · exact ⟨hW, gridMono_refl st, hL, fun _ _ _ _ => rfl⟩
  · have hand : (((ctx.roster.map (fun w => w.name)).filter
        (fun w => (st.grid d w tt).isNone))).Nodup := hnd.filter _
    have hsfree : ∀ w ∈ (((ctx.roster.map (fun w => w.name)).filter
          (fun w => (st.grid d w tt).isNone)).filter
            (fun w => st.aggressive.contains w) ++
        ((ctx.roster.map (fun w => w.name)).filter
          (fun w => (st.grid d w tt).isNone)).filter
            (fun w => !(st.aggressive.contains w))),
        st.grid d w tt = none := by
      intro w hw
      have hwa : w ∈ (ctx.roster.map (fun w => w.name)).filter
          (fun w => (st.grid d w tt).isNone) := by
        rcases List.mem_append.1 hw with h | h
        · exact (List.mem_filter.1 h).1
        · exact (List.mem_filter.1 h).1
      exact Option.isNone_iff_eq_none.1 ((List.mem_filter.1 hwa).2)
    have h2 := foldl_workerStep_grid ctx d tt htt _ st
      (filter_partition_nodup _ _ hand) hW hL hsfree
    exact ⟨h2.1, h2.2.1, h2.2.2.1, h2.2.2.2⟩

/-- The day-start step touches only the aggressive set and the pool. -/
theorem dayStartStep_grid (ctx : Ctx) (ord : List String) (day : Nat) (st : SchedState) :
    (dayStartStep ctx ord day st).grid = st.grid := rfl

/-- The agenda tail from position (day `d`, next slot `tt`); position
(d, slotsCount) sits just before day `d+1` starts, and position
(0, slotsCount) is the whole agenda. -/
def agendaFrom (ctx : Ctx) (d tt : Nat) : List Phase :=
  (List.range' tt (slotsCount - tt)).map (Phase.slotStep d) ++
  (((List.range' (d + 1) (estimatedDays ctx - d)).map
    (fun e => Phase.dayInit e :: (List.range slotsCount).map (Phase.slotStep e))).flatten)

theorem fullAgenda_eq (ctx : Ctx) : fullAgenda ctx = agendaFrom ctx 0 slotsCount := by
  unfold fullAgenda agendaFrom
  rw [Nat.sub_self, Nat.sub_zero]
  rfl

theorem agendaFrom_slot (ctx : Ctx) (d tt : Nat) (h : tt < slotsCount) :
    agendaFrom ctx d tt = Phase.slotStep d tt :: agendaFrom ctx d (tt + 1) := by
  unfold agendaFrom
  rw [show slotsCount - tt = (slotsCount - (tt + 1)) + 1 by omega, List.range'_succ]
  rfl

theorem agendaFrom_day (ctx : Ctx) (d : Nat) (h : d < estimatedDays ctx) :
    agendaFrom ctx d slotsCount = Phase.dayInit (d + 1) :: agendaFrom ctx (d + 1) 0 := by
  unfold agendaFrom
  rw [Nat.sub_self,
    show estimatedDays ctx - d = (estimatedDays ctx - (d + 1)) + 1 by omega,
    List.range'_succ, List.map_cons, List.flatten_cons, Nat.sub_zero,
    List.range_eq_range']
  rfl

theorem agendaFrom_end (ctx : Ctx) (d : Nat) (h : estimatedDays ctx ≤ d) :
    agendaFrom ctx d slotsCount = [] := by
  unfold agendaFrom
  rw [Nat.sub_self, show estimatedDays ctx - d = 0 by omega]
  rfl

/-- The grid invariant at agenda position (day `d`, next slot `tt`): the
write trace matches the grid, day `d` rows have no left edge from `tt`
on, and all later days are empty. -/
def GInv (st : SchedState) (d tt : Nat) : Prop :=
  WritesInv st ∧ (∀ w', LeftFilled st.grid d w' tt) ∧
  (∀ d' w s, d < d' → st.grid d' w s = none)

/-- Running any prefix of the agenda tail from an invariant position
preserves the write-trace invariant, never changes a non-empty cell, and
lands at another invariant position whose tail continues the agenda. -/
theorem agendaFrom_run (ctx : Ctx) (ord : List String)
    (hnd : (ctx.roster.map (fun w => w.name)).Nodup) :
    ∀ (l : List Phase) (d tt : Nat) (st : SchedState), tt ≤ slotsCount →
    l <+: agendaFrom ctx d tt → GInv st d tt →
    WritesInv (l.foldl (stepF ctx ord) st) ∧
    GridMono st (l.foldl (stepF ctx ord) st) ∧
    ∃ d2 tt2, tt2 ≤ slotsCount ∧ GInv (l.foldl (stepF ctx ord) st) d2 tt2 ∧
      ∀ l3, l ++ l3 <+: agendaFrom ctx d tt → l3 <+: agendaFrom ctx d2 tt2 := by
  intro l
  induction l with
  | nil =>
    intro d tt st htt _ hI
    exact ⟨hI.1, gridMono_refl st, d, tt, htt, hI, fun l3 h3 => h3⟩
  | cons p l ih =>
    intro d tt st htt hpre hI
    by_cases hlt : tt < slotsCount
    · rw [agendaFrom_slot ctx d tt hlt] at hpre
      obtain ⟨rfl, hpre2⟩ := List.cons_prefix_cons.1 hpre
      have hps := processSlot_grid ctx d tt st hlt hnd hI.1 hI.2.1
      have hI2 : GInv (processSlot ctx d tt st) d (tt + 1) :=
        ⟨hps.1, fun w' => leftFilled_succ _ _ _ _ (hps.2.2.1 w'),
         fun d' w s hd => by
           rw [hps.2.2.2 d' w s (by omega)]
           exact hI.2.2 d' w s hd⟩
      rw [List.foldl_cons]
      have hrest := ih d (tt + 1) (processSlot ctx d tt st) hlt hpre2 hI2
      refine ⟨hrest.1, gridMono_trans _ _ _ hps.2.1 hrest.2.1, ?_⟩
      obtain ⟨d2, tt2, htt2, hI3, hcont⟩ := hrest.2.2
      refine ⟨d2, tt2, htt2, hI3, ?_⟩
      intro l3 h3
      rw [agendaFrom_slot ctx d tt hlt] at h3
      exact hcont l3 (List.cons_prefix_cons.1 h3).2
    · have htteq : tt = slotsCount := by omega
      subst htteq
      by_cases hd : d < estimatedDays ctx
      · rw [agendaFrom_day ctx d hd] at hpre
        obtain ⟨rfl, hpre2⟩ := List.cons_prefix_cons.1 hpre
        have hI2 : GInv (dayStartStep ctx ord (d + 1) st) (d + 1) 0 := by
          refine ⟨hI.1, ?_, ?_⟩
          · intro w'
            exact leftFilled_of_none _ _ _ _ (fun s => hI.2.2 (d + 1) w' s (by omega))
          · intro d' w s hd2
            exact hI.2.2 d' w s (by omega)
        rw [List.foldl_cons]
        have hrest := ih (d + 1) 0 (dayStartStep ctx ord (d + 1) st) (by omega) hpre2 hI2
        refine ⟨hrest.1,
          gridMono_trans _ _ _ (gridMono_of_grid_eq _ _ rfl) hrest.2.1, ?_⟩
        obtain ⟨d2, tt2, htt2, hI3, hcont⟩ := hrest.2.2
        refine ⟨d2, tt2, htt2, hI3, ?_⟩
        intro l3 h3
        rw [agendaFrom_day ctx d hd] at h3
        exact hcont l3 (List.cons_prefix_cons.1 h3).2
      · rw [agendaFrom_end ctx d (by omega)] at hpre
        exact absurd (List.prefix_nil.1 hpre) (List.cons_ne_nil p l)

/-- The initial state is at position (0, slotsCount). -/
theorem initState_ginv (ctx : Ctx) (allTasks : List TaskInstance)
    (dm : List (String × DepInfo)) (rm : List (String × List String)) :
    GInv (initState ctx allTasks dm rm) 0 slotsCount := by
  refine ⟨⟨List.nodup_nil, ?_⟩, ?_, ?_⟩
  · intro d w s
    exact ⟨fun hm => absurd hm (List.not_mem_nil _), fun hne => absurd rfl hne⟩
  · intro w'
    exact leftFilled_of_none _ _ _ _ (fun s => rfl)
  · intro d' w s _
    rfl

/-- A successful run names a processing order and factors through the
fold from the initial state. -/
theorem runPrefix_factor (ctx : Ctx) (l : List Phase) (st : SchedState)
    (h : runPrefix ctx l = some st) :
    ∃ ord dm, processingOrder (buildAllTasks ctx.catalog ctx.quantities) = some ord ∧
      st = l.foldl (stepF ctx ord)
        (initState ctx (buildAllTasks ctx.catalog ctx.quantities) dm
          (buildReqMap (buildAllTasks ctx.catalog ctx.quantities))) := by
  unfold runPrefix at h
  by_cases hr : ctx.roster.isEmpty
  · rw [if_pos hr] at h
    cases h
  · rw [if_neg hr] at h
    dsimp only at h
    cases hdm : buildDepMap (buildAllTasks ctx.catalog ctx.quantities) with
    | none => rw [hdm] at h; cases h
    | some dm =>
      rw [hdm] at h
      dsimp only at h
      cases hord : processingOrder (buildAllTasks ctx.catalog ctx.quantities) with
      | none => rw [hord] at h; cases h
      | some ord =>
        rw [hord] at h
        injection h with h
        exact ⟨ord, dm, rfl, h.symm⟩

/-- Any successfully run agenda prefix satisfies the write-trace
invariant. -/
theorem runPrefix_writesInv (ctx : Ctx) (l : List Phase) (st : SchedState)
    (hnd : (ctx.roster.map (fun w => w.name)).Nodup)
    (hpre : l <+: fullAgenda ctx) (h : runPrefix ctx l = some st) :
    WritesInv st := by
  obtain ⟨ord, dm, hord, hst⟩ := runPrefix_factor ctx l st h
  rw [fullAgenda_eq] at hpre
  rw [hst]
  exact (agendaFrom_run ctx ord hnd l 0 slotsCount _ le_rfl hpre
    (initState_ginv ctx _ dm _)).1

/-- Between any two successfully run nested agenda prefixes, no
non-empty grid cell ever changes. -/
theorem prefix_gridMono (ctx : Ctx) (l₁ l₂ : List Phase) (st₁ st₂ : SchedState)
    (hnd : (ctx.roster.map (fun w => w.name)).Nodup)
    (hpre : (l₁ ++ l₂) <+: fullAgenda ctx)
    (h1 : runPrefix ctx l₁ = some st₁) (h2 : runPrefix ctx (l₁ ++ l₂) = some st₂) :
    GridMono st₁ st₂ := by
  obtain ⟨ord, dm, hord, hst⟩ := runPrefix_factor ctx l₁ st₁ h1
  rw [fullAgenda_eq] at hpre
  have hpre1 : l₁ <+: agendaFrom ctx 0 slotsCount :=
    List.IsPrefix.trans (List.prefix_append l₁ l₂) hpre
  have hrun1 := agendaFrom_run ctx ord hnd l₁ 0 slotsCount
    (initState ctx (buildAllTasks ctx.catalog ctx.quantities) dm
      (buildReqMap (buildAllTasks ctx.catalog ctx.quantities))) le_rfl hpre1
    (initState_ginv ctx _ dm _)
  obtain ⟨d2, tt2, htt2, hI2, hcont⟩ := hrun1.2.2
  have hpre2 : l₂ <+: agendaFrom ctx d2 tt2 := hcont l₂ hpre
  obtain ⟨ord2, hord2, heq⟩ := runPrefix_append ctx l₁ l₂ st₁ h1
  rw [hord] at hord2
  injection hord2 with hord2
  rw [heq] at h2
  injection h2 with h2
  rw [← h2, ← hord2]
  have hrun2 := agendaFrom_run ctx ord hnd l₂ d2 tt2 st₁ htt2 hpre2 (by rw [hst]; exact hI2)
  exact hrun2.2.1

/-! ### Assigned tasks are frozen (C10) -/

/-- One worker step never touches an already-assigned task record and
logs no contribution to it. -/
theorem workerStep_frozen (ctx : Ctx) (d tt : Nat) (st : SchedState) (w : String)
    (i : Nat) (t : TaskInstance) (hInv : TasksInv st)
    (ht : st.tasks[i]? = some t) (ha : t.assigned = true) :
    (workerStep ctx d tt st w).tasks[i]? = some t ∧
    ∃ Δ, (workerStep ctx d tt st w).log = st.log ++ Δ ∧ ∀ e ∈ Δ, e.taskIdx ≠ i := by
  unfold workerStep
  cases ctx.roster.find? (fun x => x.name == w) with
  | none =>
    exact ⟨ht, [], (List.append_nil _).symm, fun e he => absurd he (List.not_mem_nil e)⟩
  | some wd =>
    dsimp only
    cases hscan : scanPool st wd w (st.aggressive.contains w) with
    | none =>
      exact ⟨ht, [], (List.append_nil _).symm, fun e he => absurd he (List.not_mem_nil e)⟩
    | some bi =>
      dsimp only
      have hbi : bi ∈ st.pool := (scanPool_some_mem st wd w _ bi hscan).1
      have hne : bi ≠ i := by
        intro he
        subst he
        have := hInv.poolUn bi hbi t ht
        rw [ha] at this
        cases this
      unfold applyAssign
      cases htb : st.tasks[bi]? with
      | none =>
        exact ⟨ht, [], (List.append_nil _).symm, fun e he => absurd he (List.not_mem_nil e)⟩
      | some tb =>
        dsimp only
        refine ⟨?_, _, rfl, ?_⟩
        · rw [List.getElem?_set_ne hne]
          exact ht
        · intro e he
          rw [List.mem_singleton] at he
          subst he
          exact hne

/-- A worker fold never touches an already-assigned task record. -/
theorem foldl_workerStep_frozen (ctx : Ctx) (d tt : Nat) (i : Nat) (t : TaskInstance) :
    ∀ (ws : List String) (st : SchedState), TasksInv st →
    st.tasks[i]? = some t → t.assigned = true →
    (ws.foldl (fun s w => workerStep ctx d tt s w) st).tasks[i]? = some t ∧
    ∃ Δ, (ws.foldl (fun s w => workerStep ctx d tt s w) st).log = st.log ++ Δ ∧
      ∀ e ∈ Δ, e.taskIdx ≠ i := by
  intro ws
  induction ws with
  | nil =>
    intro st _ ht _
    exact ⟨ht, [], (List.append_nil _).symm, fun e he => absurd he (List.not_mem_nil e)⟩
  | cons w ws ih =>
    intro st hInv ht ha
    obtain ⟨ht1, Δ1, hlog1, hΔ1⟩ := workerStep_frozen ctx d tt st w i t hInv ht ha
    obtain ⟨ht2, Δ2, hlog2, hΔ2⟩ :=
      ih (workerStep ctx d tt st w) (workerStep_inv ctx d tt st w hInv) ht1 ha
    rw [List.foldl_cons]
    refine ⟨ht2, Δ1 ++ Δ2, ?_, ?_⟩
    · rw [hlog2, hlog1, List.append_assoc]
    · intro e he
      rcases List.mem_append.1 he with he | he
      · exact hΔ1 e he
      · exact hΔ2 e he

/-- A whole phase never touches an already-assigned task record. -/
theorem stepF_frozen (ctx : Ctx) (ord : List String) (st : SchedState) (p : Phase)
    (i : Nat) (t : TaskInstance) (hInv : TasksInv st)
    (ht : st.tasks[i]? = some t) (ha : t.assigned = true) :
    (stepF ctx ord st p).tasks[i]? = some t ∧
    ∃ Δ, (stepF ctx ord st p).log = st.log ++ Δ ∧ ∀ e ∈ Δ, e.taskIdx ≠ i := by
  cases p with
  | dayInit d =>
    exact ⟨ht, [], (List.append_nil _).symm, fun e he => absurd he (List.not_mem_nil e)⟩
  | slotStep d tt =>
    show (processSlot ctx d tt st).tasks[i]? = some t ∧
      ∃ Δ, (processSlot ctx d tt st).log = st.log ++ Δ ∧ ∀ e ∈ Δ, e.taskIdx ≠ i
    unfold processSlot
    dsimp only
    split
    · exact ⟨ht, [], (List.append_nil _).symm, fun e he => absurd he (List.not_mem_nil e)⟩
    · obtain ⟨ht1, Δ, hlog, hΔ⟩ := foldl_workerStep_frozen ctx d tt i t _ st hInv ht ha
      exact ⟨ht1, Δ, hlog, hΔ⟩

/-- A phase fold never touches an already-assigned task record. -/
theorem foldl_stepF_frozen (ctx : Ctx) (ord : List String) (hord : ord.Nodup)
    (i : Nat) (t : TaskInstance) :
    ∀ (l : List Phase) (st : SchedState), TasksInv st →
    st.tasks[i]? = some t → t.assigned = true →
    (l.foldl (stepF ctx ord) st).tasks[i]? = some t ∧
    ∃ Δ, (l.foldl (stepF ctx ord) st).log = st.log ++ Δ ∧ ∀ e ∈ Δ, e.taskIdx ≠ i := by
  intro l
  induction l with
  | nil =>
    intro st _ ht _
    exact ⟨ht, [], (List.append_nil _).symm, fun e he => absurd he (List.not_mem_nil e)⟩
  | cons p l ih =>
    intro st hInv ht ha
    obtain ⟨ht1, Δ1, hlog1, hΔ1⟩ := stepF_frozen ctx ord st p i t hInv ht ha
    obtain ⟨ht2, Δ2, hlog2, hΔ2⟩ :=
      ih (stepF ctx ord st p) (stepF_inv ctx ord st p hord hInv) ht1 ha
    rw [List.foldl_cons]
    refine ⟨ht2, Δ1 ++ Δ2, ?_, ?_⟩
    · rw [hlog2, hlog1, List.append_assoc]
    · intro e he
      rcases List.mem_append.1 he with he | he
      · exact hΔ1 e he
      · exact hΔ2 e he

/-! ### Recorded assignment day and slot (C9) -/

/-- The day and slot of the last logged contribution to task `i`. -/
def lastAssign (log : List LogEntry) (i : Nat) : Option (Nat × Nat) :=
  ((log.filter (fun e => e.taskIdx == i)).getLast?).map (fun e => (e.day, e.slot))

/-- The recorded day/slot of every task instance equal the day/slot of
its LAST logged contribution (`none` while it has none). -/
def LastAssignInv (st : SchedState) : Prop :=
  ∀ (i : Nat) (t : TaskInstance), st.tasks[i]? = some t →
    t.day_assigned = (lastAssign st.log i).map Prod.fst ∧
    t.slot_assigned = (lastAssign st.log i).map Prod.snd

/-- The assignment block overwrites the recorded day/slot, keeping the
last-contribution characterization. -/
theorem applyAssign_lastAssign (day slotIdx : Nat) (st : SchedState) (wname : String)
    (isAggr : Bool) (bi : Nat) (h : LastAssignInv st) :
    LastAssignInv (applyAssign day slotIdx st wname isAggr bi) := by
  unfold applyAssign
  cases htb : st.tasks[bi]? with
  | none => exact h
  | some tb =>
    dsimp only
    intro i t ht
    by_cases hib : i = bi
    · subst hib
      rw [getElem?_set_of_get st.tasks i _ tb htb] at ht
      injection ht with ht
      subst ht
      have hfil : (st.log ++ [(⟨day, slotIdx, i, wname,
            if isAggr = true then
              max 1 (min (pyInt ((tb.duration : ℚ) * ((getStat st wname).aggressiveness * 0.4)))
                (slotsCount - slotIdx))
            else min tb.duration (slotsCount - slotIdx)⟩ : LogEntry)]).filter
            (fun e => e.taskIdx == i) =
          st.log.filter (fun e => e.taskIdx == i) ++ [⟨day, slotIdx, i, wname,
            if isAggr = true then
              max 1 (min (pyInt ((tb.duration : ℚ) * ((getStat st wname).aggressiveness * 0.4)))
                (slotsCount - slotIdx))
            else min tb.duration (slotsCount - slotIdx)⟩] := by
        rw [List.filter_append, List.filter_cons, List.filter_nil,
          if_pos (beq_self_eq_true i)]
      show (updatedTask tb wname day slotIdx _).day_assigned = _ ∧
        (updatedTask tb wname day slotIdx _).slot_assigned = _
      rw [(updatedTask_day_slot tb wname day slotIdx _).1,
        (updatedTask_day_slot tb wname day slotIdx _).2]
      unfold lastAssign
      rw [hfil, List.getLast?_concat]
      exact ⟨rfl, rfl⟩
    · rw [List.getElem?_set_ne (fun hcon => hib hcon.symm)] at ht
      have hfil : (st.log ++ [(⟨day, slotIdx, bi, wname,
            if isAggr = true then
              max 1 (min (pyInt ((tb.duration : ℚ) * ((getStat st wname).aggressiveness * 0.4)))
                (slotsCount - slotIdx))
            else min tb.duration (slotsCount - slotIdx)⟩ : LogEntry)]).filter
            (fun e => e.taskIdx == i) = st.log.filter (fun e => e.taskIdx == i) := by
        rw [List.filter_append, List.filter_cons, List.filter_nil,
          if_neg (fun hcon => hib (beq_iff_eq.1 hcon).symm), List.append_nil]
      show t.day_assigned = (lastAssign (st.log ++ _) i).map Prod.fst ∧
        t.slot_assigned = (lastAssign (st.log ++ _) i).map Prod.snd
      unfold lastAssign
      rw [hfil]
      exact h i t ht

/-- A worker step keeps the last-contribution characterization. -/
theorem workerStep_lastAssign (ctx : Ctx) (d tt : Nat) (st : SchedState) (w : String)
    (h : LastAssignInv st) : LastAssignInv (workerStep ctx d tt st w) := by
  unfold workerStep
  cases ctx.roster.find? (fun x => x.name == w) with
  | none => exact h
  | some wd =>
    dsimp only
    cases scanPool st wd w (st.aggressive.contains w) with
    | none => exact h
    | some bi => exact applyAssign_lastAssign d tt st w (st.aggressive.contains w) bi h

/-- A whole phase keeps the last-contribution characterization. -/
theorem stepF_lastAssign (ctx : Ctx) (ord : List String) (st : SchedState) (p : Phase)
    (h : LastAssignInv st) : LastAssignInv (stepF ctx ord st p) := by
  cases p with
  | dayInit d => exact h
  | slotStep d tt =>
    show LastAssignInv (processSlot ctx d tt st)
    unfold processSlot
    dsimp only
    split
    · exact h
    · have key : ∀ (ws : List String) (st0 : SchedState), LastAssignInv st0 →
          LastAssignInv (ws.foldl (fun s w => workerStep ctx d tt s w) st0) := by
        intro ws
        induction ws with
        | nil => intro st0 h0; exact h0
        | cons w ws ih =>
          intro st0 h0
          rw [List.foldl_cons]
          exact ih _ (workerStep_lastAssign ctx d tt st0 w h0)
      exact key _ st h

/-! ### Eligibility bookkeeping: partials and completeds (C6) -/

theorem insertStr_self (l : List String) (s : String) : s ∈ insertStr l s := by
  unfold insertStr
  split
  · assumption
  · exact List.mem_cons_self s l

theorem mem_insertStr_of_mem (l : List String) (s a : String) (h : a ∈ l) :
    a ∈ insertStr l s := by
  unfold insertStr
  split
  · exact h
  · exact List.mem_cons_of_mem s h

theorem mem_insertStr (l : List String) (s a : String) (h : a ∈ insertStr l s) :
    a = s ∨ a ∈ l := by
  unfold insertStr at h
  split at h
  · exact Or.inr h
  · rcases List.mem_cons.1 h with h | h
    · exact Or.inl h
    · exact Or.inr h

theorem updatedTask_completed_of_true (t : TaskInstance) (w : String) (d s : Nat)
    (pct : ℚ) (h : decide ((100 : ℚ) ≤ t.progress_percentage + pct) = true) :
    (updatedTask t w d s pct).completed = true := by
  unfold updatedTask
  dsimp only
  rw [h]
  rfl

theorem updatedTask_completed_of_false (t : TaskInstance) (w : String) (d s : Nat)
    (pct : ℚ) (h : decide ((100 : ℚ) ≤ t.progress_percentage + pct) = false) :
    (updatedTask t w d s pct).completed = t.completed := by
  unfold updatedTask
  dsimp only
  rw [h]
  rfl

/-- The bookkeeping invariant behind the eligibility policies: every
task duration is positive, `partial_completions` holds exactly the
result ids with a started instance (positive progress), and
`completed_task_ids` holds exactly the result ids with a completed
instance. -/
structure DepStateInv (st : SchedState) : Prop where
  durPos : ∀ (i : Nat) (t : TaskInstance), st.tasks[i]? = some t → 1 ≤ t.duration
  partialsSound : ∀ r ∈ st.partials, ∃ (i : Nat) (ti : TaskInstance),
    st.tasks[i]? = some ti ∧ ti.task_id = r ∧ 0 < ti.progress_percentage
  partialsComplete : ∀ (i : Nat) (ti : TaskInstance), st.tasks[i]? = some ti →
    0 < ti.progress_percentage → ti.task_id ∈ st.partials
  completedsSound : ∀ r ∈ st.completeds, ∃ (i : Nat) (ti : TaskInstance),
    st.tasks[i]? = some ti ∧ ti.task_id = r ∧ ti.completed = true
  completedsComplete : ∀ (i : Nat) (ti : TaskInstance), st.tasks[i]? = some ti →
    ti.completed = true → ti.task_id ∈ st.completeds

/-- The assignment block preserves the bookkeeping invariant when the
slot index lies inside the day. -/
theorem applyAssign_depInv (day slotIdx : Nat) (st : SchedState) (wname : String)
    (isAggr : Bool) (bi : Nat) (hsl : slotIdx < slotsCount)
    (hInv : TasksInv st) (hD : DepStateInv st) :
    DepStateInv (applyAssign day slotIdx st wname isAggr bi) := by
  unfold applyAssign
  cases htb : st.tasks[bi]? with
  | none => exact hD
  | some tb =>
    dsimp only
    set dur : Nat := (if isAggr = true then
        max 1 (min (pyInt ((tb.duration : ℚ) * ((getStat st wname).aggressiveness * 0.4)))
          (slotsCount - slotIdx))
      else min tb.duration (slotsCount - slotIdx)) with hdurd
    set pct : ℚ := ((dur : ℚ) / (tb.duration : ℚ)) * 100 with hpctd
    have hdur1 : 1 ≤ tb.duration := hD.durPos bi tb htb
    have hdge1 : 1 ≤ dur := by
      rw [hdurd]
      split
      · exact le_max_left 1 _
      · omega
    have hpctpos : 0 < pct := by
      rw [hpctd]
      apply mul_pos
      · apply div_pos
        · exact_mod_cast hdge1
        · exact_mod_cast hdur1
      · norm_num
    have hpct0 : 0 ≤ pct := le_of_lt hpctpos
    have hset_at : (st.tasks.set bi (updatedTask tb wname day slotIdx pct))[bi]?
        = some (updatedTask tb wname day slotIdx pct) :=
      getElem?_set_of_get st.tasks bi _ tb htb
    have hset_ne : ∀ i, i ≠ bi →
        (st.tasks.set bi (updatedTask tb wname day slotIdx pct))[i]? = st.tasks[i]? :=
      fun i hi => List.getElem?_set_ne (fun hcon => hi hcon.symm)
    have transportP : ∀ r, (∃ (i : Nat) (ti : TaskInstance),
          st.tasks[i]? = some ti ∧ ti.task_id = r ∧ 0 < ti.progress_percentage) →
        ∃ (i : Nat) (ti : TaskInstance),
          (st.tasks.set bi (updatedTask tb wname day slotIdx pct))[i]? = some ti ∧
          ti.task_id = r ∧ 0 < ti.progress_percentage := by
      rintro r ⟨i, ti, hti, hid, hpr⟩
      by_cases hib : i = bi
      · subst hib
        rw [htb] at hti
        injection hti with hti
        subst hti
        refine ⟨i, updatedTask tb wname day slotIdx pct, hset_at, ?_, ?_⟩
        · rw [updatedTask_task_id]
          exact hid
        · rw [updatedTask_progress]
          linarith
      · exact ⟨i, ti, by rw [hset_ne i hib]; exact hti, hid, hpr⟩
    have transportC : ∀ r, (∃ (i : Nat) (ti : TaskInstance),
          st.tasks[i]? = some ti ∧ ti.task_id = r ∧ ti.completed = true) →
        ∃ (i : Nat) (ti : TaskInstance),
          (st.tasks.set bi (updatedTask tb wname day slotIdx pct))[i]? = some ti ∧
          ti.task_id = r ∧ ti.completed = true := by
      rintro r ⟨i, ti, hti, hid, hc⟩
      by_cases hib : i = bi
      · subst hib
        rw [htb] at hti
        injection hti with hti
        subst hti
        refine ⟨i, updatedTask tb wname day slotIdx pct, hset_at, ?_, ?_⟩
        · rw [updatedTask_task_id]
          exact hid
        · apply updatedTask_completed_of_true
          rw [decide_eq_true_iff]
          have h100 : (100 : ℚ) ≤ tb.progress_percentage := (hInv.complIff i tb htb).1 hc
          linarith
      · exact ⟨i, ti, by rw [hset_ne i hib]; exact hti, hid, hc⟩
    refine ⟨?_, ?_, ?_, ?_, ?_⟩
    · show ∀ (i : Nat) (t : TaskInstance),
        (st.tasks.set bi (updatedTask tb wname day slotIdx pct))[i]? = some t →
        1 ≤ t.duration
      intro i t ht
      by_cases hib : i = bi
      · subst hib
        rw [hset_at] at ht
        injection ht with ht
        subst ht
        rw [updatedTask_duration]
        exact hdur1
      · rw [hset_ne i hib] at ht
        exact hD.durPos i t ht
    · show ∀ r ∈ insertStr st.partials tb.task_id, ∃ (i : Nat) (ti : TaskInstance),
        (st.tasks.set bi (updatedTask tb wname day slotIdx pct))[i]? = some ti ∧
        ti.task_id = r ∧ 0 < ti.progress_percentage
      intro r hr
      rcases mem_insertStr st.partials tb.task_id r hr with hr | hr
      · subst hr
        refine ⟨bi, updatedTask tb wname day slotIdx pct, hset_at, ?_, ?_⟩
        · rw [updatedTask_task_id]
        · rw [updatedTask_progress]
          have := hInv.prNonneg bi tb htb
          linarith
      · exact transportP r (hD.partialsSound r hr)
    · show ∀ (i : Nat) (ti : TaskInstance),
        (st.tasks.set bi (updatedTask tb wname day slotIdx pct))[i]? = some ti →
        0 < ti.progress_percentage → ti.task_id ∈ insertStr st.partials tb.task_id
      intro i ti hti hpr
      by_cases hib : i = bi
      · subst hib
        rw [hset_at] at hti
        injection hti with hti
        subst hti
        rw [updatedTask_task_id]
        exact insertStr_self st.partials tb.task_id
      · rw [hset_ne i hib] at hti
        exact mem_insertStr_of_mem _ _ _ (hD.partialsComplete i ti hti hpr)
    · show ∀ r ∈ (if decide ((100 : ℚ) ≤ tb.progress_percentage + pct) = true then
          insertStr st.completeds tb.task_id else st.completeds),
        ∃ (i : Nat) (ti : TaskInstance),
          (st.tasks.set bi (updatedTask tb wname day slotIdx pct))[i]? = some ti ∧
          ti.task_id = r ∧ ti.completed = true
      intro r hr
      split at hr
      · rcases mem_insertStr st.completeds tb.task_id r hr with hr | hr
        · subst hr
          refine ⟨bi, updatedTask tb wname day slotIdx pct, hset_at, ?_, ?_⟩
          · rw [updatedTask_task_id]
          · exact updatedTask_completed_of_true tb wname day slotIdx pct (by assumption)
        · exact transportC r (hD.completedsSound r hr)
      · exact transportC r (hD.completedsSound r hr)
    · show ∀ (i : Nat) (ti : TaskInstance),
        (st.tasks.set bi (updatedTask tb wname day slotIdx pct))[i]? = some ti →
        ti.completed = true →
        ti.task_id ∈ (if decide ((100 : ℚ) ≤ tb.progress_percentage + pct) = true then
          insertStr st.completeds tb.task_id else st.completeds)
      intro i ti hti hc
      by_cases hib : i = bi
      · subst hib
        rw [hset_at] at hti
        injection hti with hti
        subst hti
        rw [updatedTask_task_id]
        cases hcn : decide ((100 : ℚ) ≤ tb.progress_percentage + pct) with
        | true =>
          rw [if_pos rfl]
          exact insertStr_self st.completeds tb.task_id
        | false =>
          exfalso
          rw [updatedTask_completed_of_false tb wname day slotIdx pct hcn] at hc
          have h100 : (100 : ℚ) ≤ tb.progress_percentage := (hInv.complIff i tb htb).1 hc
          rw [decide_eq_false_iff_not] at hcn
          exact hcn (by linarith)
      · rw [hset_ne i hib] at hti
        have hmem := hD.completedsComplete i ti hti hc
        split
        · exact mem_insertStr_of_mem _ _ _ hmem
        · exact hmem

/-- A worker step preserves the bookkeeping invariant when the slot
index lies inside the day. -/
theorem workerStep_depInv (ctx : Ctx) (d tt : Nat) (st : SchedState) (w : String)
    (hsl : tt < slotsCount) (hInv : TasksInv st) (hD : DepStateInv st) :
    DepStateInv (workerStep ctx d tt st w) := by
  unfold workerStep
  cases ctx.roster.find? (fun x => x.name == w) with
  | none => exact hD
  | some wd =>
    dsimp only
    cases scanPool st wd w (st.aggressive.contains w) with
    | none => exact hD
    | some bi => exact applyAssign_depInv d tt st w (st.aggressive.contains w) bi hsl hInv hD

/-- The pool refresh and the day start leave tasks, partials and
completeds untouched. -/
theorem refreshPool_depInv (st : SchedState) (h : DepStateInv st) :
    DepStateInv (refreshPool st) :=
  ⟨h.durPos, h.partialsSound, h.partialsComplete, h.completedsSound, h.completedsComplete⟩

theorem dayStartStep_depInv (ctx : Ctx) (ord : List String) (day : Nat)
    (st : SchedState) (h : DepStateInv st) : DepStateInv (dayStartStep ctx ord day st) :=
  ⟨h.durPos, h.partialsSound, h.partialsComplete, h.completedsSound, h.completedsComplete⟩

/-- A whole slot preserves the bookkeeping invariant when its index lies
inside the day. -/
theorem processSlot_depInv (ctx : Ctx) (d tt : Nat) (st : SchedState)
    (hsl : tt < slotsCount) (hInv : TasksInv st) (hD : DepStateInv st) :
    DepStateInv (processSlot ctx d tt st) := by
  unfold processSlot
  dsimp only
  split
  · exact hD
  · have key : ∀ (ws : List String) (st0 : SchedState), TasksInv st0 → DepStateInv st0 →
        DepStateInv (ws.foldl (fun s w => workerStep ctx d tt s w) st0) := by
      intro ws
      induction ws with
      | nil => intro st0 _ h0; exact h0
      | cons w ws ih =>
        intro st0 hI0 h0
        rw [List.foldl_cons]
        exact ih _ (workerStep_inv ctx d tt st0 w hI0)
          (workerStep_depInv ctx d tt st0 w hsl hI0 h0)
    exact refreshPool_depInv _ (key _ st hInv hD)

/-- Every slot phase of the full agenda stays inside the day. -/
def SlotsOk (l : List Phase) : Prop :=
  ∀ d tt, Phase.slotStep d tt ∈ l → tt < slotsCount

theorem fullAgenda_slotsOk (ctx : Ctx) : SlotsOk (fullAgenda ctx) := by
  intro d tt hmem
  unfold fullAgenda at hmem
  rw [List.mem_flatten] at hmem
  obtain ⟨blk, hblk, hmem⟩ := hmem
  rw [List.mem_map] at hblk
  obtain ⟨e, _, rfl⟩ := hblk
  rcases List.mem_cons.1 hmem with h | h
  · cases h
  · rw [List.mem_map] at h
    obtain ⟨s, hs, heq⟩ := h
    injection heq with h1 h2
    subst h2
    exact List.mem_range.1 hs

theorem slotsOk_sub (l l2 : List Phase) (h : l <+: l2) (h2 : SlotsOk l2) :
    SlotsOk l :=
  fun d tt hmem => h2 d tt (h.subset hmem)

/-- A phase fold over in-day phases preserves the bookkeeping
invariant. -/
theorem foldl_stepF_depInv (ctx : Ctx) (ord : List String) (hord : ord.Nodup) :
    ∀ (l : List Phase) (st : SchedState), SlotsOk l → TasksInv st → DepStateInv st →
    DepStateInv (l.foldl (stepF ctx ord) st) := by
  intro l
  induction l with
  | nil => intro st _ _ hD; exact hD
  | cons p l ih =>
    intro st hok hInv hD
    rw [List.foldl_cons]
    have hok' : SlotsOk l := fun d tt hmem => hok d tt (List.mem_cons_of_mem p hmem)
    refine ih _ hok' (stepF_inv ctx ord st p hord hInv) ?_
    cases p with
    | dayInit d => exact dayStartStep_depInv ctx ord d st hD
    | slotStep d tt =>
      exact processSlot_depInv ctx d tt st
        (hok d tt (List.mem_cons_self _ l)) hInv hD

/-- The initial state satisfies the bookkeeping invariant when every
catalog duration is positive. -/
theorem initState_depInv (ctx : Ctx) (dm : List (String × DepInfo))
    (rm : List (String × List String))
    (hdur : ∀ r ∈ ctx.catalog, 1 ≤ r.duration) :
    DepStateInv (initState ctx (buildAllTasks ctx.catalog ctx.quantities) dm rm) := by
  refine ⟨?_, ?_, ?_, ?_, ?_⟩
  · intro i t ht
    have htm : t ∈ buildAllTasks ctx.catalog ctx.quantities := List.getElem?_mem ht
    obtain ⟨r, hr, rfl⟩ := mem_buildAllTasks ctx.catalog ctx.quantities t htm
    exact hdur r hr
  · intro r hr
    exact absurd hr (List.not_mem_nil r)
  · intro i t ht hpr
    have htm : t ∈ buildAllTasks ctx.catalog ctx.quantities := List.getElem?_mem ht
    obtain ⟨r, hr, rfl⟩ := mem_buildAllTasks ctx.catalog ctx.quantities t htm
    norm_num [mkInstance] at hpr
  · intro r hr
    exact absurd hr (List.not_mem_nil r)
  · intro i t ht hc
    have htm : t ∈ buildAllTasks ctx.catalog ctx.quantities := List.getElem?_mem ht
    obtain ⟨r, hr, rfl⟩ := mem_buildAllTasks ctx.catalog ctx.quantities t htm
    cases hc

/-- Any state reached by a successful run of an agenda prefix satisfies
the bookkeeping invariant. -/
theorem runPrefix_depInv (ctx : Ctx) (l : List Phase) (st : SchedState)
    (hpre : l <+: fullAgenda ctx) (h : runPrefix ctx l = some st)
    (hdur : ∀ r ∈ ctx.catalog, 1 ≤ r.duration) : DepStateInv st := by
  obtain ⟨ord, dm, hord, hst⟩ := runPrefix_factor ctx l st h
  rw [hst]
  exact foldl_stepF_depInv ctx ord
    (processingOrder_nodup (buildAllTasks ctx.catalog ctx.quantities) ord hord) l _
    (slotsOk_sub l (fullAgenda ctx) hpre (fullAgenda_slotsOk ctx))
    (initState_inv ctx dm _) (initState_depInv ctx dm _ hdur)

/-- Any state reached by a successful partial run satisfies the
last-contribution characterization. -/
theorem runPrefix_lastAssign (ctx : Ctx) (l : List Phase) (st : SchedState)
    (h : runPrefix ctx l = some st) : LastAssignInv st := by
  obtain ⟨ord, dm, hord, hst⟩ := runPrefix_factor ctx l st h
  have hinit : LastAssignInv (initState ctx (buildAllTasks ctx.catalog ctx.quantities) dm
      (buildReqMap (buildAllTasks ctx.catalog ctx.quantities))) := by
    intro i t ht
    have htm : t ∈ buildAllTasks ctx.catalog ctx.quantities := List.getElem?_mem ht
    obtain ⟨r, _, rfl⟩ := mem_buildAllTasks ctx.catalog ctx.quantities t htm
    exact ⟨rfl, rfl⟩
  rw [hst]
  have key : ∀ (l2 : List Phase) (st0 : SchedState), LastAssignInv st0 →
      LastAssignInv (l2.foldl (stepF ctx ord) st0) := by
    intro l2
    induction l2 with
    | nil => intro st0 h0; exact h0
    | cons p l2 ih =>
      intro st0 h0
      rw [List.foldl_cons]
      exact ih _ (stepF_lastAssign ctx ord st0 p h0)
  exact key l _ hinit

/-! ### Topological-sort correctness (C3) -/

/-- The distinct task names. -/
def nameList (tasks : List TaskInstance) : List String :=
  (tasks.map (fun t => t.task_name)).dedup

/-- How many distinct task names are not yet visited. -/
def unvisitedCount (tasks : List TaskInstance) (vis : List String) : Nat :=
  ((nameList tasks).filter (fun n => !(vis.contains n))).length

/-- `a` occurs strictly before `b` in `l`. -/
def ListBefore (l : List String) (a b : String) : Prop :=
  ∃ l₁ l₂, l = l₁ ++ l₂ ∧ a ∈ l₁ ∧ b ∉ l₁ ∧ b ∈ l₂

theorem listBefore_append (l Δ : List String) (a b : String)
    (h : ListBefore l a b) : ListBefore (l ++ Δ) a b := by
  obtain ⟨l₁, l₂, rfl, h1, h2, h3⟩ := h
  exact ⟨l₁, l₂ ++ Δ, by rw [List.append_assoc], h1, h2, List.mem_append_left Δ h3⟩

/-- The invariant of the depth-first traversal state (visited, order):
the order has no duplicate, is contained in the visited set, holds only
real task names, and respects the sample-task dependencies. -/
def TopoInv (tasks : List TaskInstance) (st : List String × List String) : Prop :=
  st.2.Nodup ∧ (∀ n ∈ st.2, n ∈ st.1) ∧
  (∀ n ∈ st.2, ∃ t ∈ tasks, t.task_name = n) ∧
  (∀ n ∈ st.2, ∀ t, tasks.find? (fun x => x.task_name == n) = some t →
    ∀ r ∈ t.requirements, ∀ pn, producerName tasks r = some pn → ListBefore st.2 pn n)

/-- What one traversal step guarantees: the invariant again, a grown
visited set, an append-only order whose new entries were unvisited, and
no visited-but-unordered name beyond the old ones. -/
def TopoStep (tasks : List TaskInstance) (st st' : List String × List String) : Prop :=
  TopoInv tasks st' ∧ (∀ x ∈ st.1, x ∈ st'.1) ∧
  (∃ Δ, st'.2 = st.2 ++ Δ ∧ ∀ x ∈ Δ, x ∉ st.1) ∧
  (∀ x ∈ st'.1, x ∈ st.1 ∨ x ∈ st'.2)

theorem topoStep_trans (tasks : List TaskInstance)
    (st st2 st3 : List String × List String) (h12 : TopoStep tasks st st2)
    (h23 : TopoStep tasks st2 st3) : TopoStep tasks st st3 := by
  obtain ⟨hI2, hg2, ⟨Δ1, hΔ1, hd1⟩, hb2⟩ := h12
  obtain ⟨hI3, hg3, ⟨Δ2, hΔ2, hd2⟩, hb3⟩ := h23
  refine ⟨hI3, fun x hx => hg3 x (hg2 x hx), ⟨Δ1 ++ Δ2, ?_, ?_⟩, ?_⟩
  · rw [hΔ2, hΔ1, List.append_assoc]
  · intro x hx
    rcases List.mem_append.1 hx with hx | hx
    · exact hd1 x hx
    · exact fun hv => hd2 x hx (hg2 x hv)
  · intro x hx
    rcases hb3 x hx with hx | hx
    · rcases hb2 x hx with hx | hx
      · exact Or.inl hx
      · right
        rw [hΔ2]
        exact List.mem_append_left Δ2 hx
    · exact Or.inr hx

/-- Requirement lists are bounded by `maxReqLen`. -/
theorem le_maxReqLen (tasks : List TaskInstance) :
    ∀ t ∈ tasks, t.requirements.length ≤ maxReqLen tasks := by
  have key : ∀ (l : List TaskInstance) (a : Nat),
      a ≤ l.foldl (fun acc t => max acc t.requirements.length) a ∧
      ∀ t ∈ l, t.requirements.length ≤
        l.foldl (fun acc t => max acc t.requirements.length) a := by
    intro l
    induction l with
    | nil => exact fun a => ⟨le_refl a, fun t ht => absurd ht (List.not_mem_nil t)⟩
    | cons x l ih =>
      intro a
      rw [List.foldl_cons]
      refine ⟨le_trans (le_max_left a x.requirements.length) (ih _).1, ?_⟩
      intro t ht
      rcases List.mem_cons.1 ht with ht | ht
      · subst ht
        exact le_trans (le_max_right a t.requirements.length) (ih _).1
      · exact (ih _).2 t ht
  exact (key tasks 0).2

/-- Membership in the group-key list. -/
theorem mem_groupKeys (tasks : List TaskInstance) (n : String) :
    n ∈ groupKeys tasks ↔ ∃ t ∈ tasks, t.task_name = n := by
  have key : ∀ (l : List TaskInstance) (acc : List String),
      (n ∈ l.foldl (fun acc t => if t.task_name ∈ acc then acc else acc ++ [t.task_name])
          acc ↔ n ∈ acc ∨ ∃ t ∈ l, t.task_name = n) := by
    intro l
    induction l with
    | nil =>
      intro acc
      simp
    | cons x l ih =>
      intro acc
      rw [List.foldl_cons]
      by_cases hx : x.task_name ∈ acc
      · rw [if_pos hx, ih]
        constructor
        · rintro (h | ⟨t, ht, hn⟩)
          · exact Or.inl h
          · exact Or.inr ⟨t, List.mem_cons_of_mem x ht, hn⟩
        · rintro (h | ⟨t, ht, hn⟩)
          · exact Or.inl h
          · rcases List.mem_cons.1 ht with ht | ht
            · subst ht
              exact Or.inl (hn ▸ hx)
            · exact Or.inr ⟨t, ht, hn⟩
      · rw [if_neg hx, ih]
        constructor
        · rintro (h | ⟨t, ht, hn⟩)
          · rcases List.mem_append.1 h with h | h
            · exact Or.inl h
            · rw [List.mem_singleton] at h
              exact Or.inr ⟨x, List.mem_cons_self x l, h.symm⟩
          · exact Or.inr ⟨t, List.mem_cons_of_mem x ht, hn⟩
        · rintro (h | ⟨t, ht, hn⟩)
          · exact Or.inl (List.mem_append_left _ h)
          · rcases List.mem_cons.1 ht with ht | ht
            · subst ht
              exact Or.inl (List.mem_append_right _ (List.mem_singleton.2 hn.symm))
            · exact Or.inr ⟨t, ht, hn⟩
  unfold groupKeys
  rw [key tasks []]
  simp

/-- Filtering by a weaker predicate keeps at least as many elements. -/
theorem length_filter_mono {α : Type} (l : List α) (p q : α → Bool)
    (h : ∀ a ∈ l, q a = true → p a = true) :
    (l.filter q).length ≤ (l.filter p).length := by
  induction l with
  | nil => exact le_refl 0
  | cons a l ih =>
    have ih2 := ih (fun x hx => h x (List.mem_cons_of_mem a hx))
    rw [List.filter_cons, List.filter_cons]
    cases hq : q a with
    | false =>
      rw [if_neg (by simp)]
      cases hp : p a with
      | false =>
        rw [if_neg (by simp)]
        exact ih2
      | true =>
        rw [if_pos rfl]
        exact Nat.le_succ_of_le ih2
    | true =>
      rw [if_pos rfl, h a (List.mem_cons_self a l) hq, if_pos rfl]
      exact Nat.succ_le_succ ih2

/-- Filtering a duplicate-free list by a strictly weaker predicate (one
witness lost) drops at least one element. -/
theorem length_filter_strict {α : Type} (l : List α) (p q : α → Bool) (a : α)
    (hl : a ∈ l) (hnd : l.Nodup) (h : ∀ x ∈ l, q x = true → p x = true)
    (hqa : q a = false) (hpa : p a = true) :
    (l.filter q).length + 1 ≤ (l.filter p).length := by
  induction l with
  | nil => exact absurd hl (List.not_mem_nil a)
  | cons b l ih =>
    rw [List.filter_cons, List.filter_cons]
    have hnd2 := List.nodup_cons.1 hnd
    rcases List.mem_cons.1 hl with hb | hb
    · subst hb
      rw [hqa, if_neg (by simp), hpa, if_pos rfl]
      exact Nat.succ_le_succ
        (length_filter_mono l p q (fun x hx => h x (List.mem_cons_of_mem a hx)))
    · have ih2 := ih hb hnd2.2 (fun x hx => h x (List.mem_cons_of_mem b hx))
      cases hq : q b with
      | false =>
        rw [if_neg (by simp)]
        cases hp : p b with
        | false =>
          rw [if_neg (by simp)]
          exact ih2
        | true =>
          rw [if_pos rfl]
          exact Nat.le_succ_of_le ih2
      | true =>
        rw [if_pos rfl, h b (List.mem_cons_self b l) hq, if_pos rfl]
        exact Nat.succ_le_succ ih2

/-- The unvisited count never grows as the visited set grows. -/
theorem unvisitedCount_mono (tasks : List TaskInstance) (vis vis2 : List String)
    (h : ∀ x ∈ vis, x ∈ vis2) :
    unvisitedCount tasks vis2 ≤ unvisitedCount tasks vis := by
  unfold unvisitedCount
  apply length_filter_mono
  intro n _ hn
  have hn2 : n ∉ vis2 := by
    intro hm
    rw [(contains_iff_mem vis2 n).2 hm] at hn
    cases hn
  have hn1 : n ∉ vis := fun hm => hn2 (h n hm)
  cases hc : vis.contains n with
  | false => rfl
  | true => exact absurd ((contains_iff_mem vis n).1 hc) hn1

/-- Visiting a fresh real task name strictly decreases the unvisited
count. -/
theorem unvisitedCount_cons (tasks : List TaskInstance) (vis : List String)
    (name : String) (hn : ∃ t ∈ tasks, t.task_name = name) (hv : name ∉ vis) :
    unvisitedCount tasks (name :: vis) + 1 ≤ unvisitedCount tasks vis := by
  unfold unvisitedCount
  have hmem : name ∈ nameList tasks := by
    unfold nameList
    rw [List.mem_dedup, List.mem_map]
    obtain ⟨t, ht, hname⟩ := hn
    exact ⟨t, ht, hname⟩
  refine length_filter_strict (nameList tasks) _ _ name hmem (List.nodup_dedup _)
    ?_ ?_ ?_
  · intro x _ hx
    have hx2 : x ∉ name :: vis := by
      intro hm
      rw [(contains_iff_mem _ x).2 hm] at hx
      cases hx
    have hx1 : x ∉ vis := fun hm => hx2 (List.mem_cons_of_mem name hm)
    cases hc : vis.contains x with
    | false => rfl
    | true => exact absurd ((contains_iff_mem vis x).1 hc) hx1
  · rw [(contains_iff_mem _ name).2 (List.mem_cons_self name vis)]
    rfl
  · cases hc : vis.contains name with
    | false => rfl
    | true => exact absurd ((contains_iff_mem vis name).1 hc) hv

/-- The name pool is no larger than the task list. -/
theorem nameList_length_le (tasks : List TaskInstance) :
    (nameList tasks).length ≤ tasks.length := by
  calc (nameList tasks).length ≤ (tasks.map (fun t => t.task_name)).length :=
        (List.dedup_sublist _).length_le
    _ = tasks.length := List.length_map _ _

theorem unvisitedCount_le (tasks : List TaskInstance) (vis : List String) :
    unvisitedCount tasks vis ≤ tasks.length :=
  le_trans (List.length_filter_le _ _) (nameList_length_le tasks)

theorem topoVisit_succ (tasks : List TaskInstance) (f : Nat) (name : String)
    (st : List String × List String) :
    topoVisit tasks (f + 1) name st =
      if name ∈ st.1 then some st
      else match tasks.find? (fun t => t.task_name == name) with
        | none => none
        | some t =>
          match topoReqs tasks f t.requirements (name :: st.1, st.2) with
          | none => none
          | some st2 => some (st2.1, st2.2 ++ [name]) := rfl

theorem topoReqs_nil (tasks : List TaskInstance) (f : Nat)
    (st : List String × List String) : topoReqs tasks (f + 1) [] st = some st := rfl

theorem topoReqs_cons (tasks : List TaskInstance) (f : Nat) (r : String)
    (rs : List String) (st : List String × List String) :
    topoReqs tasks (f + 1) (r :: rs) st =
      match producerName tasks r with
      | none => none
      | some pn =>
        match topoVisit tasks f pn st with
        | none => none
        | some st2 => topoReqs tasks f rs st2 := rfl

/-- The combined totality-and-correctness specification of the
depth-first traversal, by induction on fuel: under producer closure and
a rank function witnessing acyclicity, a visit from an invariant state
with enough fuel succeeds, preserves the invariant, appends the visited
name, and the requirement loop puts every producer into the order. -/
theorem topo_spec (tasks : List TaskInstance) (rank : String → Nat)
    (hclosed : ∀ t ∈ tasks, ∀ r ∈ t.requirements, ∃ p ∈ tasks, p.task_id = r)
    (hrank : ∀ t ∈ tasks, ∀ r ∈ t.requirements, ∀ p ∈ tasks, p.task_id = r →
      rank p.task_name < rank t.task_name) :
    ∀ f : Nat,
    (∀ (name : String) (st : List String × List String),
      (∃ t ∈ tasks, t.task_name = name) → TopoInv tasks st →
      (∀ g ∈ st.1, g ∉ st.2 → rank name < rank g) →
      unvisitedCount tasks st.1 * (maxReqLen tasks + 2) + 1 ≤ f →
      ∃ st', topoVisit tasks f name st = some st' ∧ TopoStep tasks st st' ∧
        name ∈ st'.2) ∧
    (∀ (rs : List String) (st : List String × List String) (b : Nat),
      (∀ r ∈ rs, ∃ p ∈ tasks, p.task_id = r) →
      (∀ r ∈ rs, ∀ pn, producerName tasks r = some pn → rank pn < b) →
      TopoInv tasks st →
      (∀ g ∈ st.1, g ∉ st.2 → b ≤ rank g) →
      unvisitedCount tasks st.1 * (maxReqLen tasks + 2) + rs.length + 1 ≤ f →
      ∃ st', topoReqs tasks f rs st = some st' ∧ TopoStep tasks st st' ∧
        ∀ r ∈ rs, ∀ pn, producerName tasks r = some pn → pn ∈ st'.2) := by
  intro f
  induction f with
  | zero =>
    constructor
    · intro name st _ _ _ hf
      omega
    · intro rs st b _ _ _ _ hf
      omega
  | succ f ih =>
    obtain ⟨ihV, ihR⟩ := ih
    constructor
    · intro name st hname hI hgray hf
      by_cases hvis : name ∈ st.1
      · refine ⟨st, ?_, ?_, ?_⟩
        · rw [topoVisit_succ, if_pos hvis]
        · exact ⟨hI, fun x hx => hx, ⟨[], (List.append_nil _).symm,
            fun x hx => absurd hx (List.not_mem_nil x)⟩, fun x hx => Or.inl hx⟩
        · by_contra hout
          exact lt_irrefl (rank name) (hgray name hvis hout)
      · cases htf : tasks.find? (fun x => x.task_name == name) with
        | none =>
          exfalso
          obtain ⟨t, ht, htn⟩ := hname
          have hnone := List.find?_eq_none.1 htf t ht
          rw [htn] at hnone
          exact hnone (beq_self_eq_true name)
        | some t =>
          have htmem : t ∈ tasks := List.mem_of_find?_eq_some htf
          have hbeq := List.find?_some htf
          have htn : t.task_name = name := beq_iff_eq.1 hbeq
          have hu := unvisitedCount_cons tasks st.1 name hname hvis
          have hcl : ∀ r ∈ t.requirements, ∃ p ∈ tasks, p.task_id = r := hclosed t htmem
          have hrb : ∀ r ∈ t.requirements, ∀ pn, producerName tasks r = some pn →
              rank pn < rank name := by
            intro r hr pn hpn
            unfold producerName at hpn
            rw [Option.map_eq_some'] at hpn
            obtain ⟨p, hfp, hpn⟩ := hpn
            have hpmem : p ∈ tasks := List.mem_of_find?_eq_some hfp
            have hpbeq := List.find?_some hfp
            have hpid : p.task_id = r := beq_iff_eq.1 hpbeq
            rw [← hpn, ← htn]
            exact hrank t htmem r hr p hpmem hpid
          have hI2 : TopoInv tasks (name :: st.1, st.2) := by
            obtain ⟨h1, h2, h3, h4⟩ := hI
            exact ⟨h1, fun n hn => List.mem_cons_of_mem name (h2 n hn), h3, h4⟩
          have hgray2 : ∀ g ∈ (name :: st.1, st.2).1, g ∉ (name :: st.1, st.2).2 →
              rank name ≤ rank g := by
            intro g hg hgo
            rcases List.mem_cons.1 hg with hg | hg
            · subst hg
              exact le_refl _
            · exact le_of_lt (hgray g hg hgo)
          have hreqbound : t.requirements.length ≤ maxReqLen tasks :=
            le_maxReqLen tasks t htmem
          have hfuel2 : unvisitedCount tasks (name :: st.1) * (maxReqLen tasks + 2) +
              t.requirements.length + 1 ≤ f := by
            calc unvisitedCount tasks (name :: st.1) * (maxReqLen tasks + 2) +
                  t.requirements.length + 1
                ≤ unvisitedCount tasks (name :: st.1) * (maxReqLen tasks + 2) +
                  (maxReqLen tasks + 2) := by omega
              _ = (unvisitedCount tasks (name :: st.1) + 1) * (maxReqLen tasks + 2) := by
                  ring
              _ ≤ unvisitedCount tasks st.1 * (maxReqLen tasks + 2) :=
                  Nat.mul_le_mul_right _ hu
              _ ≤ f := by omega
          obtain ⟨st2, hrun2, hstep2, hprod2⟩ := ihR t.requirements (name :: st.1, st.2)
            (rank name) hcl hrb hI2 hgray2 hfuel2
          have hnameout : name ∉ st2.2 := by
            obtain ⟨Δ, hΔ, hd⟩ := hstep2.2.2.1
            rw [hΔ]
            intro hmem
            rcases List.mem_append.1 hmem with hmem | hmem
            · exact hvis (hI.2.1 name hmem)
            · exact hd name hmem (List.mem_cons_self name st.1)
          refine ⟨(st2.1, st2.2 ++ [name]), ?_, ?_, ?_⟩
          · rw [topoVisit_succ, if_neg hvis, htf]
            dsimp only
            rw [hrun2]
          · obtain ⟨hI3, hg3, ⟨Δ, hΔ, hd⟩, hb3⟩ := hstep2
            refine ⟨?_, ?_, ?_, ?_⟩
            · obtain ⟨k1, k2, k3, k4⟩ := hI3
              refine ⟨?_, ?_, ?_, ?_⟩
              · rw [List.nodup_append]
                refine ⟨k1, List.nodup_singleton name, ?_⟩
                intro x hx hx2
                rw [List.mem_singleton] at hx2
                subst hx2
                exact hnameout hx
              · intro n hn
                rcases List.mem_append.1 hn with hn | hn
                · exact k2 n hn
                · rw [List.mem_singleton] at hn
                  subst hn
                  exact hg3 n (List.mem_cons_self n st.1)
              · intro n hn
                rcases List.mem_append.1 hn with hn | hn
                · exact k3 n hn
                · rw [List.mem_singleton] at hn
                  subst hn
                  exact ⟨t, htmem, htn⟩
              · intro n hn t2 htf2 r hr pn hpn
                rcases List.mem_append.1 hn with hn | hn
                · exact listBefore_append st2.2 [name] pn n (k4 n hn t2 htf2 r hr pn hpn)
                · rw [List.mem_singleton] at hn
                  subst hn
                  rw [htf] at htf2
                  injection htf2 with htf2
                  subst htf2
                  exact ⟨st2.2, [n], rfl, hprod2 r hr pn hpn, hnameout,
                    List.mem_singleton.2 rfl⟩
            · intro x hx
              exact hg3 x (List.mem_cons_of_mem name hx)
            · refine ⟨Δ ++ [name], ?_, ?_⟩
              · rw [hΔ, List.append_assoc]
              · intro x hx
                rcases List.mem_append.1 hx with hx | hx
                · exact fun hv => hd x hx (List.mem_cons_of_mem name hv)
                · rw [List.mem_singleton] at hx
                  subst hx
                  exact hvis
            · intro x hx
              rcases hb3 x hx with hx | hx
              · rcases List.mem_cons.1 hx with hx | hx
                · subst hx
                  exact Or.inr (List.mem_append_right _ (List.mem_singleton.2 rfl))
                · exact Or.inl hx
              · exact Or.inr (List.mem_append_left _ hx)
          · exact List.mem_append_right _ (List.mem_singleton.2 rfl)
    · intro rs st b hcl hrb hI hgray hf
      cases rs with
      | nil =>
        refine ⟨st, topoReqs_nil tasks f st, ?_, ?_⟩
        · exact ⟨hI, fun x hx => hx, ⟨[], (List.append_nil _).symm,
            fun x hx => absurd hx (List.not_mem_nil x)⟩, fun x hx => Or.inl hx⟩
        · intro r hr
          exact absurd hr (List.not_mem_nil r)
      | cons r rs =>
        obtain ⟨p0, hp0mem, hp0id⟩ := hcl r (List.mem_cons_self r rs)
        cases hfp : tasks.find? (fun x => x.task_id == r) with
        | none =>
          exfalso
          have hnone := List.find?_eq_none.1 hfp p0 hp0mem
          rw [hp0id] at hnone
          exact hnone (beq_self_eq_true r)
        | some p =>
          have hpn : producerName tasks r = some p.task_name := by
            unfold producerName
            rw [hfp]
            rfl
          have hptask : ∃ t ∈ tasks, t.task_name = p.task_name :=
            ⟨p, List.mem_of_find?_eq_some hfp, rfl⟩
          have hgrayV : ∀ g ∈ st.1, g ∉ st.2 → rank p.task_name < rank g := by
            intro g hg hgo
            exact lt_of_lt_of_le (hrb r (List.mem_cons_self r rs) p.task_name hpn)
              (hgray g hg hgo)
          have hfV : unvisitedCount tasks st.1 * (maxReqLen tasks + 2) + 1 ≤ f := by
            simp only [List.length_cons] at hf
            omega
          obtain ⟨st2, hrun2, hstep2, hmem2⟩ := ihV p.task_name st hptask hI hgrayV hfV
          have hgray2 : ∀ g ∈ st2.1, g ∉ st2.2 → b ≤ rank g := by
            intro g hg hgo
            rcases hstep2.2.2.2 g hg with hg1 | hg1
            · refine hgray g hg1 ?_
              obtain ⟨Δ, hΔ, _⟩ := hstep2.2.2.1
              intro hmem
              exact hgo (by rw [hΔ]; exact List.mem_append_left Δ hmem)
            · exact absurd hg1 hgo
          have hf2 : unvisitedCount tasks st2.1 * (maxReqLen tasks + 2) +
              rs.length + 1 ≤ f := by
            have hmul : unvisitedCount tasks st2.1 * (maxReqLen tasks + 2) ≤
                unvisitedCount tasks st.1 * (maxReqLen tasks + 2) :=
              Nat.mul_le_mul_right _ (unvisitedCount_mono tasks st.1 st2.1 hstep2.2.1)
            simp only [List.length_cons] at hf
            omega
          obtain ⟨st3, hrun3, hstep3, hprod3⟩ := ihR rs st2 b
            (fun r2 hr2 => hcl r2 (List.mem_cons_of_mem r hr2))
            (fun r2 hr2 => hrb r2 (List.mem_cons_of_mem r hr2)) hstep2.1 hgray2 hf2
          refine ⟨st3, ?_, topoStep_trans tasks st st2 st3 hstep2 hstep3, ?_⟩
          · rw [topoReqs_cons, hpn]
            dsimp only
            rw [hrun2]
            dsimp only
            exact hrun3
          · intro r2 hr2 pn2 hpn2
            rcases List.mem_cons.1 hr2 with hr2 | hr2
            · subst hr2
              rw [hpn] at hpn2
              injection hpn2 with hpn2
              subst hpn2
              obtain ⟨Δ, hΔ, _⟩ := hstep3.2.2.1
              rw [hΔ]
              exact List.mem_append_left Δ hmem2
            · exact hprod3 r2 hr2 pn2 hpn2

/-- Folding the traversal over a list of real task names from an
all-output state succeeds and outputs every name. -/
theorem topo_driver (tasks : List TaskInstance) (rank : String → Nat)
    (hclosed : ∀ t ∈ tasks, ∀ r ∈ t.requirements, ∃ p ∈ tasks, p.task_id = r)
    (hrank : ∀ t ∈ tasks, ∀ r ∈ t.requirements, ∀ p ∈ tasks, p.task_id = r →
      rank p.task_name < rank t.task_name) :
    ∀ (names : List String) (st : List String × List String),
    (∀ n ∈ names, ∃ t ∈ tasks, t.task_name = n) →
    TopoInv tasks st → (∀ x ∈ st.1, x ∈ st.2) →
    ∃ st', names.foldlM (fun s name => topoVisit tasks (topoFuel tasks) name s) st
        = some st' ∧
      TopoInv tasks st' ∧ (∀ x ∈ st'.1, x ∈ st'.2) ∧ (∀ n ∈ names, n ∈ st'.2) ∧
      (∃ Δ, st'.2 = st.2 ++ Δ) := by
  intro names
  induction names with
  | nil =>
    intro st hn hI hge
    exact ⟨st, rfl, hI, hge, fun n hn2 => absurd hn2 (List.not_mem_nil n),
      [], (List.append_nil _).symm⟩
  | cons name names ihd =>
    intro st hn hI hge
    have hfV : unvisitedCount tasks st.1 * (maxReqLen tasks + 2) + 1 ≤ topoFuel tasks := by
      have h1 : unvisitedCount tasks st.1 ≤ tasks.length := unvisitedCount_le tasks st.1
      have h2 := Nat.mul_le_mul_right (maxReqLen tasks + 2) h1
      have h3 : (tasks.length + 1) * (maxReqLen tasks + 2) =
          tasks.length * (maxReqLen tasks + 2) + (maxReqLen tasks + 2) := by ring
      unfold topoFuel
      omega
    have hgray : ∀ g ∈ st.1, g ∉ st.2 → rank name < rank g := by
      intro g hg hgo
      exact absurd (hge g hg) hgo
    obtain ⟨st2, hrun2, hstep2, hmem2⟩ := (topo_spec tasks rank hclosed hrank
      (topoFuel tasks)).1 name st (hn name (List.mem_cons_self name names)) hI hgray hfV
    have hge2 : ∀ x ∈ st2.1, x ∈ st2.2 := by
      intro x hx
      rcases hstep2.2.2.2 x hx with hx1 | hx1
      · obtain ⟨Δ, hΔ, _⟩ := hstep2.2.2.1
        rw [hΔ]
        exact List.mem_append_left Δ (hge x hx1)
      · exact hx1
    obtain ⟨st3, hrun3, hI3, hge3, hmem3, Δ2, hΔ2⟩ := ihd st2
      (fun n hn2 => hn n (List.mem_cons_of_mem name hn2)) hstep2.1 hge2
    refine ⟨st3, ?_, hI3, hge3, ?_, ?_⟩
    · rw [List.foldlM_cons, hrun2]
      exact hrun3
    · intro n hn2
      rcases List.mem_cons.1 hn2 with hn2 | hn2
      · subst hn2
        rw [hΔ2]
        exact List.mem_append_left Δ2 hmem2
      · exact hmem3 n hn2
    · obtain ⟨Δ1, hΔ1, _⟩ := hstep2.2.2.1
      exact ⟨Δ1 ++ Δ2, by rw [hΔ2, hΔ1, List.append_assoc]⟩

/-- C3: when every requirement result id is produced by some task of the
request and a rank function certifies the task-name dependency graph
acyclic, the dependency resolver succeeds; its output lists each
distinct task name exactly once (it is duplicate-free and holds exactly
the group keys), and the task name producing each prerequisite of a
listed name stands strictly before that name. -/
theorem dependency_resolver_correct (tasks : List TaskInstance) (rank : String → Nat)
    (hclosed : ∀ t ∈ tasks, ∀ r ∈ t.requirements, ∃ p ∈ tasks, p.task_id = r)
    (hrank : ∀ t ∈ tasks, ∀ r ∈ t.requirements, ∀ p ∈ tasks, p.task_id = r →
      rank p.task_name < rank t.task_name) :
    ∃ ord, processingOrder tasks = some ord ∧ ord.Nodup ∧
      (∀ n, n ∈ ord ↔ n ∈ groupKeys tasks) ∧
      (∀ n ∈ ord, ∀ t, tasks.find? (fun x => x.task_name == n) = some t →
        ∀ r ∈ t.requirements, ∀ pn, producerName tasks r = some pn →
          ListBefore ord pn n) := by
  obtain ⟨st2, hrun, hI2, hge2, hmem2, hΔ2⟩ := topo_driver tasks rank hclosed hrank
    (groupKeys tasks) ([], [])
    (fun n hn => (mem_groupKeys tasks n).1 hn)
    ⟨List.nodup_nil, fun n hn => absurd hn (List.not_mem_nil n),
     fun n hn => absurd hn (List.not_mem_nil n),
     fun n hn => absurd hn (List.not_mem_nil n)⟩
    (fun x hx => absurd hx (List.not_mem_nil x))
  refine ⟨st2.2, ?_, hI2.1, ?_, ?_⟩
  · unfold processingOrder
    rw [hrun]
    rfl
  · intro n
    constructor
    · intro hn
      exact (mem_groupKeys tasks n).2 (hI2.2.2.1 n hn)
    · intro hn
      exact hmem2 n hn
  · exact fun n hn t htf r hr pn hpn => hI2.2.2.2 n hn t htf r hr pn hpn

/-! ### Unknown requirements abort the run (C4) -/

/-- Mapping a key-preserving function over an association list preserves
key presence. -/
theorem map_any_keys (m : List (String × DepInfo))
    (f : String × DepInfo → String × DepInfo) (hf : ∀ p, (f p).1 = p.1) (k : String) :
    (m.map f).any (fun p => p.1 == k) = m.any (fun p => p.1 == k) := by
  induction m with
  | nil => rfl
  | cons a m ihm =>
    rw [List.map_cons, List.any_cons, List.any_cons, ihm, hf a]

/-- A successful `required_for` push preserves key presence. -/
theorem pushRequiredFor_keys (m : List (String × DepInfo)) (req dep k : String)
    (m2 : List (String × DepInfo)) (h : pushRequiredFor m req dep = some m2) :
    m2.any (fun p => p.1 == k) = m.any (fun p => p.1 == k) := by
  unfold pushRequiredFor at h
  split at h
  · injection h with h
    subst h
    apply map_any_keys
    intro p
    split
    · rfl
    · rfl
  · cases h

/-- A `required_for` push on a missing key fails. -/
theorem pushRequiredFor_miss (m : List (String × DepInfo)) (req dep : String)
    (h : m.any (fun p => p.1 == req) = false) :
    pushRequiredFor m req dep = none := by
  unfold pushRequiredFor
  rw [h]
  rfl

/-- The requirement loop of one task preserves key presence when it
succeeds. -/
theorem reqFold_keys (dep : String) :
    ∀ (rs : List String) (m m2 : List (String × DepInfo)),
    rs.foldlM (fun m2 r => pushRequiredFor m2 r dep) m = some m2 →
    ∀ k, m2.any (fun p => p.1 == k) = m.any (fun p => p.1 == k) := by
  intro rs
  induction rs with
  | nil =>
    intro m m2 h k
    injection h with h
    rw [h]
  | cons r rs ih =>
    intro m m2 h k
    rw [List.foldlM_cons] at h
    cases hp : pushRequiredFor m r dep with
    | none =>
      rw [hp] at h
      cases h
    | some m1 =>
      rw [hp] at h
      rw [ih m1 m2 h k, pushRequiredFor_keys m r dep k m1 hp]

/-- The requirement loop of one task fails as soon as some listed
requirement has no entry. -/
theorem reqFold_miss (dep : String) :
    ∀ (rs : List String) (m : List (String × DepInfo)),
    (∃ r ∈ rs, m.any (fun p => p.1 == r) = false) →
    rs.foldlM (fun m2 r => pushRequiredFor m2 r dep) m = none := by
  intro rs
  induction rs with
  | nil =>
    rintro m ⟨r, hr, _⟩
    exact absurd hr (List.not_mem_nil r)
  | cons r0 rs ih =>
    rintro m ⟨r, hr, hmiss⟩
    rw [List.foldlM_cons]
    cases hp : pushRequiredFor m r0 dep with
    | none => rfl
    | some m1 =>
      show rs.foldlM (fun m2 r => pushRequiredFor m2 r dep) m1 = none
      apply ih
      rcases List.mem_cons.1 hr with hr | hr
      · subst hr
        exfalso
        unfold pushRequiredFor at hp
        rw [hmiss] at hp
        cases hp
      · exact ⟨r, hr, by rw [pushRequiredFor_keys m r0 dep r m1 hp]; exact hmiss⟩

/-- Keys present after the `task_progress` initialization are exactly
the result ids of the request. -/
theorem depBase_hasKey (tasks : List TaskInstance) (k : String) :
    (depBase tasks).any (fun p => p.1 == k) = true ↔ ∃ p ∈ tasks, p.task_id = k := by
  have key : ∀ (l : List TaskInstance) (m : List (String × DepInfo)),
      ((l.foldl (fun m t => setAssocDep m t.task_id ⟨[], false, false, false⟩) m).any
          (fun p => p.1 == k) = true ↔
        m.any (fun p => p.1 == k) = true ∨ ∃ p ∈ l, p.task_id = k) := by
    intro l
    induction l with
    | nil =>
      intro m
      simp
    | cons t l ih =>
      intro m
      rw [List.foldl_cons, ih]
      have hset : (setAssocDep m t.task_id ⟨[], false, false, false⟩).any
          (fun p => p.1 == k) = true ↔
          (m.any (fun p => p.1 == k) = true ∨ t.task_id = k) := by
        unfold setAssocDep
        split
        · rw [map_any_keys m _ (fun p => by
            split
            · exact (beq_iff_eq.1 (by assumption)).symm
            · rfl) k]
          constructor
          · exact Or.inl
          · rintro (h | h)
            · exact h
            · subst h
              assumption
        · rw [List.any_append]
          constructor
          · intro h
            rcases Bool.or_eq_true_iff.1 h with h | h
            · exact Or.inl h
            · right
              rw [List.any_cons, List.any_nil, Bool.or_false] at h
              exact beq_iff_eq.1 h
          · rintro (h | h)
            · rw [h]
              rfl
            · apply Bool.or_eq_true_iff.2
              right
              rw [List.any_cons, List.any_nil, Bool.or_false]
              exact beq_iff_eq.2 h
      constructor
      · rintro (h | h)
        · rcases hset.1 h with h | h
          · exact Or.inl h
          · exact Or.inr ⟨t, List.mem_cons_self t l, h⟩
        · obtain ⟨p, hp, hpk⟩ := h
          exact Or.inr ⟨p, List.mem_cons_of_mem t hp, hpk⟩
      · rintro (h | h)
        · exact Or.inl (hset.2 (Or.inl h))
        · obtain ⟨p, hp, hpk⟩ := h
          rcases List.mem_cons.1 hp with hp | hp
          · subst hp
            exact Or.inl (hset.2 (Or.inr hpk))
          · exact Or.inr ⟨p, hp, hpk⟩
  unfold depBase
  rw [key tasks []]
  simp

/-- A requirement that is no task's result id makes the dependency build
fail (the KeyError at line 177). -/
theorem buildDepMap_none (tasks : List TaskInstance) (t : TaskInstance)
    (ht : t ∈ tasks) (r : String) (hr : r ∈ t.requirements)
    (hnk : ∀ p ∈ tasks, p.task_id ≠ r) :
    buildDepMap tasks = none := by
  unfold buildDepMap
  have hmiss : ∀ (m : List (String × DepInfo)),
      (∀ k, m.any (fun p => p.1 == k) = (depBase tasks).any (fun p => p.1 == k)) →
      m.any (fun p => p.1 == r) = false := by
    intro m hkeys
    rw [hkeys r]
    cases hb : (depBase tasks).any (fun p => p.1 == r) with
    | false => rfl
    | true =>
      obtain ⟨p, hp, hpk⟩ := (depBase_hasKey tasks r).1 hb
      exact absurd hpk (hnk p hp)
  have key : ∀ (l : List TaskInstance) (m : List (String × DepInfo)),
      (∀ k, m.any (fun p => p.1 == k) = (depBase tasks).any (fun p => p.1 == k)) →
      (∃ t2 ∈ l, ∃ r2 ∈ t2.requirements, m.any (fun p => p.1 == r2) = false) →
      l.foldlM (fun m t =>
        t.requirements.foldlM (fun m2 r => pushRequiredFor m2 r t.task_id) m) m = none := by
    intro l
    induction l with
    | nil =>
      rintro m _ ⟨t2, ht2, _⟩
      exact absurd ht2 (List.not_mem_nil t2)
    | cons t0 l ih =>
      rintro m hkeys ⟨t2, ht2, r2, hr2, hmiss2⟩
      rw [List.foldlM_cons]
      cases hin : t0.requirements.foldlM
          (fun m2 r => pushRequiredFor m2 r t0.task_id) m with
      | none => rfl
      | some m1 =>
        show l.foldlM (fun m t =>
          t.requirements.foldlM (fun m2 r => pushRequiredFor m2 r t.task_id) m) m1 = none
        have hkeys1 : ∀ k, m1.any (fun p => p.1 == k) =
            (depBase tasks).any (fun p => p.1 == k) := by
          intro k
          rw [reqFold_keys t0.task_id t0.requirements m m1 hin k, hkeys k]
        rcases List.mem_cons.1 ht2 with ht2 | ht2
        · subst ht2
          exfalso
          rw [reqFold_miss t2.task_id t2.requirements m ⟨r2, hr2, hmiss2⟩] at hin
          cases hin
        · refine ih m1 hkeys1 ⟨t2, ht2, r2, hr2, ?_⟩
          rw [hkeys1 r2, ← hkeys r2]
          exact hmiss2
  exact key tasks (depBase tasks) (fun k => rfl)
    ⟨t, ht, r, hr, hmiss (depBase tasks) (fun k => rfl)⟩

/-- C4 (amended): a requirement referencing a result id that no task of
the request produces makes the dependency build fail, so every run
aborts (the uncaught KeyError of line 177) before producing any
scheduling state — there is no distinctly reported configuration error,
and cyclic catalogs are not rejected at all. -/
theorem unknown_requirement_aborts (ctx : Ctx) (t : TaskInstance)
    (ht : t ∈ buildAllTasks ctx.catalog ctx.quantities) (r : String)
    (hr : r ∈ t.requirements)
    (hnk : ∀ p ∈ buildAllTasks ctx.catalog ctx.quantities, p.task_id ≠ r) :
    ∀ l, runPrefix ctx l = none := by
  intro l
  unfold runPrefix
  by_cases hre : ctx.roster.isEmpty
  · rw [if_pos hre]
  · rw [if_neg hre]
    dsimp only
    rw [buildDepMap_none (buildAllTasks ctx.catalog ctx.quantities) t ht r hr hnk]

/-! ### Claim theorems C2, C6, C9, C10 -/

/-- C2. In every run over a roster of distinct worker names, each
(day, worker, time-slot) cell of the grid is written at most once: the
write trace is duplicate-free and lists exactly the non-empty cells, so
no cell ever holds two assignment records and no worker is double-booked
in a slot. -/
theorem grid_write_once (ctx : Ctx) (st : SchedState)
    (hnd : (ctx.roster.map (fun w => w.name)).Nodup)
    (hrun : assignTasksRun ctx = some st) :
    st.writes.Nodup ∧ ∀ d w s, ((d, w, s) ∈ st.writes ↔ st.grid d w s ≠ none) :=
  runPrefix_writesInv ctx (fullAgenda ctx) st hnd (List.prefix_refl _) hrun

/-- C6. At any reachable scheduler state (positive catalog durations): a
task with no requirements is admissible to every worker; a task with
requirements is admissible to an aggressive worker iff some prerequisite
result id has started (an instance with positive progress) or completed,
and to a regular worker iff every prerequisite result id has a completed
instance. -/
theorem eligibility_characterization (ctx : Ctx) (l : List Phase) (st : SchedState)
    (hpre : l <+: fullAgenda ctx) (h : runPrefix ctx l = some st)
    (hdur : ∀ r ∈ ctx.catalog, 1 ≤ r.duration) (t : TaskInstance) :
    (t.requirements = [] → ∀ isAggr : Bool,
      admissible isAggr st.partials st.completeds t = true) ∧
    (t.requirements ≠ [] →
      (admissible true st.partials st.completeds t = true ↔
        ∃ r ∈ t.requirements, ∃ (i : Nat) (ti : TaskInstance),
          st.tasks[i]? = some ti ∧ ti.task_id = r ∧
          (0 < ti.progress_percentage ∨ ti.completed = true))) ∧
    (t.requirements ≠ [] →
      (admissible false st.partials st.completeds t = true ↔
        ∀ r ∈ t.requirements, ∃ (i : Nat) (ti : TaskInstance),
          st.tasks[i]? = some ti ∧ ti.task_id = r ∧ ti.completed = true)) := by
  have hD := runPrefix_depInv ctx l st hpre h hdur
  refine ⟨fun hreq isAggr => admissible_of_no_reqs isAggr _ _ t hreq, ?_, ?_⟩
  · intro hreq
    rw [admissible_aggressive _ _ t hreq]
    constructor
    · rintro ⟨r, hr, hmem | hmem⟩
      · obtain ⟨i, ti, h1, h2, h3⟩ := hD.partialsSound r hmem
        exact ⟨r, hr, i, ti, h1, h2, Or.inl h3⟩
      · obtain ⟨i, ti, h1, h2, h3⟩ := hD.completedsSound r hmem
        exact ⟨r, hr, i, ti, h1, h2, Or.inr h3⟩
    · rintro ⟨r, hr, i, ti, h1, h2, h3 | h3⟩
      · exact ⟨r, hr, Or.inl (h2 ▸ hD.partialsComplete i ti h1 h3)⟩
      · exact ⟨r, hr, Or.inr (h2 ▸ hD.completedsComplete i ti h1 h3)⟩
  · intro hreq
    rw [admissible_regular _ _ t hreq]
    constructor
    · intro hall r hr
      obtain ⟨i, ti, h1, h2, h3⟩ := hD.completedsSound r (hall r hr)
      exact ⟨i, ti, h1, h2, h3⟩
    · intro hall r hr
      obtain ⟨i, ti, h1, h2, h3⟩ := hall r hr
      exact h2 ▸ hD.completedsComplete i ti h1 h3

/-- C9 (amended): the recorded assignment day and slot of every task
instance equal the day and slot of its LAST logged contribution — every
later contribution overwrites them — not of its first (see the
counterexample); they are `none` while no contribution is logged. -/
theorem recorded_assignment_last (ctx : Ctx) (l : List Phase) (st : SchedState)
    (i : Nat) (t : TaskInstance) (h : runPrefix ctx l = some st)
    (ht : st.tasks[i]? = some t) :
    t.day_assigned = (lastAssign st.log i).map Prod.fst ∧
    t.slot_assigned = (lastAssign st.log i).map Prod.snd :=
  runPrefix_lastAssign ctx l st h i t ht

/-- C10. Once a task instance is completed, it stays out of the pool for
the rest of the run, no later phase logs any contribution to it, its
whole record (progress, contributors, flags, day/slot) is frozen, and no
non-empty grid cell — in particular none of its cells — ever changes. -/
theorem completed_task_frame (ctx : Ctx) (l₁ l₂ : List Phase) (st₁ st₂ : SchedState)
    (i : Nat) (t : TaskInstance)
    (hnd : (ctx.roster.map (fun w => w.name)).Nodup)
    (hpre : (l₁ ++ l₂) <+: fullAgenda ctx)
    (h1 : runPrefix ctx l₁ = some st₁)
    (h2 : runPrefix ctx (l₁ ++ l₂) = some st₂)
    (ht : st₁.tasks[i]? = some t) (hc : t.completed = true) :
    st₂.tasks[i]? = some t ∧ i ∉ st₂.pool ∧
    (∃ Δ, st₂.log = st₁.log ++ Δ ∧ ∀ e ∈ Δ, e.taskIdx ≠ i) ∧
    GridMono st₁ st₂ := by
  have hInv1 : TasksInv st₁ := runPrefix_inv ctx l₁ st₁ h1
  have ha : t.assigned = true := by
    rw [hInv1.flagSync i t ht]
    exact hc
  obtain ⟨ord, hord, heq⟩ := runPrefix_append ctx l₁ l₂ st₁ h1
  rw [heq] at h2
  injection h2 with h2
  have hnodup := processingOrder_nodup _ ord hord
  have hfr := foldl_stepF_frozen ctx ord hnodup i t l₂ st₁ hInv1 ht ha
  have hrun2 : runPrefix ctx (l₁ ++ l₂) = some st₂ := by rw [heq, h2]
  have hInv2 : TasksInv st₂ := runPrefix_inv ctx (l₁ ++ l₂) st₂ hrun2
  refine ⟨?_, ?_, ?_, ?_⟩
  · rw [← h2]
    exact hfr.1
  · intro hpool
    have hfalse := hInv2.poolUn i hpool t (by rw [← h2]; exact hfr.1)
    rw [ha] at hfalse
    cases hfalse
  · rw [← h2]
    exact hfr.2
  · exact prefix_gridMono ctx l₁ l₂ st₁ st₂ hnd hpre h1 hrun2

/-! ### Concrete runs: witnesses and counterexamples -/

set_option maxRecDepth 10000

theorem some_getD {α : Type} (o : Option α) (d : α) (h : o.isSome = true) :
    some (o.getD d) = o := by
  cases o with
  | none => cases h
  | some x => rfl

def dummyCtx : Ctx :=
  { catalog := [], roster := [], quantities := [],
    aggrOf := fun x => 0, day1Aggressive := [] }

def dummyState : SchedState := initState dummyCtx [] [] []

def dummyTask : TaskInstance := mkInstance ⟨"", "", "", [], 1, 0, 0, 0, 0, 0, 0⟩

def exW1 : Worker :=
  { name := "W1", bending := 0.9, gluing := 0.5, assembling := 0.5,
    edge_scrap := 0.5, open_paper := 0.5, quality_control := 0.5,
    fav1 := "P", fav2 := "Q", fav3 := "R" }

def exW2 : Worker :=
  { name := "W2", bending := 0.8, gluing := 0.5, assembling := 0.5,
    edge_scrap := 0.5, open_paper := 0.5, quality_control := 0.5,
    fav1 := "Q", fav2 := "P", fav3 := "R" }

/-- One duration-2 task, two workers, the first aggressive: the
aggressive worker commits 1 slot (50%), then the regular worker commits
the full remaining duration (100%), overshooting to 150%. -/
def exCatalog1 : List TaskDef :=
  [{ product := "P", task_name := "A", result := "ra", requirements := [],
     duration := 2, bending := 50, gluing := 0, assembling := 0,
     edge_scrap := 0, open_paper := 0, quality_control := 0 }]

def exCtx1 : Ctx :=
  { catalog := exCatalog1, roster := [exW1, exW2], quantities := [("P", 1)],
    aggrOf := fun w => if w = "W1" then 79/100 else 1/2,
    day1Aggressive := ["W1"] }

/-- One duration-4 task and a single aggressive worker: four 1-slot
contributions at slots 0, 1, 2, 3 of day 1. -/
def exCatalog2 : List TaskDef :=
  [{ product := "P", task_name := "A", result := "ra", requirements := [],
     duration := 4, bending := 50, gluing := 0, assembling := 0,
     edge_scrap := 0, open_paper := 0, quality_control := 0 }]

def exCtx2 : Ctx :=
  { catalog := exCatalog2, roster := [exW1], quantities := [("P", 1)],
    aggrOf := fun w => 79/100, day1Aggressive := ["W1"] }

def exSt2full : SchedState := (assignTasksRun exCtx2).getD dummyState

def exT2full : TaskInstance := (exSt2full.tasks[0]?).getD dummyTask

def exL1 : List Phase := (fullAgenda exCtx2).take 5

def exL2 : List Phase := (fullAgenda exCtx2).drop 5

def exSt2a : SchedState := (runPrefix exCtx2 exL1).getD dummyState

def exSt2b : SchedState := (runPrefix exCtx2 (exL1 ++ exL2)).getD dummyState

def exT2a : TaskInstance := (exSt2a.tasks[0]?).getD dummyTask

def exSt7 : SchedState := (runPrefix exCtx2 [Phase.dayInit 1]).getD dummyState

def exT7 : TaskInstance := (exSt7.tasks[0]?).getD dummyTask

/-- Two task names requiring each other's result. -/
def cycCatalog : List TaskDef :=
  [{ product := "P", task_name := "A", result := "ra", requirements := ["rb"],
     duration := 2, bending := 50, gluing := 0, assembling := 0,
     edge_scrap := 0, open_paper := 0, quality_control := 0 },
   { product := "P", task_name := "B", result := "rb", requirements := ["ra"],
     duration := 2, bending := 50, gluing := 0, assembling := 0,
     edge_scrap := 0, open_paper := 0, quality_control := 0 }]

def cycCtx : Ctx :=
  { catalog := cycCatalog, roster := [exW1, exW2], quantities := [("P", 1)],
    aggrOf := fun w => 1/2, day1Aggressive := ["W1"] }

/-- A requirement naming a result id that no task produces. -/
def badCatalog : List TaskDef :=
  [{ product := "P", task_name := "A", result := "ra", requirements := ["zz"],
     duration := 2, bending := 50, gluing := 0, assembling := 0,
     edge_scrap := 0, open_paper := 0, quality_control := 0 }]

def badCtx : Ctx :=
  { catalog := badCatalog, roster := [exW1], quantities := [("P", 1)],
    aggrOf := fun w => 1/2, day1Aggressive := [] }

def badTask : TaskInstance :=
  mkInstance ⟨"P", "A", "ra", ["zz"], 2, 50, 0, 0, 0, 0, 0⟩

/-- An acyclic two-name chain: B requires A's result. -/
def chainCatalog : List TaskDef :=
  [{ product := "P", task_name := "A", result := "ra", requirements := [],
     duration := 1, bending := 50, gluing := 0, assembling := 0,
     edge_scrap := 0, open_paper := 0, quality_control := 0 },
   { product := "P", task_name := "B", result := "rb", requirements := ["ra"],
     duration := 1, bending := 50, gluing := 0, assembling := 0,
     edge_scrap := 0, open_paper := 0, quality_control := 0 }]

def chainTasks : List TaskInstance :=
  buildAllTasks chainCatalog [("P", 1)]

def chainRank : String → Nat := fun n => if n = "B" then 1 else 0

/-- Counterexample to the claimed 0–100 progress bound: in `exCtx1` the
single task instance ends at 150% after two overlapping contributions. -/
theorem progress_overshoot_cex :
    (assignTasksRun exCtx1).map (fun st => st.tasks.map
      (fun t => t.progress_percentage)) = some [150] := by
  decide

theorem grid_write_once_witness :
    exSt2full.writes.Nodup ∧
    ∀ d w s, ((d, w, s) ∈ exSt2full.writes ↔ exSt2full.grid d w s ≠ none) :=
  grid_write_once exCtx2 exSt2full (by decide)
    (some_getD (assignTasksRun exCtx2) dummyState (by decide)).symm

theorem dependency_resolver_correct_witness :
    ∃ ord, processingOrder chainTasks = some ord ∧ ord.Nodup ∧
      (∀ n, n ∈ ord ↔ n ∈ groupKeys chainTasks) ∧
      (∀ n ∈ ord, ∀ t, chainTasks.find? (fun x => x.task_name == n) = some t →
        ∀ r ∈ t.requirements, ∀ pn, producerName chainTasks r = some pn →
          ListBefore ord pn n) :=
  dependency_resolver_correct chainTasks chainRank (by decide) (by decide)

theorem unknown_requirement_aborts_witness : runPrefix badCtx [] = none :=
  unknown_requirement_aborts badCtx badTask (by decide) "zz" (by decide) (by decide) []

/-- Counterexample to the claimed cycle rejection: the mutually
dependent pair is silently ordered and the run completes. -/
theorem cycle_not_rejected_cex :
    processingOrder (buildAllTasks cycCtx.catalog cycCtx.quantities) =
      some ["B", "A"] ∧
    (assignTasksRun cycCtx).isSome = true := by
  constructor
  · decide
  · decide

theorem eligibility_characterization_witness :
    (exT2full.requirements = [] → ∀ isAggr : Bool,
      admissible isAggr exSt2full.partials exSt2full.completeds exT2full = true) ∧
    (exT2full.requirements ≠ [] →
      (admissible true exSt2full.partials exSt2full.completeds exT2full = true ↔
        ∃ r ∈ exT2full.requirements, ∃ (i : Nat) (ti : TaskInstance),
          exSt2full.tasks[i]? = some ti ∧ ti.task_id = r ∧
          (0 < ti.progress_percentage ∨ ti.completed = true))) ∧
    (exT2full.requirements ≠ [] →
      (admissible false exSt2full.partials exSt2full.completeds exT2full = true ↔
        ∀ r ∈ exT2full.requirements, ∃ (i : Nat) (ti : TaskInstance),
          exSt2full.tasks[i]? = some ti ∧ ti.task_id = r ∧ ti.completed = true)) :=
  eligibility_characterization exCtx2 (fullAgenda exCtx2) exSt2full
    (List.prefix_refl _)
    (some_getD (assignTasksRun exCtx2) dummyState (by decide)).symm
    (by decide) exT2full

theorem allocation_committed_witness :
    AllocationConcl exCtx2 1 0 exSt7 "W1" 0 exT7 :=
  allocation_committed exCtx2 1 0 exSt7 "W1" exW1 0 exT7 (by decide) (by decide)
    (some_getD (exSt7.tasks[0]?) dummyTask (by decide)).symm (by decide) (by decide)
    (by decide)

theorem recorded_assignment_last_witness :
    exT2full.day_assigned = (lastAssign exSt2full.log 0).map Prod.fst ∧
    exT2full.slot_assigned = (lastAssign exSt2full.log 0).map Prod.snd :=
  recorded_assignment_last exCtx2 (fullAgenda exCtx2) exSt2full 0 exT2full
    (some_getD (assignTasksRun exCtx2) dummyState (by decide)).symm
    (some_getD (exSt2full.tasks[0]?) dummyTask (by decide)).symm

/-- Counterexample to the claimed first-assignment semantics: in
`exCtx2` the first logged contribution to the task is at day 1 slot 0,
but the recorded day/slot are day 1 slot 3 — the last contribution. -/
theorem first_assignment_cex :
    (exSt2full.log.filter (fun e => e.taskIdx == 0)).head?.map
        (fun e => (e.day, e.slot)) = some (1, 0) ∧
    exSt2full.tasks[0]?.map (fun t => (t.day_assigned, t.slot_assigned)) =
      some (some 1, some 3) := by
  constructor
  · decide
  · decide

theorem completed_task_frame_witness :
    exSt2b.tasks[0]? = some exT2a ∧ 0 ∉ exSt2b.pool ∧
    (∃ Δ, exSt2b.log = exSt2a.log ++ Δ ∧ ∀ e ∈ Δ, e.taskIdx ≠ 0) ∧
    GridMono exSt2a exSt2b :=
  completed_task_frame exCtx2 exL1 exL2 exSt2a exSt2b 0 exT2a
    (by decide)
    (by
      show (fullAgenda exCtx2).take 5 ++ (fullAgenda exCtx2).drop 5 <+:
        fullAgenda exCtx2
      rw [List.take_append_drop])
    (some_getD (runPrefix exCtx2 exL1) dummyState (by decide)).symm
    (some_getD (runPrefix exCtx2 (exL1 ++ exL2)) dummyState (by decide)).symm
    (some_getD (exSt2a.tasks[0]?) dummyTask (by decide)).symm
    (by decide)

end TaskAssign
